import Mathlib

/-! Mordor logging subsystem (`src/mordor/log.cpp`) and memory stream
(`src/mordor/common/streams/memory.cpp`).

A shallow embedding of the logger registry of `log.cpp`; the embedding of
`MemoryStream` follows it.

* Logger objects live in a heap indexed by natural numbers; the index of a
  logger is its identity (the address held by a `Logger::ptr`).  The root
  logger `Log::root()` is the object at index `0`.
* Names are `std::string` values: finite lists of bytes (`Nat` below 256).
* `std::set<Logger::ptr, LoggerLess>` is a list of logger identities kept in
  strictly ascending `LoggerLess` order.
* `while (true)` loops and recursion carry an explicit fuel argument.
-/

namespace Mordor

/-! ## Strings -/

/-- A `std::string`: its bytes, in order. -/
abbrev Name := List Nat

/-- The bytes of an ASCII literal. -/
def ascii (s : String) : Name := s.toList.map Char.toNat

/-- The byte `':'`. -/
def colon : Nat := 58

/-- `std::string::operator<`: lexicographic comparison of the bytes, a proper
prefix being smaller. -/
def strLt : Name → Name → Bool
  | [], [] => false
  | [], _ :: _ => true
  | _ :: _, [] => false
  | a :: as, b :: bs => if a < b then true else if b < a then false else strLt as bs

/-- `s[i]` for `i ≤ s.length()`; the byte at `s.length()` is the terminating NUL. -/
def charAt (s : Name) (i : Nat) : Nat := s.getD i 0

/-- `strncmp(a.c_str(), b.c_str(), n) == 0`: the first `n` bytes agree, the
comparison stopping early at a NUL byte present in both. -/
def strncmpEq : Name → Name → Nat → Bool
  | _, _, 0 => true
  | a, b, n + 1 =>
    if charAt a 0 ≠ charAt b 0 then false
    else if charAt a 0 = 0 then true
    else strncmpEq a.tail b.tail n

/-! ## Levels -/

/-- `Log::Level`, in the order of the `levelStrs` table. -/
inductive Level where
  | NONE | FATAL | ERROR | WARNING | INFO | TRACE | VERBOSE
  deriving DecidableEq, Repr

/-- Numeric value of a level (its index in `levelStrs`). -/
def Level.toNat : Level → Nat
  | .NONE => 0 | .FATAL => 1 | .ERROR => 2 | .WARNING => 3
  | .INFO => 4 | .TRACE => 5 | .VERBOSE => 6

/-! ## Loggers and the heap -/

/-- The data members of `Logger`. -/
structure Logger where
  m_name : Name
  /-- The weak back reference; `none` is the empty `weak_ptr`. -/
  m_parent : Option Nat
  m_level : Level
  m_inheritSinks : Bool
  /-- `std::list<LogSink::ptr>`: sink identities in insertion order. -/
  m_sinks : List Nat
  /-- `std::set<Logger::ptr, LoggerLess>` in iteration order. -/
  m_children : List Nat

/-- `Logger::Logger()`: the root constructor.  It initialises `m_name` and
`m_inheritSinks` only; `m_level` is left as whatever the allocation holds,
given here as `lvl`. -/
def Logger.mkRoot (lvl : Level) : Logger :=
  { m_name := [colon], m_parent := none, m_level := lvl, m_inheritSinks := false,
    m_sinks := [], m_children := [] }

/-- `Logger::Logger(const std::string &name, Logger::ptr parent)`. -/
def Logger.new (name : Name) (parent : Nat) : Logger :=
  { m_name := name, m_parent := some parent, m_level := Level.INFO, m_inheritSinks := true,
    m_sinks := [], m_children := [] }

/-- All logger objects allocated so far: `node i` for `i < size`. -/
structure Heap where
  size : Nat
  node : Nat → Logger

namespace Heap

/-- `new Logger(...)`: the new object gets the next free identity. -/
def alloc (h : Heap) (l : Logger) : Heap :=
  { size := h.size + 1, node := fun i => if i = h.size then l else h.node i }

/-- Update of the object with identity `i`. -/
def modify (h : Heap) (i : Nat) (f : Logger → Logger) : Heap :=
  { size := h.size, node := fun j => if j = i then f (h.node j) else h.node j }

def name (h : Heap) (i : Nat) : Name := (h.node i).m_name

def parent (h : Heap) (i : Nat) : Option Nat := (h.node i).m_parent

def children (h : Heap) (i : Nat) : List Nat := (h.node i).m_children

def level (h : Heap) (i : Nat) : Level := (h.node i).m_level

def sinks (h : Heap) (i : Nat) : List Nat := (h.node i).m_sinks

def inheritSinks (h : Heap) (i : Nat) : Bool := (h.node i).m_inheritSinks

end Heap

/-- `LoggerLess::operator()`: `lhs->m_name < rhs->m_name`. -/
def LoggerLess (h : Heap) (lhs rhs : Nat) : Bool := strLt (h.name lhs) (h.name rhs)

/-! ## `std::set` operations on a child set -/

/-- `m_children.lower_bound(dummyPtr)` where the dummy logger is named `name`:
the position of the first element that is not less than the dummy, given as
the elements from that position on (`[]` is `end()`). -/
def lowerBound (h : Heap) (name : Name) : List Nat → List Nat
  | [] => []
  | c :: cs => if strLt (h.name c) name then lowerBound h name cs else c :: cs

/-- `m_children.insert(x)`: `x` is placed in order unless an equivalent
element (neither less than the other) is already present. -/
def setInsert (h : Heap) (x : Nat) : List Nat → List Nat
  | [] => [x]
  | c :: cs =>
    if LoggerLess h c x then c :: setInsert h x cs
    else if LoggerLess h x c then x :: c :: cs
    else c :: cs

/-- `m_children.erase(it)` where `it` points at `x`. -/
def setErase (x : Nat) (cs : List Nat) : List Nat := cs.erase x

/-! ## `Log::root` and `Log::lookup` -/

/-- The registry right after `Log::root()` has built the root logger. -/
def Log.init (lvl : Level) : Heap := { size := 1, node := fun _ => Logger.mkRoot lvl }

/-- `Log::root()`. -/
def Log.root : Nat := 0

/-- The two final statements of `Log::lookup` (and its `end()` branch):
`Logger::ptr child(new Logger(name, log)); log->m_children.insert(child);`. -/
def newChild (h : Heap) (name : Name) (log : Nat) : Heap × Nat :=
  let child := h.size
  let h1 := h.alloc (Logger.new name log)
  (h1.modify log (fun l => { l with m_children := setInsert h1 child l.m_children }), child)

/-- The splice branch of `Log::lookup`, `child` being `*it` after `++it`. -/
def splice (h : Heap) (name : Name) (log child : Nat) : Heap × Nat :=
  let parent := h.size
  let h1 := h.alloc (Logger.new name log)
  let h2 := h1.modify log (fun l => { l with m_children := setErase child l.m_children })
  let h3 := h2.modify log (fun l => { l with m_children := setInsert h2 parent l.m_children })
  let h4 := h3.modify parent (fun l => { l with m_children := setInsert h3 child l.m_children })
  (h4.modify child (fun l => { l with m_parent := some parent }), parent)

/-- The `while (true)` loop of `Log::lookup`, `log` being the current logger.
`none` means the fuel ran out before the loop returned. -/
def lookupLoop (name : Name) : Nat → Heap → Nat → Option (Heap × Nat)
  | 0, _, _ => none
  | fuel + 1, h, log =>
    match lowerBound h name (h.children log) with
    | [] => some (newChild h name log)
    | it :: rest =>
      if h.name it = name then some (h, it)
      else if name.length > (h.name it).length ∧ charAt name (h.name it).length = colon ∧
          strncmpEq (h.name it) name (h.name it).length = true then
        lookupLoop name fuel h it
      else
        match rest with
        | it2 :: _ =>
          if (h.name it2).length > name.length ∧ charAt (h.name it2) name.length = colon ∧
              strncmpEq (h.name it2) name name.length = true then
            some (splice h name log it2)
          else some (newChild h name log)
        | [] => some (newChild h name log)

/-- `Log::lookup(name)`: the registry after the call and the logger returned. -/
def Log.lookup (name : Name) (h : Heap) : Option (Heap × Nat) :=
  lookupLoop name (name.length + 2) h Log.root

/-- A sequence of `Log::lookup` calls: the final registry and the loggers
returned, in call order. -/
def Log.lookups : List Name → Heap → Option (Heap × List Nat)
  | [], h => some (h, [])
  | n :: ns, h =>
    match Log.lookup n h with
    | none => none
    | some (h1, r) =>
      match Log.lookups ns h1 with
      | none => none
      | some (h2, rs) => some (h2, r :: rs)

/-- The loggers of the tree: the root and everything below it through
`m_children`. -/
inductive InTree (h : Heap) : Nat → Prop
  | root : InTree h Log.root
  | child {p c : Nat} : InTree h p → c ∈ h.children p → InTree h c

/-- `x` itself or a logger below `x` through `m_children`, at any depth. -/
inductive InSubtree (h : Heap) (x : Nat) : Nat → Prop
  | self : InSubtree h x x
  | child {p c : Nat} : InSubtree h x p → c ∈ h.children p → InSubtree h x c

/-- The logger reached from `i` by following `m_parent` exactly `k` times. -/
def ancestor (h : Heap) : Nat → Nat → Option Nat
  | 0, i => some i
  | k + 1, i =>
    match h.parent i with
    | none => none
    | some p => ancestor h k p

/-! ## `Log::visit` -/

/-- The `while (!toVisit.empty())` loop of `Log::visit`: the loggers handed to
the callback `dg`, in call order, for a callback that leaves the child sets
alone.  `none` means the fuel ran out with loggers still queued. -/
def visitLoop (h : Heap) : Nat → List Nat → Option (List Nat)
  | _, [] => some []
  | 0, _ :: _ => none
  | fuel + 1, cur :: toVisit =>
    match visitLoop h fuel (toVisit ++ h.children cur) with
    | none => none
    | some out => some (cur :: out)

/-- `Log::visit(dg)`: the sequence of loggers `dg` is invoked on. -/
def Log.visit (h : Heap) : Option (List Nat) := visitLoop h h.size [Log.root]

/-- The loggers at depth `k`, left to right: depth 0 is the root, and depth
`k + 1` lists the children of each logger of depth `k`, in child-set order. -/
def bfsLevel (h : Heap) : Nat → List Nat
  | 0 => [Log.root]
  | k + 1 => (bfsLevel h k).flatMap h.children

/-! ## `Logger::level` -/

/-- Modelled from the spec: the default argument of `propagate` in the
declaration of `Logger::level` (`log.h`), used by the recursive call
`(*it)->level(level)`; section 4.1 has the level assigned recursively to
every descendant. -/
def level_propagate_default : Bool := true

/-- `Logger::level(level, propagate)` on the logger `self`, with fuel for the
recursion depth. -/
def levelLoop : Nat → Heap → Nat → Level → Bool → Option Heap
  | 0, _, _, _, _ => none
  | fuel + 1, h, self, level, propagate =>
    let h1 := h.modify self (fun l => { l with m_level := level })
    if propagate then
      (h1.children self).foldlM
        (fun acc c => levelLoop fuel acc c level level_propagate_default) h1
    else some h1

/-- Length of the longest logger name in the registry. -/
def maxNameLen (h : Heap) : Nat :=
  ((List.range h.size).map (fun i => (h.name i).length)).foldr max 0

/-- `Logger::level(level, propagate)`, the fuel covering any chain of loggers
whose names grow on the way down. -/
def Logger.level (h : Heap) (self : Nat) (level : Level) (propagate : Bool) : Option Heap :=
  levelLoop (maxNameLen h + 2) h self level propagate

/-! ## Sinks and `Logger::log` -/

/-- Modelled from the spec: `Logger::addSink` (declared in `log.h`), which
appends to the local sink list, kept in insertion order. -/
def Logger.addSink (h : Heap) (self sink : Nat) : Heap :=
  h.modify self (fun l => { l with m_sinks := l.m_sinks ++ [sink] })

/-- `Logger::removeSink(sink)`: erases the first occurrence found by
`std::find`, if any. -/
def Logger.removeSink (h : Heap) (self sink : Nat) : Heap :=
  h.modify self (fun l => { l with m_sinks := l.m_sinks.erase sink })

/-- Modelled from the spec: `Logger::enabled` (declared in `log.h`),
`level ≤ this.level`. -/
def Logger.enabled (h : Heap) (self : Nat) (level : Level) : Bool :=
  decide (level.toNat ≤ (h.level self).toNat)

/-- One call `sink->log(logger, thread, fiber, level, str, file, line)`. -/
structure SinkCall where
  sink : Nat
  logger : Name
  thread : Nat
  fiber : Nat
  level : Level
  str : Name
  file : Option Name
  line : Int
  deriving DecidableEq, Repr

/-- What a call of `Logger::log` has done once it has returned, thrown, or
used up the loop iterations it was given. -/
structure LogOutcome where
  /-- The sink calls made, in order. -/
  calls : List SinkCall
  /-- The `while (_this)` loop has been left. -/
  finished : Bool
  /-- The FATAL branch has thrown the `Assertion`. -/
  thrown : Bool
  deriving DecidableEq, Repr

/-- The `while (_this)` loop of `Logger::log` running on the logger `self`,
observed for at most `fuel` iterations: the sink calls made and whether the
loop was left.  `call s` is the call made on sink `s`. -/
def logWalk (h : Heap) (self : Nat) (call : Nat → SinkCall) :
    Nat → Option Nat → List SinkCall × Bool
  | _, none => ([], true)
  | 0, some _ => ([], false)
  | fuel + 1, some cur =>
    if h.inheritSinks cur = false then ((h.sinks cur).map call, true)
    else
      -- `_this = m_parent.lock();` reads the parent of `self`, not of `_this`
      let r := logWalk h self call fuel (h.parent self)
      ((h.sinks cur).map call ++ r.1, r.2)

/-- `Logger::log(level, str, file, line)` on the logger `self`, where `thread`
and `fiber` are what `getpid()` and `Fiber::getThis().get()` return, observed
for at most `fuel` iterations of its loop. -/
def Logger.log (h : Heap) (self : Nat) (thread fiber : Nat) (level : Level) (str : Name)
    (file : Option Name) (line : Int) (fuel : Nat) : LogOutcome :=
  if str = [] ∨ Logger.enabled h self level = false then
    { calls := [], finished := true, thrown := false }
  else
    let w := logWalk h self
      (fun s => { sink := s, logger := h.name self, thread := thread, fiber := fiber,
                  level := level, str := str, file := file, line := line })
      fuel (some self)
    { calls := w.1, finished := w.2, thrown := w.2 && decide (level = Level.FATAL) }

/-! ## Reachable registries -/

/-- Two registries with the same loggers, names, parent links and child sets. -/
def SameShape (h h1 : Heap) : Prop :=
  h1.size = h.size ∧ ∀ i, h1.name i = h.name i ∧ h1.parent i = h.parent i ∧
    h1.children i = h.children i

/-- The registries the program can be in: `Log::root()` builds the root,
after which loggers are looked up and levels are set; `edit` covers every
other operation, none of which touches names, parent links or child sets
(`addSink`, `removeSink`, `clearSinks`, the `inheritSinks` flag). -/
inductive Reachable : Heap → Prop
  | init (lvl : Level) : Reachable (Log.init lvl)
  | lookup {h h1 : Heap} {name : Name} {r : Nat} :
      Reachable h → Log.lookup name h = some (h1, r) → Reachable h1
  | level {h h1 : Heap} {x : Nat} {l : Level} {p : Bool} :
      Reachable h → x < h.size → Logger.level h x l p = some h1 → Reachable h1
  | edit {h h1 : Heap} : Reachable h → SameShape h h1 → Reachable h1

/-- The registry after the lookups `ns`, in order, on a fresh root (the fresh
root itself should one of them not return). -/
def Log.run (lvl : Level) (ns : List Name) : Heap :=
  match Log.lookups ns (Log.init lvl) with
  | some (h, _) => h
  | none => Log.init lvl

/-! ## Well-formed registries -/

/-- A child set in strictly ascending `LoggerLess` order. -/
def SortedSet (h : Heap) (cs : List Nat) : Prop :=
  cs.Pairwise (fun a b => LoggerLess h a b = true)

/-- The shape every registry built by `Log::lookup` has: parent links and
child sets agree, names grow below every logger but the root, and child sets
are ordered by name. -/
structure TreeInv (h : Heap) : Prop where
  root_valid : 0 < h.size
  root_parent : h.parent 0 = none
  parent_of : ∀ i, i < h.size → i ≠ 0 →
    ∃ p, p < h.size ∧ h.parent i = some p ∧ i ∈ h.children p
  child_of : ∀ q, q < h.size → ∀ i, i ∈ h.children q →
    i < h.size ∧ i ≠ 0 ∧ h.parent i = some q
  longer : ∀ q, q < h.size → q ≠ 0 → ∀ i, i ∈ h.children q →
    (h.name q).length < (h.name i).length
  sorted : ∀ q, q < h.size → SortedSet h (h.children q)

/-- An update of `m_children` alone, the new set computed by `g`. -/
def setChildren (g : List Nat → List Nat) (l : Logger) : Logger :=
  { l with m_children := g l.m_children }

/-- An update of `m_parent` alone. -/
def setParent (p : Option Nat) (l : Logger) : Logger := { l with m_parent := p }

/-- The loop of `Log::lookup` may be at `p`: at the root, or at a logger it
descended into (the "Child of existing logger" test held for it). -/
def Descends (h : Heap) (name : Name) (p : Nat) : Prop :=
  p = Log.root ∨ (name.length > (h.name p).length ∧ charAt name (h.name p).length = colon ∧
    strncmpEq (h.name p) name (h.name p).length = true)

/-- The three ways a call `Log::lookup(name)` ends: an existing logger of that
name is returned, a new leaf is attached to `p`, or a new logger is spliced in
between `p` and its child `c`. -/
def LookupStep (name : Name) (h h1 : Heap) (r : Nat) : Prop :=
  (h1 = h ∧ r < h.size ∧ h.name r = name) ∨
  (∃ p, p < h.size ∧ Descends h name p ∧ (∀ c, c ∈ h.children p → h.name c ≠ name) ∧
    (h1, r) = newChild h name p) ∨
  (∃ p c, p < h.size ∧ Descends h name p ∧ c ∈ h.children p ∧
    (∀ d, d ∈ h.children p → h.name d ≠ name) ∧
    ((h.name c).length > name.length ∧ charAt (h.name c) name.length = colon ∧
      strncmpEq (h.name c) name name.length = true) ∧
    (h1, r) = splice h name p c)

/-- An update of `m_level` alone. -/
def setLevel (lv : Level) (l : Logger) : Logger := { l with m_level := lv }

/-- A name without a NUL byte. -/
def NulFree (n : Name) : Prop := ∀ x, x ∈ n → x ≠ 0

instance (n : Name) : Decidable (NulFree n) := by
  unfold NulFree
  infer_instance

/-- No logger of the registry has a NUL byte in its name. -/
def NamesNulFree (h : Heap) : Prop := ∀ i, i < h.size → NulFree (h.name i)

/-- The registry after the lookups of `a:a`, `a:b`, `a` (so that `a:b`, logger
2, is a child of `a`, logger 3, itself a child of the root), with sink 1
added to the root and sink 2 added to `a`. -/
def spliced_with_sinks : Heap :=
  Logger.addSink (Logger.addSink (Log.run Level.INFO [ascii "a:a", ascii "a:b", ascii "a"])
    Log.root 1) 3 2

/-- The registry after the lookups of `a`, `a:b`, with sink 1 added to the
root and sink 2 added to `a` (logger 1). -/
def siblings_with_sinks : Heap :=
  Logger.addSink (Logger.addSink (Log.run Level.INFO [ascii "a", ascii "a:b"]) Log.root 1) 1 2

/-- Below every logger but the root, each child's name starts with the
logger's name followed by a colon. -/
def PrefixInv (h : Heap) : Prop :=
  ∀ q, q < h.size → q ≠ Log.root → ∀ c, c ∈ h.children q → h.name q ++ [colon] <+: h.name c

/-! ## The mask handler -/

/-- A compiled `boost::regex`, given by the strings `boost::regex_match`
accepts for it. -/
abbrev Regex := Name → Bool

/-- `enableLogger(logger, fatalRegex, ..., verboseRegex)`. -/
def enableLogger (h : Heap) (logger : Nat)
    (fatalRegex errorRegex warnRegex infoRegex traceRegex verboseRegex : Regex) :
    Option Heap :=
  let level := Level.NONE
  let level := if fatalRegex (h.name logger) then Level.FATAL else level
  let level := if errorRegex (h.name logger) then Level.ERROR else level
  let level := if warnRegex (h.name logger) then Level.WARNING else level
  let level := if infoRegex (h.name logger) then Level.INFO else level
  let level := if traceRegex (h.name logger) then Level.TRACE else level
  let level := if verboseRegex (h.name logger) then Level.VERBOSE else level
  if h.level logger ≠ level then Logger.level h logger level false else some h

/-- The `while (!toVisit.empty())` loop of `Log::visit` for a callback `dg`
that updates the registry.  `none` means that the fuel ran out or that the
callback did not return. -/
def visitLoopWith (dg : Heap → Nat → Option Heap) : Nat → Heap → List Nat → Option Heap
  | _, h, [] => some h
  | 0, _, _ :: _ => none
  | fuel + 1, h, cur :: toVisit =>
    match dg h cur with
    | none => none
    | some h1 => visitLoopWith dg fuel h1 (toVisit ++ h1.children cur)

/-- `Log::visit(dg)`: the registry after the traversal. -/
def Log.visitWith (dg : Heap → Nat → Option Heap) (h : Heap) : Option Heap :=
  visitLoopWith dg h.size h [Log.root]

/-- `enableLoggers()`, the six arguments being the regexes it compiles from
`"^" + mask + "$"` for the fatal, error, warn, info, trace and verbose masks. -/
def enableLoggers (fatalRegex errorRegex warnRegex infoRegex traceRegex verboseRegex : Regex)
    (h : Heap) : Option Heap :=
  Log.visitWith
    (fun a logger =>
      enableLogger a logger fatalRegex errorRegex warnRegex infoRegex traceRegex verboseRegex)
    h

/-- The noisiest level whose mask matches, NONE when no mask matches; the
arguments are the match results of the six masks. -/
def noisiestMatch (fatal error warn info trace verbose : Bool) : Level :=
  if verbose then Level.VERBOSE
  else if trace then Level.TRACE
  else if info then Level.INFO
  else if warn then Level.WARNING
  else if error then Level.ERROR
  else if fatal then Level.FATAL
  else Level.NONE

/-! ## The built-in sinks -/

/-- The table `levelStrs`. -/
def levelStrs : List Name :=
  [ascii "NONE", ascii "FATAL", ascii "ERROR", ascii "WARN", ascii "INFO", ascii "TRACE",
    ascii "VERBOSE"]

/-- `operator<<(std::ostream &, Log::Level)`: the text put on the stream, or
`none` when `MORDOR_ASSERT(level >= Log::FATAL && level <= Log::VERBOSE)`
fails (`MORDOR_ASSERT` is defined in `assert.h`, not under src/, and is taken
to raise on a false condition). -/
def levelToStream (level : Level) : Option Name :=
  if Level.FATAL.toNat ≤ level.toNat ∧ level.toNat ≤ Level.VERBOSE.toNat then
    some (levelStrs.getD level.toNat [])
  else none

/-- The decimal digits `os << n` writes for an unsigned integer. -/
def decimal (n : Nat) : Name := (Nat.toDigits 10 n).map Char.toNat

/-- The text `os << line` writes for an `int`. -/
def decimalInt (z : Int) : Name :=
  if z < 0 then 45 :: decimal z.natAbs else decimal z.natAbs

/-- `StdoutLogSink::log`: the text sent to `std::cout`, or `none` when the
level assertion fails.  `showPtr` is the text `os << fiber` writes for a
`void *`, which the C++ library chooses. -/
def StdoutLogSink.log (showPtr : Nat → Name) (logger : Name) (thread fiber : Nat)
    (level : Level) (str : Name) (file : Option Name) (line : Int) : Option Name :=
  match levelToStream level with
  | none => none
  | some lv =>
    match file with
    | some f =>
      some (lv ++ ascii " " ++ decimal thread ++ ascii " " ++ showPtr fiber ++ ascii " " ++
        logger ++ ascii " " ++ f ++ ascii ":" ++ decimalInt line ++ ascii " " ++ str ++ [10])
    | none =>
      some (lv ++ ascii " " ++ decimal thread ++ ascii " " ++ showPtr fiber ++ ascii " " ++
        logger ++ ascii " " ++ str ++ [10])

/-- `FileLogSink::log`: the text handed to `m_stream->write`, or `none` when
the level assertion fails. -/
def FileLogSink.log (showPtr : Nat → Name) (logger : Name) (thread fiber : Nat)
    (level : Level) (str : Name) (file : Option Name) (line : Int) : Option Name :=
  match levelToStream level with
  | none => none
  | some lv =>
    match file with
    | some f =>
      let logline := lv ++ ascii " " ++ decimal thread ++ ascii " " ++ showPtr fiber ++
        ascii " " ++ logger ++ ascii " " ++ f ++ ascii ":" ++ decimalInt line ++ ascii " " ++
        str ++ [10]
      some logline
    | none =>
      let logline := lv ++ ascii " " ++ decimal thread ++ ascii " " ++ showPtr fiber ++
        ascii " " ++ logger ++ ascii " " ++ str ++ [10]
      some logline

/-- The token the log line starts with, for each level, as section 6 of the
specification lists them. -/
def levelToken : Level → Name
  | .NONE => ascii "NONE"
  | .FATAL => ascii "FATAL"
  | .ERROR => ascii "ERROR"
  | .WARNING => ascii "WARN"
  | .INFO => ascii "INFO"
  | .TRACE => ascii "TRACE"
  | .VERBOSE => ascii "VERBOSE"

/-! ## The sink handlers -/

/-- A sink object of one of the two classes of `log.cpp`. -/
inductive LogSink where
  /-- A `StdoutLogSink`. -/
  | stdout
  /-- A `FileLogSink`, with its `m_file`. -/
  | file (m_file : Name)
  deriving DecidableEq, Repr

/-- `FileLogSink::FileLogSink(file)`: opens the append stream and remembers the
path.  `FileStream` is not under src/; opening is taken to succeed. -/
def FileLogSink.new (file : Name) : LogSink := LogSink.file file

/-- `FileLogSink::file()` (declared in `log.h`), reading `m_file`. -/
def LogSink.path : LogSink → Name
  | .stdout => []
  | .file m_file => m_file

/-- `Log::addSink(sink)`: `root()->addSink(sink)`. -/
def Log.addSink (h : Heap) (sink : Nat) : Heap := Logger.addSink h Log.root sink

/-- `Log::removeSink(sink)`: `root()->removeSink(sink)`. -/
def Log.removeSink (h : Heap) (sink : Nat) : Heap := Logger.removeSink h Log.root sink

/-- The registry together with the sink objects and the two function-local
statics of the sink handlers. -/
structure Process where
  heap : Heap
  /-- Every sink object constructed so far; the identity of a sink is its
  position. -/
  sinkObjs : List LogSink
  /-- `static LogSink::ptr stdoutSink` of `enableStdoutLogging`. -/
  stdoutSink : Option Nat
  /-- `static LogSink::ptr fileSink` of `enableFileLogging`. -/
  fileSink : Option Nat

/-- `enableStdoutLogging()`, `log` being `g_logStdout->val()`. -/
def enableStdoutLogging (log : Bool) (st : Process) : Process :=
  match st.stdoutSink with
  | some s =>
    if log = false then
      { st with heap := Log.removeSink st.heap s, stdoutSink := none }
    else st
  | none =>
    if log = true then
      let s := st.sinkObjs.length
      { st with sinkObjs := st.sinkObjs ++ [LogSink.stdout], stdoutSink := some s,
                heap := Log.addSink st.heap s }
    else st

/-- `enableFileLogging()`, `file` being `g_logFile->val()`. -/
def enableFileLogging (file : Name) (st : Process) : Process :=
  match st.fileSink with
  | some s =>
    if file = [] then
      { st with heap := Log.removeSink st.heap s, fileSink := none }
    else if ((st.sinkObjs.getD s LogSink.stdout).path = file) then st
    else
      let t := st.sinkObjs.length
      { st with sinkObjs := st.sinkObjs ++ [FileLogSink.new file], fileSink := some t,
                heap := Log.addSink (Log.removeSink st.heap s) t }
  | none =>
    if file = [] then st
    else
      let t := st.sinkObjs.length
      { st with sinkObjs := st.sinkObjs ++ [FileLogSink.new file], fileSink := some t,
                heap := Log.addSink st.heap t }

/-- The stdout handler run after each of the values `vals` of `log.stdout`. -/
def runStdout (vals : List Bool) (st : Process) : Process :=
  vals.foldl (fun s v => enableStdoutLogging v s) st

/-- The file handler run after each of the values `vals` of `log.file`. -/
def runFile (vals : List Name) (st : Process) : Process :=
  vals.foldl (fun s v => enableFileLogging v s) st

/-- The process at start-up: the root built, no sink object yet, both handles
empty. -/
def Process.start (lvl : Level) : Process :=
  { heap := Log.init lvl, sinkObjs := [], stdoutSink := none, fileSink := none }

/-- What the stdout handler keeps true, `sinks0` being the root's sink list
before the handler first ran, `n0` the number of sink objects at that time and
`cur` the value of `log.stdout` last handled. -/
def StdoutInv (sinks0 : List Nat) (n0 : Nat) (cur : Bool) (st : Process) : Prop :=
  n0 ≤ st.sinkObjs.length ∧
  (cur = true → ∃ s, st.stdoutSink = some s ∧ n0 ≤ s ∧ st.sinkObjs[s]? = some LogSink.stdout ∧
    st.heap.sinks Log.root = sinks0 ++ [s]) ∧
  (cur = false → st.stdoutSink = none ∧ st.heap.sinks Log.root = sinks0)

/-- What the file handler keeps true, `cur` being the value of `log.file` last
handled. -/
def FileInv (sinks0 : List Nat) (n0 : Nat) (cur : Name) (st : Process) : Prop :=
  n0 ≤ st.sinkObjs.length ∧
  (cur ≠ [] → ∃ s, st.fileSink = some s ∧ n0 ≤ s ∧
    st.sinkObjs[s]? = some (LogSink.file cur) ∧ st.heap.sinks Log.root = sinks0 ++ [s]) ∧
  (cur = [] → st.fileSink = none ∧ st.heap.sinks Log.root = sinks0)

/-! ## `MemoryStream` (`src/mordor/common/streams/memory.cpp`)

`size_t` is taken as a 64-bit unsigned and `long long` as a 64-bit signed
integer.  Memory exhaustion is not modelled. -/

/-- `(size_t)~0`. -/
def SIZE_MAX : Nat := 2 ^ 64 - 1

/-- Conversion of an integer value to `size_t` or `unsigned long long`. -/
def toSizeT (z : Int) : Nat := (z % 2 ^ 64).toNat

/-- Conversion of an integer value to `long long`. -/
def toLongLong (z : Int) : Int := (z + 2 ^ 63) % 2 ^ 64 - 2 ^ 63

/-- A `Buffer` (declared in `buffer.h`, not under src/), given by the bytes it
has available to read, in order. -/
abbrev Buffer := List Nat

namespace Buffer

/-- `readAvailable()`. -/
def readAvailable (b : Buffer) : Nat := b.length

/-- `copyIn(src, len)`: appends the first `len` readable bytes of `src` (for a
`const void *` source, the `len` bytes it points at). -/
def copyIn (b src : Buffer) (len : Nat) : Buffer := b ++ src.take len

/-- `copyIn(src)`: appends all readable bytes of `src`. -/
def copyInAll (b src : Buffer) : Buffer := b ++ src

/-- `consume(len)`: drops the first `len` readable bytes. -/
def consume (b : Buffer) (len : Nat) : Buffer := b.drop len

/-- `clear()`. -/
def clear (_ : Buffer) : Buffer := []

/-- `reserve(needed)`, `memset` of the write buffers to 0 and `produce(needed)`:
appends `needed` zero bytes. -/
def produceZeros (b : Buffer) (needed : Nat) : Buffer := b ++ List.replicate needed 0

end Buffer

/-- The data members of `MemoryStream`. -/
structure MemoryStream where
  m_read : Buffer
  m_original : Buffer
  m_offset : Nat
  deriving DecidableEq, Repr

/-- `Stream::Anchor`. -/
inductive Anchor where
  | BEGIN | CURRENT | END
  deriving DecidableEq, Repr

/-- What a `MemoryStream` member function can raise. -/
inductive StreamError where
  /-- `std::invalid_argument("resulting offset is negative")`. -/
  | negativeOffset
  /-- `std::invalid_argument("Memory stream position cannot exceed virtual
  address space.")`, or the same for the size. -/
  | exceedsAddressSpace
  /-- A failed `assert`. -/
  | assertion
  deriving DecidableEq, Repr

namespace MemoryStream

/-- `MemoryStream::MemoryStream()`. -/
def empty : MemoryStream := { m_read := [], m_original := [], m_offset := 0 }

/-- `MemoryStream::MemoryStream(const Buffer &b)`. -/
def ofBuffer (b : Buffer) : MemoryStream := { m_read := b, m_original := b, m_offset := 0 }

/-- `MemoryStream::read(b, len)`: the stream after the call, the bytes copied
into `b`, and the value returned. -/
def read (s : MemoryStream) (len : Nat) : MemoryStream × Buffer × Nat :=
  let todo := min len s.m_read.readAvailable
  ({ s with m_read := s.m_read.consume todo, m_offset := (s.m_offset + todo) % 2 ^ 64 },
    s.m_read.take todo, todo)

/-- `MemoryStream::size()`. -/
def size (s : MemoryStream) : Int := toLongLong s.m_original.readAvailable

/-- `MemoryStream::truncate(size)`. -/
def truncate (s : MemoryStream) (size : Int) : Except StreamError MemoryStream :=
  if size < 0 then Except.error StreamError.assertion
  else if toSizeT size > SIZE_MAX then Except.error StreamError.exceedsAddressSpace
  else
    let currentSize := s.m_original.readAvailable
    if currentSize = toSizeT size then Except.ok s
    else if currentSize > toSizeT size then
      let original := s.m_original
      let m_original := (Buffer.clear s.m_original).copyIn original (toSizeT size)
      let m_read := (Buffer.clear s.m_read).copyIn m_original (toSizeT size)
      let m_read := m_read.consume (min s.m_offset (toSizeT size))
      Except.ok { m_read := m_read, m_original := m_original, m_offset := s.m_offset }
    else
      let needed := toSizeT size - currentSize
      let m_original := s.m_original.produceZeros needed
      let m_read := (Buffer.clear s.m_read).copyInAll m_original
      let m_read := m_read.consume (min s.m_offset (toSizeT size))
      Except.ok { m_read := m_read, m_original := m_original, m_offset := s.m_offset }

/-- `MemoryStream::writeInternal(b, len)`: the stream after the call and the
value returned. -/
def writeInternal (s : MemoryStream) (b : Buffer) (len : Nat) :
    Except StreamError (MemoryStream × Nat) :=
  let size := s.m_original.readAvailable
  if s.m_offset = size then
    Except.ok ({ s with m_original := s.m_original.copyIn b len,
                        m_offset := (s.m_offset + len) % 2 ^ 64 }, len)
  else if s.m_offset > size then
    -- extend the stream, then write
    match s.truncate (toLongLong s.m_offset) with
    | Except.error e => Except.error e
    | Except.ok s1 =>
      Except.ok ({ s1 with m_original := s1.m_original.copyIn b len,
                           m_offset := (s1.m_offset + len) % 2 ^ 64 }, len)
  else
    -- write at offset
    let original := s.m_original
    let m_original := (Buffer.clear s.m_original).copyIn original s.m_offset
    let original := original.consume s.m_offset
    let m_original := m_original.copyIn b len
    let m_offset := (s.m_offset + len) % 2 ^ 64
    if m_offset < size then
      let original := original.consume len
      let m_original := m_original.copyIn original original.readAvailable
      let m_read := (Buffer.clear s.m_read).copyInAll original
      Except.ok ({ m_read := m_read, m_original := m_original, m_offset := m_offset }, len)
    else
      Except.ok ({ m_read := s.m_read, m_original := m_original, m_offset := m_offset }, len)

/-- `MemoryStream::write(b, len)`, for either overload. -/
def write (s : MemoryStream) (b : Buffer) (len : Nat) :
    Except StreamError (MemoryStream × Nat) :=
  s.writeInternal b len

/-- The `case BEGIN` of `MemoryStream::seek`. -/
def seekBegin (s : MemoryStream) (offset : Int) : Except StreamError (MemoryStream × Int) :=
  let size := s.m_original.readAvailable
  if offset < 0 then Except.error StreamError.negativeOffset
  else if toSizeT offset > SIZE_MAX then Except.error StreamError.exceedsAddressSpace
  else
    let m_read := (Buffer.clear s.m_read).copyIn s.m_original s.m_original.readAvailable
    let m_offset := toSizeT offset
    let m_read := m_read.consume (min (toSizeT offset) size)
    Except.ok ({ m_read := m_read, m_original := s.m_original, m_offset := m_offset },
      toLongLong m_offset)

/-- The `case CURRENT` of `MemoryStream::seek`. -/
def seekCurrent (s : MemoryStream) (offset : Int) : Except StreamError (MemoryStream × Int) :=
  let size := s.m_original.readAvailable
  if offset < 0 then
    s.seekBegin (toLongLong ((s.m_offset : Int) + offset))
  else
    -- Optimized forward seek
    if toSizeT ((s.m_offset : Int) + offset) > SIZE_MAX then
      Except.error StreamError.exceedsAddressSpace
    else if s.m_offset ≤ size then
      Except.ok ({ s with m_read := s.m_read.consume (min (toSizeT offset) (size - s.m_offset)),
                          m_offset := (s.m_offset + toSizeT offset) % 2 ^ 64 },
        toLongLong (((s.m_offset + toSizeT offset) % 2 ^ 64 : Nat) : Int))
    else Except.ok (s, toLongLong s.m_offset)

/-- `MemoryStream::seek(offset, anchor)`: the stream after the call and the
value returned. -/
def seek (s : MemoryStream) (offset : Int) (anchor : Anchor) :
    Except StreamError (MemoryStream × Int) :=
  match anchor with
  | Anchor.BEGIN => s.seekBegin offset
  | Anchor.CURRENT => s.seekCurrent offset
  | Anchor.END =>
    s.seekCurrent
      (toLongLong ((s.m_original.readAvailable : Int) + offset - (s.m_offset : Int)))

end MemoryStream

/-- The read buffer holds exactly the stream contents from the current
position (or from the end, for a position beyond it) to the end. -/
def ReadBufferAtPosition (s : MemoryStream) : Prop :=
  s.m_read = s.m_original.drop (min s.m_offset s.m_original.readAvailable)

instance (s : MemoryStream) : Decidable (ReadBufferAtPosition s) := by
  unfold ReadBufferAtPosition
  infer_instance

/-- The position a `seek(offset, anchor)` asks for. -/
def seekTarget (s : MemoryStream) (offset : Int) : Anchor → Int
  | Anchor.BEGIN => offset
  | Anchor.CURRENT => (s.m_offset : Int) + offset
  | Anchor.END => (s.m_original.readAvailable : Int) + offset

/-! # Theorems -/

/-! ## The order on names -/

theorem strLt_irrefl (a : Name) : strLt a a = false := by
  induction a with
  | nil => rfl
  | cons x xs ih => simp [strLt, ih]

theorem strLt_trans : ∀ (a b c : Name), strLt a b = true → strLt b c = true → strLt a c = true
  | [], [], _, h, _ => by simp [strLt] at h
  | [], _ :: _, [], _, h => by simp [strLt] at h
  | [], _ :: _, _ :: _, _, _ => by simp [strLt]
  | _ :: _, [], _, h, _ => by simp [strLt] at h
  | _ :: _, _ :: _, [], _, h => by simp [strLt] at h
  | x :: xs, y :: ys, z :: zs, h1, h2 => by
    simp only [strLt] at h1 h2 ⊢
    split_ifs at h1 h2 ⊢ <;> first | rfl | omega | exact strLt_trans xs ys zs h1 h2

theorem strLt_total : ∀ (a b : Name), strLt a b = false → strLt b a = false → a = b
  | [], [], _, _ => rfl
  | [], _ :: _, h, _ => by simp [strLt] at h
  | _ :: _, [], _, h => by simp [strLt] at h
  | x :: xs, y :: ys, h1, h2 => by
    simp only [strLt] at h1 h2
    split_ifs at h1 h2
    have hxy : x = y := by omega
    rw [hxy, strLt_total xs ys h1 h2]

theorem strLt_asymm (a b : Name) (h : strLt a b = true) : strLt b a = false := by
  cases hb : strLt b a with
  | false => rfl
  | true =>
    have h3 := strLt_trans a b a h hb
    rw [strLt_irrefl] at h3
    exact absurd h3 (by decide)

theorem strLt_ne (a b : Name) (h : strLt a b = true) : a ≠ b := by
  intro hab
  rw [hab, strLt_irrefl] at h
  exact absurd h (by decide)

/-! ## Child sets -/

theorem SortedSet_of_name_eq {h h1 : Heap} {cs : List Nat}
    (hn : ∀ c, c ∈ cs → h1.name c = h.name c) (hs : SortedSet h cs) : SortedSet h1 cs := by
  unfold SortedSet at hs ⊢
  induction cs with
  | nil => exact List.Pairwise.nil
  | cons c cs ih =>
    rw [List.pairwise_cons] at hs ⊢
    refine ⟨?_, ih (fun d hd => hn d (List.mem_cons_of_mem _ hd)) hs.2⟩
    intro d hd
    have h1c := hn c (List.mem_cons_self _ _)
    have h1d := hn d (List.mem_cons_of_mem _ hd)
    have := hs.1 d hd
    simp only [LoggerLess] at this ⊢
    rw [h1c, h1d]; exact this

theorem setInsert_subset (h : Heap) (x : Nat) (cs : List Nat) (y : Nat)
    (hy : y ∈ setInsert h x cs) : y = x ∨ y ∈ cs := by
  induction cs with
  | nil => simpa [setInsert] using hy
  | cons c cs ih =>
    simp only [setInsert] at hy
    split_ifs at hy with h1 h2
    · rcases List.mem_cons.1 hy with hc | hc
      · right; rw [hc]; exact List.mem_cons_self _ _
      · rcases ih hc with hx | hm
        · left; exact hx
        · right; exact List.mem_cons_of_mem _ hm
    · rcases List.mem_cons.1 hy with hc | hc
      · left; exact hc
      · right; exact hc
    · right; exact hy

theorem setInsert_superset (h : Heap) (x : Nat) (cs : List Nat) (y : Nat)
    (hy : y ∈ cs) : y ∈ setInsert h x cs := by
  induction cs with
  | nil => cases hy
  | cons c cs ih =>
    simp only [setInsert]
    split_ifs with h1 h2
    · rcases List.mem_cons.1 hy with hc | hc
      · rw [hc]; exact List.mem_cons_self _ _
      · exact List.mem_cons_of_mem _ (ih hc)
    · exact List.mem_cons_of_mem _ hy
    · exact hy

theorem setInsert_mem_self (h : Heap) (x : Nat) (cs : List Nat)
    (hne : ∀ c, c ∈ cs → h.name c ≠ h.name x) : x ∈ setInsert h x cs := by
  induction cs with
  | nil => simp [setInsert]
  | cons c cs ih =>
    simp only [setInsert]
    split_ifs with h1 h2
    · exact List.mem_cons_of_mem _ (ih (fun d hd => hne d (List.mem_cons_of_mem _ hd)))
    · exact List.mem_cons_self _ _
    · exfalso
      apply hne c (List.mem_cons_self _ _)
      simp only [LoggerLess, Bool.not_eq_true] at h1 h2
      exact strLt_total _ _ h1 h2

theorem setInsert_sorted (h : Heap) (x : Nat) (cs : List Nat) (hs : SortedSet h cs) :
    SortedSet h (setInsert h x cs) := by
  unfold SortedSet at hs ⊢
  induction cs with
  | nil => simp [setInsert]
  | cons c cs ih =>
    rw [List.pairwise_cons] at hs
    simp only [setInsert]
    split_ifs with h1 h2
    · rw [List.pairwise_cons]
      refine ⟨?_, ih hs.2⟩
      intro d hd
      rcases setInsert_subset h x cs d hd with hx | hm
      · rw [hx]; exact h1
      · exact hs.1 d hm
    · rw [List.pairwise_cons]
      refine ⟨?_, List.pairwise_cons.2 hs⟩
      intro d hd
      rcases List.mem_cons.1 hd with hc | hc
      · rw [hc]; exact h2
      · exact strLt_trans _ _ _ h2 (hs.1 d hc)
    · exact List.pairwise_cons.2 hs

theorem SortedSet_nodup (h : Heap) (cs : List Nat) (hs : SortedSet h cs) : cs.Nodup := by
  unfold SortedSet at hs
  refine List.Pairwise.imp ?_ hs
  intro a b hab hEq
  rw [hEq] at hab
  simp [LoggerLess, strLt_irrefl] at hab

theorem setErase_sorted (h : Heap) (x : Nat) (cs : List Nat) (hs : SortedSet h cs) :
    SortedSet h (setErase x cs) :=
  List.Pairwise.sublist (List.erase_sublist x cs) hs

theorem mem_setErase (h : Heap) (x y : Nat) (cs : List Nat) (hs : SortedSet h cs) :
    y ∈ setErase x cs ↔ y ≠ x ∧ y ∈ cs :=
  List.Nodup.mem_erase_iff (SortedSet_nodup h cs hs)

/-- What `lower_bound` finds in an ordered child set: everything before the
position is less than `name`, the element at the position is not. -/
theorem lowerBound_spec (h : Heap) (name : Name) (cs : List Nat) :
    ∃ pre, cs = pre ++ lowerBound h name cs ∧
      (∀ c, c ∈ pre → strLt (h.name c) name = true) ∧
      ∀ it rest, lowerBound h name cs = it :: rest → strLt (h.name it) name = false := by
  induction cs with
  | nil => exact ⟨[], rfl, by simp, by simp [lowerBound]⟩
  | cons c cs ih =>
    obtain ⟨pre, h1, h2, h3⟩ := ih
    simp only [lowerBound]
    split_ifs with hc
    · refine ⟨c :: pre, by rw [List.cons_append, ← h1], ?_, h3⟩
      intro d hd
      rcases List.mem_cons.1 hd with hd | hd
      · rw [hd]; exact hc
      · exact h2 d hd
    · refine ⟨[], rfl, by simp, ?_⟩
      intro it rest hEq
      injection hEq with hEq1 _
      rw [← hEq1]; simpa using hc

/-- When `lower_bound` does not land on a logger named `name`, the ordered
child set holds no logger of that name. -/
theorem lowerBound_no_equal (h : Heap) (name : Name) (cs : List Nat) (hs : SortedSet h cs)
    (hlb : ∀ it rest, lowerBound h name cs = it :: rest → h.name it ≠ name) :
    ∀ c, c ∈ cs → h.name c ≠ name := by
  obtain ⟨pre, h1, h2, h3⟩ := lowerBound_spec h name cs
  intro c hc hEq
  rw [h1] at hc hs
  rcases List.mem_append.1 hc with hp | hl
  · have := h2 c hp
    rw [hEq, strLt_irrefl] at this
    exact absurd this (by decide)
  · cases hL : lowerBound h name cs with
    | nil => rw [hL] at hl; cases hl
    | cons it rest =>
      rw [hL] at hl hs
      rcases List.mem_cons.1 hl with hi | hr
      · exact hlb it rest hL (hi ▸ hEq)
      · have hsuf : SortedSet h (it :: rest) := by
          unfold SortedSet at hs ⊢
          exact (List.pairwise_append.1 hs).2.1
        unfold SortedSet at hsuf
        have hlt := (List.pairwise_cons.1 hsuf).1 c hr
        simp only [LoggerLess] at hlt
        rw [hEq, h3 it rest hL] at hlt
        exact absurd hlt (by decide)

theorem lowerBound_subset (h : Heap) (name : Name) (cs : List Nat) :
    ∀ c, c ∈ lowerBound h name cs → c ∈ cs := by
  obtain ⟨pre, h1, _, _⟩ := lowerBound_spec h name cs
  intro c hc
  rw [h1]; exact List.mem_append_right _ hc

/-! ## The registry after `newChild` and `splice` -/

theorem alloc_name (h : Heap) (l : Logger) (i : Nat) :
    (h.alloc l).name i = if i = h.size then l.m_name else h.name i := by
  simp only [Heap.alloc, Heap.name]
  split_ifs <;> rfl

theorem alloc_parent (h : Heap) (l : Logger) (i : Nat) :
    (h.alloc l).parent i = if i = h.size then l.m_parent else h.parent i := by
  simp only [Heap.alloc, Heap.parent]
  split_ifs <;> rfl

theorem alloc_children (h : Heap) (l : Logger) (i : Nat) :
    (h.alloc l).children i = if i = h.size then l.m_children else h.children i := by
  simp only [Heap.alloc, Heap.children]
  split_ifs <;> rfl

theorem alloc_level (h : Heap) (l : Logger) (i : Nat) :
    (h.alloc l).level i = if i = h.size then l.m_level else h.level i := by
  simp only [Heap.alloc, Heap.level]
  split_ifs <;> rfl

theorem alloc_sinks (h : Heap) (l : Logger) (i : Nat) :
    (h.alloc l).sinks i = if i = h.size then l.m_sinks else h.sinks i := by
  simp only [Heap.alloc, Heap.sinks]
  split_ifs <;> rfl

theorem alloc_inheritSinks (h : Heap) (l : Logger) (i : Nat) :
    (h.alloc l).inheritSinks i = if i = h.size then l.m_inheritSinks else h.inheritSinks i := by
  simp only [Heap.alloc, Heap.inheritSinks]
  split_ifs <;> rfl

theorem modify_setChildren_name (h : Heap) (g : List Nat → List Nat) (i j : Nat) :
    (h.modify i (setChildren g)).name j = h.name j := by
  simp only [Heap.modify, Heap.name, setChildren]
  split_ifs <;> rfl

theorem modify_setChildren_parent (h : Heap) (g : List Nat → List Nat) (i j : Nat) :
    (h.modify i (setChildren g)).parent j = h.parent j := by
  simp only [Heap.modify, Heap.parent, setChildren]
  split_ifs <;> rfl

theorem modify_setChildren_level (h : Heap) (g : List Nat → List Nat) (i j : Nat) :
    (h.modify i (setChildren g)).level j = h.level j := by
  simp only [Heap.modify, Heap.level, setChildren]
  split_ifs <;> rfl

theorem modify_setChildren_sinks (h : Heap) (g : List Nat → List Nat) (i j : Nat) :
    (h.modify i (setChildren g)).sinks j = h.sinks j := by
  simp only [Heap.modify, Heap.sinks, setChildren]
  split_ifs <;> rfl

theorem modify_setChildren_inheritSinks (h : Heap) (g : List Nat → List Nat) (i j : Nat) :
    (h.modify i (setChildren g)).inheritSinks j = h.inheritSinks j := by
  simp only [Heap.modify, Heap.inheritSinks, setChildren]
  split_ifs <;> rfl

theorem modify_setChildren_children (h : Heap) (g : List Nat → List Nat) (i j : Nat) :
    (h.modify i (setChildren g)).children j = if j = i then g (h.children j) else h.children j := by
  simp only [Heap.modify, Heap.children, setChildren]
  split_ifs <;> rfl

theorem modify_setParent_name (h : Heap) (p : Option Nat) (i j : Nat) :
    (h.modify i (setParent p)).name j = h.name j := by
  simp only [Heap.modify, Heap.name, setParent]
  split_ifs <;> rfl

theorem modify_setParent_children (h : Heap) (p : Option Nat) (i j : Nat) :
    (h.modify i (setParent p)).children j = h.children j := by
  simp only [Heap.modify, Heap.children, setParent]
  split_ifs <;> rfl

theorem modify_setParent_level (h : Heap) (p : Option Nat) (i j : Nat) :
    (h.modify i (setParent p)).level j = h.level j := by
  simp only [Heap.modify, Heap.level, setParent]
  split_ifs <;> rfl

theorem modify_setParent_sinks (h : Heap) (p : Option Nat) (i j : Nat) :
    (h.modify i (setParent p)).sinks j = h.sinks j := by
  simp only [Heap.modify, Heap.sinks, setParent]
  split_ifs <;> rfl

theorem modify_setParent_inheritSinks (h : Heap) (p : Option Nat) (i j : Nat) :
    (h.modify i (setParent p)).inheritSinks j = h.inheritSinks j := by
  simp only [Heap.modify, Heap.inheritSinks, setParent]
  split_ifs <;> rfl

theorem modify_setParent_parent (h : Heap) (p : Option Nat) (i j : Nat) :
    (h.modify i (setParent p)).parent j = if j = i then p else h.parent j := by
  simp only [Heap.modify, Heap.parent, setParent]
  split_ifs <;> rfl

theorem newChild_eq (h : Heap) (name : Name) (log : Nat) :
    newChild h name log =
      ((h.alloc (Logger.new name log)).modify log
        (setChildren (setInsert (h.alloc (Logger.new name log)) h.size)), h.size) := rfl

theorem splice_eq (h : Heap) (name : Name) (log child : Nat) :
    splice h name log child =
      (((((h.alloc (Logger.new name log)).modify log (setChildren (setErase child))).modify log
          (setChildren (setInsert ((h.alloc (Logger.new name log)).modify log
            (setChildren (setErase child))) h.size))).modify h.size
          (setChildren (setInsert (((h.alloc (Logger.new name log)).modify log
            (setChildren (setErase child))).modify log
            (setChildren (setInsert ((h.alloc (Logger.new name log)).modify log
              (setChildren (setErase child))) h.size))) child))).modify child
          (setParent (some h.size)), h.size) := rfl

theorem newChild_snd (h : Heap) (name : Name) (log : Nat) : (newChild h name log).2 = h.size := rfl

theorem newChild_size (h : Heap) (name : Name) (log : Nat) :
    (newChild h name log).1.size = h.size + 1 := rfl

theorem newChild_name (h : Heap) (name : Name) (log i : Nat) :
    (newChild h name log).1.name i = if i = h.size then name else h.name i := by
  rw [newChild_eq, modify_setChildren_name, alloc_name]; rfl

theorem newChild_parent (h : Heap) (name : Name) (log i : Nat) :
    (newChild h name log).1.parent i = if i = h.size then some log else h.parent i := by
  rw [newChild_eq, modify_setChildren_parent, alloc_parent]; rfl

theorem newChild_level (h : Heap) (name : Name) (log i : Nat) :
    (newChild h name log).1.level i = if i = h.size then Level.INFO else h.level i := by
  rw [newChild_eq, modify_setChildren_level, alloc_level]; rfl

theorem newChild_sinks (h : Heap) (name : Name) (log i : Nat) :
    (newChild h name log).1.sinks i = if i = h.size then [] else h.sinks i := by
  rw [newChild_eq, modify_setChildren_sinks, alloc_sinks]; rfl

theorem newChild_inheritSinks (h : Heap) (name : Name) (log i : Nat) :
    (newChild h name log).1.inheritSinks i = if i = h.size then true else h.inheritSinks i := by
  rw [newChild_eq, modify_setChildren_inheritSinks, alloc_inheritSinks]; rfl

theorem newChild_children (h : Heap) (name : Name) (log i : Nat) (hlog : log < h.size) :
    (newChild h name log).1.children i =
      if i = log then setInsert (h.alloc (Logger.new name log)) h.size (h.children log)
      else if i = h.size then [] else h.children i := by
  have hne : log ≠ h.size := Nat.ne_of_lt hlog
  rw [newChild_eq, modify_setChildren_children, alloc_children]
  split_ifs with h1 h2 h3
  · omega
  · rw [h1]
  · rfl
  · rfl

theorem splice_snd (h : Heap) (name : Name) (log child : Nat) :
    (splice h name log child).2 = h.size := rfl

theorem splice_size (h : Heap) (name : Name) (log child : Nat) :
    (splice h name log child).1.size = h.size + 1 := rfl

theorem splice_name (h : Heap) (name : Name) (log child i : Nat) :
    (splice h name log child).1.name i = if i = h.size then name else h.name i := by
  rw [splice_eq, modify_setParent_name, modify_setChildren_name, modify_setChildren_name,
    modify_setChildren_name, alloc_name]; rfl

theorem splice_level (h : Heap) (name : Name) (log child i : Nat) :
    (splice h name log child).1.level i = if i = h.size then Level.INFO else h.level i := by
  rw [splice_eq, modify_setParent_level, modify_setChildren_level, modify_setChildren_level,
    modify_setChildren_level, alloc_level]; rfl

theorem splice_sinks (h : Heap) (name : Name) (log child i : Nat) :
    (splice h name log child).1.sinks i = if i = h.size then [] else h.sinks i := by
  rw [splice_eq, modify_setParent_sinks, modify_setChildren_sinks, modify_setChildren_sinks,
    modify_setChildren_sinks, alloc_sinks]; rfl

theorem splice_inheritSinks (h : Heap) (name : Name) (log child i : Nat) :
    (splice h name log child).1.inheritSinks i =
      if i = h.size then true else h.inheritSinks i := by
  rw [splice_eq, modify_setParent_inheritSinks, modify_setChildren_inheritSinks,
    modify_setChildren_inheritSinks, modify_setChildren_inheritSinks, alloc_inheritSinks]; rfl

theorem splice_parent (h : Heap) (name : Name) (log child i : Nat) :
    (splice h name log child).1.parent i =
      if i = child then some h.size else if i = h.size then some log else h.parent i := by
  rw [splice_eq, modify_setParent_parent, modify_setChildren_parent, modify_setChildren_parent,
    modify_setChildren_parent, alloc_parent]; rfl

theorem splice_children (h : Heap) (name : Name) (log child i : Nat) (hlog : log < h.size) :
    (splice h name log child).1.children i =
      if i = h.size then [child]
      else if i = log then
        setInsert ((h.alloc (Logger.new name log)).modify log (setChildren (setErase child)))
          h.size (setErase child (h.children log))
      else h.children i := by
  have hne : log ≠ h.size := Nat.ne_of_lt hlog
  rw [splice_eq, modify_setParent_children, modify_setChildren_children,
    modify_setChildren_children, modify_setChildren_children, alloc_children]
  by_cases h1 : i = h.size
  · simp only [if_pos h1, if_neg (show ¬ i = log by omega)]; rfl
  · by_cases h2 : i = log
    · subst h2
      simp only [if_neg h1, if_true]
    · simp only [if_neg h1, if_neg h2]

/-! ## `newChild` keeps the registry well formed -/

theorem TreeInv_newChild (h : Heap) (name : Name) (log : Nat) (hinv : TreeInv h)
    (hlog : log < h.size) (hlen : log = 0 ∨ (h.name log).length < name.length)
    (hne : ∀ c, c ∈ h.children log → h.name c ≠ name) : TreeInv (newChild h name log).1 := by
  have hsz := hinv.root_valid
  have hmemlt : ∀ q, q < h.size → ∀ i, i ∈ h.children q → i < h.size :=
    fun q hq i hi => (hinv.child_of q hq i hi).1
  have hA : h.size ∈ setInsert (h.alloc (Logger.new name log)) h.size (h.children log) := by
    apply setInsert_mem_self
    intro c hc
    have hlt := hmemlt log hlog c hc
    rw [alloc_name, alloc_name, if_neg (Nat.ne_of_lt hlt), if_pos rfl]
    exact hne c hc
  have hB : SortedSet (newChild h name log).1
      (setInsert (h.alloc (Logger.new name log)) h.size (h.children log)) := by
    apply SortedSet_of_name_eq (h := h.alloc (Logger.new name log))
    · intro c _
      rw [newChild_name, alloc_name]; rfl
    · apply setInsert_sorted
      apply SortedSet_of_name_eq (h := h) _ (hinv.sorted log hlog)
      intro c hc
      rw [alloc_name, if_neg (Nat.ne_of_lt (hmemlt log hlog c hc))]
  refine ⟨?_, ?_, ?_, ?_, ?_, ?_⟩
  · rw [newChild_size]; omega
  · rw [newChild_parent, if_neg (by omega)]; exact hinv.root_parent
  · intro i hi h0
    rw [newChild_size] at hi
    by_cases hi2 : i = h.size
    · refine ⟨log, by rw [newChild_size]; omega, ?_, ?_⟩
      · rw [newChild_parent, if_pos hi2]
      · rw [newChild_children _ _ _ _ hlog, if_pos rfl, hi2]; exact hA
    · obtain ⟨p, hp, hpar, hmem⟩ := hinv.parent_of i (by omega) h0
      refine ⟨p, by rw [newChild_size]; omega, ?_, ?_⟩
      · rw [newChild_parent, if_neg hi2]; exact hpar
      · rw [newChild_children _ _ _ _ hlog]
        split_ifs with h1 h2
        · apply setInsert_superset; rw [← h1]; exact hmem
        · omega
        · exact hmem
  · intro q hq i hi
    rw [newChild_size] at hq
    rw [newChild_children _ _ _ _ hlog] at hi
    rw [newChild_size, newChild_parent]
    split_ifs at hi with h1 h2
    · rcases setInsert_subset _ _ _ _ hi with hx | hm
      · refine ⟨by omega, by omega, by rw [if_pos hx, h1]⟩
      · obtain ⟨a, b, c⟩ := hinv.child_of log hlog i hm
        exact ⟨by omega, b, by rw [if_neg (by omega), c, h1]⟩
    · cases hi
    · obtain ⟨a, b, c⟩ := hinv.child_of q (by omega) i hi
      exact ⟨by omega, b, by rw [if_neg (by omega)]; exact c⟩
  · intro q hq h0 i hi
    rw [newChild_size] at hq
    rw [newChild_children _ _ _ _ hlog] at hi
    rw [newChild_name, newChild_name]
    split_ifs at hi with h1 h2
    · rw [if_neg (by omega)]
      rcases setInsert_subset _ _ _ _ hi with hx | hm
      · rw [if_pos hx, h1]
        rcases hlen with hl | hl
        · exact absurd (h1 ▸ hl) h0
        · exact hl
      · rw [if_neg (Nat.ne_of_lt (hmemlt log hlog i hm)), h1]
        exact hinv.longer log hlog (h1 ▸ h0) i hm
    · cases hi
    · have hq2 : q < h.size := by omega
      rw [if_neg (by omega), if_neg (Nat.ne_of_lt (hmemlt q hq2 i hi))]
      exact hinv.longer q hq2 h0 i hi
  · intro q hq
    rw [newChild_size] at hq
    rw [newChild_children _ _ _ _ hlog]
    split_ifs with h1 h2
    · exact hB
    · exact List.Pairwise.nil
    · have hq2 : q < h.size := by omega
      apply SortedSet_of_name_eq (h := h) _ (hinv.sorted q hq2)
      intro c hc
      rw [newChild_name, if_neg (Nat.ne_of_lt (hmemlt q hq2 c hc))]

/-! ## `splice` keeps the registry well formed -/

theorem TreeInv_splice (h : Heap) (name : Name) (log child : Nat) (hinv : TreeInv h)
    (hlog : log < h.size) (hchild : child ∈ h.children log)
    (hlen : log = 0 ∨ (h.name log).length < name.length)
    (hlen2 : name.length < (h.name child).length)
    (hne : ∀ c, c ∈ h.children log → h.name c ≠ name) :
    TreeInv (splice h name log child).1 := by
  have hsz := hinv.root_valid
  have hmemlt : ∀ q, q < h.size → ∀ i, i ∈ h.children q → i < h.size :=
    fun q hq i hi => (hinv.child_of q hq i hi).1
  obtain ⟨hclt, hc0, hcpar⟩ := hinv.child_of log hlog child hchild
  have hlogsz : log ≠ h.size := Nat.ne_of_lt hlog
  have hsorted := hinv.sorted log hlog
  have hn2 : ∀ c, ((h.alloc (Logger.new name log)).modify log
      (setChildren (setErase child))).name c = if c = h.size then name else h.name c := by
    intro c
    rw [modify_setChildren_name, alloc_name]; rfl
  have hI : ∀ y, y ∈ setInsert ((h.alloc (Logger.new name log)).modify log
        (setChildren (setErase child))) h.size (setErase child (h.children log)) ↔
      y = h.size ∨ (y ≠ child ∧ y ∈ h.children log) := by
    intro y
    constructor
    · intro hy
      rcases setInsert_subset _ _ _ _ hy with hx | hm
      · left; exact hx
      · right; exact (mem_setErase h child y _ hsorted).1 hm
    · rintro (hx | hm)
      · rw [hx]
        apply setInsert_mem_self
        intro c hc
        have hc2 := ((mem_setErase h child c _ hsorted).1 hc).2
        rw [hn2, hn2, if_neg (Nat.ne_of_lt (hmemlt log hlog c hc2)), if_pos rfl]
        exact hne c hc2
      · exact setInsert_superset _ _ _ _ ((mem_setErase h child y _ hsorted).2 hm)
  have hS : SortedSet (splice h name log child).1
      (setInsert ((h.alloc (Logger.new name log)).modify log
        (setChildren (setErase child))) h.size (setErase child (h.children log))) := by
    apply SortedSet_of_name_eq (h := (h.alloc (Logger.new name log)).modify log
        (setChildren (setErase child)))
    · intro c _
      rw [splice_name, hn2]
    · apply setInsert_sorted
      apply SortedSet_of_name_eq (h := h) _ (setErase_sorted h child _ hsorted)
      intro c hc
      have hc2 := ((mem_setErase h child c _ hsorted).1 hc).2
      rw [hn2, if_neg (Nat.ne_of_lt (hmemlt log hlog c hc2))]
  refine ⟨?_, ?_, ?_, ?_, ?_, ?_⟩
  · rw [splice_size]; omega
  · rw [splice_parent, if_neg (fun e => hc0 e.symm), if_neg (by omega)]
    exact hinv.root_parent
  · intro i hi h0
    rw [splice_size] at hi
    by_cases hi1 : i = child
    · refine ⟨h.size, by rw [splice_size]; omega, ?_, ?_⟩
      · rw [splice_parent, if_pos hi1]
      · rw [splice_children _ _ _ _ _ hlog, if_pos rfl, hi1]
        exact List.mem_singleton.2 rfl
    · by_cases hi2 : i = h.size
      · refine ⟨log, by rw [splice_size]; omega, ?_, ?_⟩
        · rw [splice_parent, if_neg hi1, if_pos hi2]
        · rw [splice_children _ _ _ _ _ hlog, if_neg hlogsz, if_pos rfl]
          exact (hI i).2 (Or.inl hi2)
      · obtain ⟨p, hp, hpar, hmem⟩ := hinv.parent_of i (by omega) h0
        refine ⟨p, by rw [splice_size]; omega, ?_, ?_⟩
        · rw [splice_parent, if_neg hi1, if_neg hi2]; exact hpar
        · rw [splice_children _ _ _ _ _ hlog, if_neg (Nat.ne_of_lt hp)]
          by_cases hp2 : p = log
          · rw [if_pos hp2]
            exact (hI i).2 (Or.inr ⟨hi1, hp2 ▸ hmem⟩)
          · rw [if_neg hp2]; exact hmem
  · intro q hq i hi
    rw [splice_size] at hq
    rw [splice_children _ _ _ _ _ hlog] at hi
    rw [splice_size, splice_parent]
    by_cases hq1 : q = h.size
    · rw [if_pos hq1] at hi
      have hic : i = child := List.mem_singleton.1 hi
      exact ⟨by omega, hic ▸ hc0, by rw [if_pos hic, hq1]⟩
    · rw [if_neg hq1] at hi
      by_cases hq2 : q = log
      · rw [if_pos hq2] at hi
        rcases (hI i).1 hi with hx | ⟨hic, hm⟩
        · exact ⟨by omega, by omega, by rw [if_neg (by omega), if_pos hx, hq2]⟩
        · obtain ⟨a, b, c⟩ := hinv.child_of log hlog i hm
          exact ⟨by omega, b, by rw [if_neg hic, if_neg (by omega), c, hq2]⟩
      · rw [if_neg hq2] at hi
        obtain ⟨a, b, c⟩ := hinv.child_of q (by omega) i hi
        have hic : i ≠ child := by
          intro e
          rw [e, hcpar] at c
          injection c with c
          exact hq2 c.symm
        exact ⟨by omega, b, by rw [if_neg hic, if_neg (by omega)]; exact c⟩
  · intro q hq h0 i hi
    rw [splice_size] at hq
    rw [splice_children _ _ _ _ _ hlog] at hi
    rw [splice_name, splice_name]
    by_cases hq1 : q = h.size
    · rw [if_pos hq1] at hi
      have hic : i = child := List.mem_singleton.1 hi
      rw [if_pos hq1, if_neg (by omega), hic]
      exact hlen2
    · rw [if_neg hq1] at hi
      rw [if_neg hq1]
      by_cases hq2 : q = log
      · rw [if_pos hq2] at hi
        rcases (hI i).1 hi with hx | ⟨_, hm⟩
        · rw [if_pos hx, hq2]
          rcases hlen with hl | hl
          · exact absurd (hq2 ▸ hl) h0
          · exact hl
        · rw [if_neg (Nat.ne_of_lt (hmemlt log hlog i hm)), hq2]
          exact hinv.longer log hlog (hq2 ▸ h0) i hm
      · rw [if_neg hq2] at hi
        have hq3 : q < h.size := by omega
        rw [if_neg (Nat.ne_of_lt (hmemlt q hq3 i hi))]
        exact hinv.longer q hq3 h0 i hi
  · intro q hq
    rw [splice_size] at hq
    rw [splice_children _ _ _ _ _ hlog]
    by_cases hq1 : q = h.size
    · rw [if_pos hq1]
      exact List.pairwise_singleton _ _
    · rw [if_neg hq1]
      by_cases hq2 : q = log
      · rw [if_pos hq2]; exact hS
      · rw [if_neg hq2]
        have hq3 : q < h.size := by omega
        apply SortedSet_of_name_eq (h := h) _ (hinv.sorted q hq3)
        intro c hc
        rw [splice_name, if_neg (Nat.ne_of_lt (hmemlt q hq3 c hc))]

/-! ## The loop of `Log::lookup` -/

theorem lookupLoop_cases (name : Name) : ∀ (fuel : Nat) (h : Heap) (log : Nat) (h1 : Heap)
    (r : Nat), TreeInv h → log < h.size → Descends h name log →
    lookupLoop name fuel h log = some (h1, r) → LookupStep name h h1 r := by
  intro fuel
  induction fuel with
  | zero => intro h log h1 r _ _ _ heq; simp [lookupLoop] at heq
  | succ fuel ih =>
    intro h log h1 r hinv hlog hd heq
    have hsub := lowerBound_subset h name (h.children log)
    have hno := lowerBound_no_equal h name (h.children log) (hinv.sorted log hlog)
    rw [lookupLoop] at heq
    split at heq
    · rename_i hlb
      right; left
      refine ⟨log, hlog, hd, hno (fun it rest hEq => ?_), ?_⟩
      · rw [hlb] at hEq; cases hEq
      · injection heq with heq; exact heq.symm
    · rename_i it rest hlb
      have hit : it ∈ h.children log := hsub it (by rw [hlb]; exact List.mem_cons_self _ _)
      split_ifs at heq with hname hdesc
      · left
        injection heq with heq
        injection heq with ha hb
        exact ⟨ha.symm, hb ▸ (hinv.child_of log hlog it hit).1, hb ▸ hname⟩
      · exact ih h it h1 r hinv (hinv.child_of log hlog it hit).1 (Or.inr hdesc) heq
      · have hno2 : ∀ c, c ∈ h.children log → h.name c ≠ name := by
          apply hno
          intro it' rest' hEq
          rw [hlb] at hEq
          injection hEq with hEq _
          rw [← hEq]; exact hname
        split at heq
        · rename_i it2 rest2
          split_ifs at heq with hsp
          · right; right
            refine ⟨log, it2, hlog, hd, ?_, hno2, hsp, ?_⟩
            · apply hsub
              rw [hlb]
              exact List.mem_cons_of_mem _ (List.mem_cons_self _ _)
            · injection heq with heq; exact heq.symm
          · right; left
            refine ⟨log, hlog, hd, hno2, ?_⟩
            injection heq with heq; exact heq.symm
        · right; left
          refine ⟨log, hlog, hd, hno2, ?_⟩
          injection heq with heq; exact heq.symm

theorem lookupLoop_returns (name : Name) : ∀ (fuel : Nat) (h : Heap) (log : Nat),
    TreeInv h → log < h.size →
    ((log = 0 ∧ name.length + 2 ≤ fuel) ∨
      (log ≠ 0 ∧ (h.name log).length < name.length ∧
        name.length < fuel + (h.name log).length)) →
    ∃ res, lookupLoop name fuel h log = some res := by
  intro fuel
  induction fuel with
  | zero =>
    intro h log _ _ hf
    rcases hf with ⟨_, hf⟩ | ⟨_, h1, h2⟩ <;> omega
  | succ fuel ih =>
    intro h log hinv hlog hf
    have hsub := lowerBound_subset h name (h.children log)
    rw [lookupLoop]
    split
    · exact ⟨_, rfl⟩
    · rename_i it rest hlb
      have hit : it ∈ h.children log := hsub it (by rw [hlb]; exact List.mem_cons_self _ _)
      obtain ⟨hitlt, hit0, _⟩ := hinv.child_of log hlog it hit
      split_ifs with hname hdesc
      · exact ⟨_, rfl⟩
      · apply ih h it hinv hitlt
        right
        refine ⟨hit0, hdesc.1, ?_⟩
        rcases hf with ⟨_, hf⟩ | ⟨hl0, _, hf⟩
        · omega
        · have := hinv.longer log hlog hl0 it hit
          omega
      · split
        · split_ifs <;> exact ⟨_, rfl⟩
        · exact ⟨_, rfl⟩

/-- On a well-formed registry `Log::lookup` returns. -/
theorem lookup_returns (name : Name) (h : Heap) (hinv : TreeInv h) :
    ∃ res, Log.lookup name h = some res :=
  lookupLoop_returns name _ h 0 hinv hinv.root_valid (Or.inl ⟨rfl, Nat.le_refl _⟩)

theorem lookup_cases (name : Name) (h h1 : Heap) (r : Nat) (hinv : TreeInv h)
    (heq : Log.lookup name h = some (h1, r)) : LookupStep name h h1 r :=
  lookupLoop_cases name _ h 0 h1 r hinv hinv.root_valid (Or.inl rfl) heq

theorem Descends_len {h : Heap} {name : Name} {p : Nat} (hd : Descends h name p) :
    p = 0 ∨ (h.name p).length < name.length := by
  rcases hd with hd | hd
  · left; exact hd
  · right; exact hd.1

theorem LookupStep_TreeInv (name : Name) (h h1 : Heap) (r : Nat) (hinv : TreeInv h)
    (hs : LookupStep name h h1 r) : TreeInv h1 := by
  rcases hs with ⟨he, _, _⟩ | ⟨p, hp, hd, hne, he⟩ | ⟨p, c, hp, hd, hc, hne, hcond, he⟩
  · rw [he]; exact hinv
  · have h1e : h1 = (newChild h name p).1 := congrArg Prod.fst he
    rw [h1e]
    exact TreeInv_newChild h name p hinv hp (Descends_len hd) hne
  · have h1e : h1 = (splice h name p c).1 := congrArg Prod.fst he
    rw [h1e]
    exact TreeInv_splice h name p c hinv hp hc (Descends_len hd) hcond.1 hne

theorem TreeInv_init (lvl : Level) : TreeInv (Log.init lvl) := by
  refine ⟨by simp [Log.init], rfl, ?_, ?_, ?_, ?_⟩
  · intro i hi h0
    simp only [Log.init] at hi
    omega
  · intro q _ i hi
    simp [Log.init, Heap.children, Logger.mkRoot] at hi
  · intro q _ _ i hi
    simp [Log.init, Heap.children, Logger.mkRoot] at hi
  · intro q _
    simp [Log.init, Heap.children, Logger.mkRoot, SortedSet]

theorem TreeInv_of_SameShape {h h1 : Heap} (hs : SameShape h h1) (hinv : TreeInv h) :
    TreeInv h1 := by
  obtain ⟨hsz, hf⟩ := hs
  refine ⟨by rw [hsz]; exact hinv.root_valid, by rw [(hf 0).2.1]; exact hinv.root_parent,
    ?_, ?_, ?_, ?_⟩
  · intro i hi h0
    rw [hsz] at hi
    obtain ⟨p, hp, hpar, hmem⟩ := hinv.parent_of i hi h0
    exact ⟨p, by rw [hsz]; exact hp, by rw [(hf i).2.1]; exact hpar,
      by rw [(hf p).2.2]; exact hmem⟩
  · intro q hq i hi
    rw [hsz] at hq
    rw [(hf q).2.2] at hi
    rw [hsz, (hf i).2.1]
    exact hinv.child_of q hq i hi
  · intro q hq h0 i hi
    rw [hsz] at hq
    rw [(hf q).2.2] at hi
    rw [(hf q).1, (hf i).1]
    exact hinv.longer q hq h0 i hi
  · intro q hq
    rw [hsz] at hq
    rw [(hf q).2.2]
    exact SortedSet_of_name_eq (fun c _ => (hf c).1) (hinv.sorted q hq)

/-! ## `Logger::level` -/

theorem modify_setLevel_shape (h : Heap) (lv : Level) (x : Nat) :
    SameShape h (h.modify x (setLevel lv)) := by
  refine ⟨rfl, fun i => ⟨?_, ?_, ?_⟩⟩
  · simp only [Heap.modify, Heap.name, setLevel]; split_ifs <;> rfl
  · simp only [Heap.modify, Heap.parent, setLevel]; split_ifs <;> rfl
  · simp only [Heap.modify, Heap.children, setLevel]; split_ifs <;> rfl

theorem modify_setLevel_level (h : Heap) (lv : Level) (x i : Nat) :
    (h.modify x (setLevel lv)).level i = if i = x then lv else h.level i := by
  simp only [Heap.modify, Heap.level, setLevel]; split_ifs <;> rfl

theorem modify_setLevel_sinks (h : Heap) (lv : Level) (x i : Nat) :
    (h.modify x (setLevel lv)).sinks i = h.sinks i ∧
      (h.modify x (setLevel lv)).inheritSinks i = h.inheritSinks i := by
  constructor
  · simp only [Heap.modify, Heap.sinks, setLevel]; split_ifs <;> rfl
  · simp only [Heap.modify, Heap.inheritSinks, setLevel]; split_ifs <;> rfl

theorem SameShape.refl (h : Heap) : SameShape h h := ⟨rfl, fun _ => ⟨rfl, rfl, rfl⟩⟩

theorem SameShape.trans {a b c : Heap} (h1 : SameShape a b) (h2 : SameShape b c) :
    SameShape a c :=
  ⟨h2.1.trans h1.1, fun i =>
    ⟨((h2.2 i).1).trans (h1.2 i).1, ((h2.2 i).2.1).trans (h1.2 i).2.1,
      ((h2.2 i).2.2).trans (h1.2 i).2.2⟩⟩

theorem SameShape.symm {a b : Heap} (h1 : SameShape a b) : SameShape b a :=
  ⟨h1.1.symm, fun i => ⟨(h1.2 i).1.symm, (h1.2 i).2.1.symm, (h1.2 i).2.2.symm⟩⟩

theorem InSubtree_of_SameShape {h h1 : Heap} (hs : SameShape h h1) {x i : Nat}
    (ht : InSubtree h x i) : InSubtree h1 x i := by
  induction ht with
  | self => exact InSubtree.self
  | child _ hc ih => exact InSubtree.child ih (by rw [(hs.2 _).2.2]; exact hc)

theorem InSubtree_SameShape_iff {h h1 : Heap} (hs : SameShape h h1) (x i : Nat) :
    InSubtree h1 x i ↔ InSubtree h x i :=
  ⟨InSubtree_of_SameShape hs.symm, InSubtree_of_SameShape hs⟩

theorem InSubtree_of_child {h : Heap} {x c i : Nat} (hc : c ∈ h.children x)
    (ht : InSubtree h c i) : InSubtree h x i := by
  induction ht with
  | self => exact InSubtree.child InSubtree.self hc
  | child _ hm ih => exact InSubtree.child ih hm

theorem InSubtree_cases {h : Heap} {x i : Nat} (ht : InSubtree h x i) :
    i = x ∨ ∃ c, c ∈ h.children x ∧ InSubtree h c i := by
  induction ht with
  | self => left; rfl
  | @child p c _ hm ih =>
    right
    rcases ih with hp | ⟨d, hd, hsub⟩
    · exact ⟨c, hp ▸ hm, InSubtree.self⟩
    · exact ⟨d, hd, InSubtree.child hsub hm⟩

theorem levelLoop_succ (fuel : Nat) (h : Heap) (x : Nat) (lv : Level) (p : Bool) :
    levelLoop (fuel + 1) h x lv p =
      if p = true then
        ((h.modify x (setLevel lv)).children x).foldlM
          (fun acc c => levelLoop fuel acc c lv level_propagate_default)
          (h.modify x (setLevel lv))
      else some (h.modify x (setLevel lv)) := rfl

/-- What the loop over the children in `Logger::level` does, given what each
recursive call does. -/
theorem level_fold_spec (lv : Level) (fuel : Nat) (h : Heap)
    (ih : ∀ (a : Heap) (c : Nat) (b : Heap), levelLoop fuel a c lv true = some b →
      SameShape a b ∧ (∀ i, b.sinks i = a.sinks i ∧ b.inheritSinks i = a.inheritSinks i) ∧
      ∀ i, (InSubtree a c i → b.level i = lv) ∧ (¬ InSubtree a c i → b.level i = a.level i)) :
    ∀ (cs : List Nat) (a b : Heap), SameShape h a →
      cs.foldlM (fun acc c => levelLoop fuel acc c lv level_propagate_default) a = some b →
      SameShape a b ∧ (∀ i, b.sinks i = a.sinks i ∧ b.inheritSinks i = a.inheritSinks i) ∧
      ∀ i, ((∃ c, c ∈ cs ∧ InSubtree h c i) → b.level i = lv) ∧
        ((¬ ∃ c, c ∈ cs ∧ InSubtree h c i) → b.level i = a.level i) := by
  intro cs
  induction cs with
  | nil =>
    intro a b _ heq
    simp only [List.foldlM, pure] at heq
    injection heq with heq
    subst heq
    exact ⟨SameShape.refl _, fun _ => ⟨rfl, rfl⟩, fun i => ⟨by simp, fun _ => rfl⟩⟩
  | cons c cs ihcs =>
    intro a b hsa heq
    rw [List.foldlM_cons] at heq
    cases hstep : levelLoop fuel a c lv level_propagate_default with
    | none => rw [hstep] at heq; cases heq
    | some a1 =>
      rw [hstep] at heq
      obtain ⟨hs1, hk1, hl1⟩ := ih a c a1 hstep
      obtain ⟨hs2, hk2, hl2⟩ := ihcs a1 b (hsa.trans hs1) heq
      refine ⟨hs1.trans hs2, fun i => ⟨(hk2 i).1.trans (hk1 i).1, (hk2 i).2.trans (hk1 i).2⟩,
        fun i => ⟨?_, ?_⟩⟩
      · rintro ⟨d, hd, hsub⟩
        by_cases hex : ∃ c, c ∈ cs ∧ InSubtree h c i
        · exact (hl2 i).1 hex
        · rw [(hl2 i).2 hex]
          rcases List.mem_cons.1 hd with hd | hd
          · exact (hl1 i).1 ((InSubtree_SameShape_iff hsa c i).2 (hd ▸ hsub))
          · exact absurd ⟨d, hd, hsub⟩ hex
      · intro hnex
        have hnex2 : ¬ ∃ c, c ∈ cs ∧ InSubtree h c i := by
          rintro ⟨d, hd, hsub⟩
          exact hnex ⟨d, List.mem_cons_of_mem _ hd, hsub⟩
        rw [(hl2 i).2 hnex2]
        apply (hl1 i).2
        intro hsub
        exact hnex ⟨c, List.mem_cons_self _ _, (InSubtree_SameShape_iff hsa c i).1 hsub⟩

theorem levelLoop_true_spec (lv : Level) : ∀ (fuel : Nat) (h : Heap) (x : Nat) (b : Heap),
    levelLoop fuel h x lv true = some b →
    SameShape h b ∧ (∀ i, b.sinks i = h.sinks i ∧ b.inheritSinks i = h.inheritSinks i) ∧
    ∀ i, (InSubtree h x i → b.level i = lv) ∧ (¬ InSubtree h x i → b.level i = h.level i) := by
  intro fuel
  induction fuel with
  | zero => intro h x b heq; simp [levelLoop] at heq
  | succ fuel ih =>
    intro h x b heq
    rw [levelLoop_succ, if_pos rfl] at heq
    have hs0 := modify_setLevel_shape h lv x
    obtain ⟨hs, hk, hl⟩ := level_fold_spec lv fuel h ih _ _ b hs0 heq
    have hch : (h.modify x (setLevel lv)).children x = h.children x := (hs0.2 x).2.2
    refine ⟨hs0.trans hs, fun i => ⟨(hk i).1.trans (modify_setLevel_sinks h lv x i).1,
      (hk i).2.trans (modify_setLevel_sinks h lv x i).2⟩, fun i => ⟨?_, ?_⟩⟩
    · intro hsub
      by_cases hex : ∃ c, c ∈ (h.modify x (setLevel lv)).children x ∧ InSubtree h c i
      · exact (hl i).1 hex
      · rw [(hl i).2 hex, modify_setLevel_level]
        rcases InSubtree_cases hsub with hx | ⟨c, hc, hci⟩
        · rw [if_pos hx]
        · exact absurd ⟨c, by rw [hch]; exact hc, hci⟩ hex
    · intro hnsub
      have hnex : ¬ ∃ c, c ∈ (h.modify x (setLevel lv)).children x ∧ InSubtree h c i := by
        rintro ⟨c, hc, hci⟩
        rw [hch] at hc
        exact hnsub (InSubtree_of_child hc hci)
      rw [(hl i).2 hnex, modify_setLevel_level, if_neg]
      intro hx
      exact hnsub (hx ▸ InSubtree.self)

theorem levelLoop_shape (lv : Level) (fuel : Nat) (h : Heap) (x : Nat) (p : Bool) (b : Heap)
    (heq : levelLoop fuel h x lv p = some b) : SameShape h b := by
  cases p with
  | true => exact (levelLoop_true_spec lv fuel h x b heq).1
  | false =>
    cases fuel with
    | zero => simp [levelLoop] at heq
    | succ fuel =>
      rw [levelLoop_succ, if_neg (by decide)] at heq
      injection heq with heq
      rw [← heq]
      exact modify_setLevel_shape h lv x

theorem le_foldr_max (l : List Nat) (x : Nat) (hx : x ∈ l) : x ≤ l.foldr max 0 := by
  induction l with
  | nil => cases hx
  | cons y ys ih =>
    simp only [List.foldr]
    rcases List.mem_cons.1 hx with hy | hy
    · rw [hy]; exact Nat.le_max_left _ _
    · exact Nat.le_trans (ih hy) (Nat.le_max_right _ _)

theorem name_le_maxNameLen (h : Heap) (i : Nat) (hi : i < h.size) :
    (h.name i).length ≤ maxNameLen h := by
  apply le_foldr_max
  exact List.mem_map.2 ⟨i, List.mem_range.2 hi, rfl⟩

theorem maxNameLen_of_SameShape {h h1 : Heap} (hs : SameShape h h1) :
    maxNameLen h1 = maxNameLen h := by
  unfold maxNameLen
  rw [hs.1]
  congr 1
  apply List.map_congr_left
  intro i _
  rw [(hs.2 i).1]

theorem levelLoop_returns (lv : Level) : ∀ (fuel : Nat) (h : Heap) (x : Nat) (p : Bool),
    TreeInv h → x < h.size →
    ((x = 0 ∧ maxNameLen h + 2 ≤ fuel) ∨
      (x ≠ 0 ∧ maxNameLen h < fuel + (h.name x).length)) →
    ∃ b, levelLoop fuel h x lv p = some b := by
  intro fuel
  induction fuel with
  | zero =>
    intro h x p _ hx hf
    have := name_le_maxNameLen h x hx
    rcases hf with ⟨_, hf⟩ | ⟨_, hf⟩ <;> omega
  | succ fuel ih =>
    intro h x p hinv hx hf
    rw [levelLoop_succ]
    cases p with
    | false => exact ⟨_, by rw [if_neg (by decide)]⟩
    | true =>
      rw [if_pos rfl]
      have hs0 := modify_setLevel_shape h lv x
      have hch : (h.modify x (setLevel lv)).children x = h.children x := (hs0.2 x).2.2
      rw [hch]
      have key : ∀ (cs : List Nat) (a : Heap), (∀ c, c ∈ cs → c ∈ h.children x) →
          SameShape h a →
          ∃ b, cs.foldlM (fun acc c => levelLoop fuel acc c lv level_propagate_default) a
            = some b := by
        intro cs
        induction cs with
        | nil => intro a _ _; exact ⟨a, rfl⟩
        | cons c cs ihcs =>
          intro a hsub hsa
          have hc := hsub c (List.mem_cons_self _ _)
          obtain ⟨hclt, hc0, _⟩ := hinv.child_of x hx c hc
          have hstep : ∃ a1, levelLoop fuel a c lv level_propagate_default = some a1 := by
            apply ih a c _ (TreeInv_of_SameShape hsa hinv) (by rw [hsa.1]; exact hclt)
            right
            refine ⟨hc0, ?_⟩
            rw [maxNameLen_of_SameShape hsa, (hsa.2 c).1]
            rcases hf with ⟨_, hf⟩ | ⟨hx0, hf⟩
            · omega
            · have := hinv.longer x hx hx0 c hc
              omega
          obtain ⟨a1, ha1⟩ := hstep
          rw [List.foldlM_cons, ha1]
          exact ihcs a1 (fun d hd => hsub d (List.mem_cons_of_mem _ hd))
            (hsa.trans (levelLoop_shape lv fuel a c _ a1 ha1))
      exact key _ _ (fun _ hc => hc) hs0

/-- On a well-formed registry `Logger::level` returns. -/
theorem level_returns (h : Heap) (x : Nat) (lv : Level) (p : Bool) (hinv : TreeInv h)
    (hx : x < h.size) : ∃ b, Logger.level h x lv p = some b := by
  apply levelLoop_returns lv _ h x p hinv hx
  by_cases h0 : x = 0
  · left; exact ⟨h0, Nat.le_refl _⟩
  · right; exact ⟨h0, by omega⟩

/-! ## Reachable registries are well formed -/

theorem Reachable.treeInv {h : Heap} (hr : Reachable h) : TreeInv h := by
  induction hr with
  | init lvl => exact TreeInv_init lvl
  | lookup _ heq ih => exact LookupStep_TreeInv _ _ _ _ ih (lookup_cases _ _ _ _ ih heq)
  | level _ _ heq ih => exact TreeInv_of_SameShape (levelLoop_shape _ _ _ _ _ _ heq) ih
  | edit _ hs ih => exact TreeInv_of_SameShape hs ih

theorem Reachable.lookups {ns : List Name} : ∀ {h h1 : Heap} {rs : List Nat},
    Reachable h → Log.lookups ns h = some (h1, rs) → Reachable h1 := by
  induction ns with
  | nil =>
    intro h h1 rs hr heq
    simp only [Log.lookups] at heq
    injection heq with heq
    injection heq with ha _
    rw [← ha]; exact hr
  | cons n ns ih =>
    intro h h1 rs hr heq
    simp only [Log.lookups] at heq
    split at heq
    · cases heq
    · rename_i h2 r hl
      split at heq
      · cases heq
      · rename_i h3 rs3 hls
        injection heq with heq
        injection heq with ha _
        rw [← ha]
        exact ih (Reachable.lookup hr hl) hls

theorem lookups_returns (ns : List Name) : ∀ (h : Heap), Reachable h →
    ∃ res, Log.lookups ns h = some res := by
  induction ns with
  | nil => intro h _; exact ⟨_, rfl⟩
  | cons n ns ih =>
    intro h hr
    obtain ⟨⟨h1, r⟩, hl⟩ := lookup_returns n h hr.treeInv
    obtain ⟨⟨h2, rs⟩, hls⟩ := ih h1 (Reachable.lookup hr hl)
    exact ⟨(h2, r :: rs), by simp only [Log.lookups, hl, hls]⟩

theorem Reachable.run (lvl : Level) (ns : List Name) : Reachable (Log.run lvl ns) := by
  unfold Log.run
  split
  · rename_i h rs heq
    exact Reachable.lookups (Reachable.init lvl) heq
  · exact Reachable.init lvl

/-! ## The loggers of the tree -/

theorem InTree_lt {h : Heap} (hinv : TreeInv h) {i : Nat} (ht : InTree h i) : i < h.size := by
  induction ht with
  | root => exact hinv.root_valid
  | child _ hc ih => exact (hinv.child_of _ ih _ hc).1

theorem InTree_of_lt {h : Heap} (hinv : TreeInv h) : ∀ (n i : Nat), (h.name i).length = n →
    i < h.size → InTree h i := by
  intro n
  induction n using Nat.strong_induction_on with
  | _ n ih =>
    intro i hn hi
    by_cases h0 : i = 0
    · rw [h0]; exact InTree.root
    · obtain ⟨p, hp, _, hmem⟩ := hinv.parent_of i hi h0
      by_cases hp0 : p = 0
      · subst hp0
        exact InTree.child InTree.root hmem
      · have hlt := hinv.longer p hp hp0 i hmem
        exact InTree.child (ih _ (hn ▸ hlt) p rfl hp) hmem

theorem InTree_iff {h : Heap} (hinv : TreeInv h) (i : Nat) : InTree h i ↔ i < h.size :=
  ⟨InTree_lt hinv, InTree_of_lt hinv _ i rfl⟩

theorem ancestor_succ (h : Heap) : ∀ (k i : Nat),
    ancestor h (k + 1) i = (ancestor h k i).bind h.parent := by
  intro k
  induction k with
  | zero =>
    intro i
    simp only [ancestor, Option.some_bind]
    cases h.parent i <;> rfl
  | succ k ih =>
    intro i
    rw [ancestor]
    cases hp : h.parent i with
    | none => simp [ancestor, hp]
    | some p => simp only [ih p]; rw [ancestor, hp]

/-- From any logger of the tree the parent links lead to the root, each link
going from a member of a child set to the owner of that set. -/
theorem parent_chain {h : Heap} (hinv : TreeInv h) {i : Nat} (ht : InTree h i) :
    ∃ k, ancestor h k i = some Log.root ∧
      ∀ j c p, j < k → ancestor h j i = some c → ancestor h (j + 1) i = some p →
        p < h.size ∧ c ∈ h.children p := by
  induction ht with
  | root => exact ⟨0, rfl, fun j c p hj => absurd hj (Nat.not_lt_zero _)⟩
  | @child q d hq hd ih =>
    obtain ⟨k, hk, hsteps⟩ := ih
    have hqlt := InTree_lt hinv hq
    have hpar := (hinv.child_of q hqlt d hd).2.2
    have hshift : ∀ j, ancestor h (j + 1) d = ancestor h j q := by
      intro j; rw [ancestor, hpar]
    refine ⟨k + 1, by rw [hshift]; exact hk, ?_⟩
    intro j c p hj hc hp
    cases j with
    | zero =>
      rw [hshift] at hp
      simp only [ancestor] at hc hp
      injection hc with hc
      injection hp with hp
      rw [← hc, ← hp]
      exact ⟨hqlt, hd⟩
    | succ j =>
      rw [hshift] at hc hp
      exact hsteps j c p (by omega) hc hp

/-! ## `Log::visit` is a level-order traversal -/

theorem visitLoop_nil (h : Heap) (fuel : Nat) : visitLoop h fuel [] = some [] := by
  cases fuel <;> rfl

theorem visitLoop_cons (h : Heap) (fuel cur : Nat) (q : List Nat) :
    visitLoop h (fuel + 1) (cur :: q) =
      (visitLoop h fuel (q ++ h.children cur)).map (fun out => cur :: out) := by
  rw [visitLoop]
  cases visitLoop h fuel (q ++ h.children cur) <;> rfl

/-- Running the loop through the queued loggers `xs` hands them to the
callback in order and queues their children behind `zs`. -/
theorem visitLoop_append (h : Heap) : ∀ (xs zs : List Nat) (fuel : Nat),
    visitLoop h (fuel + xs.length) (xs ++ zs) =
      (visitLoop h fuel (zs ++ xs.flatMap h.children)).map (fun out => xs ++ out) := by
  intro xs
  induction xs with
  | nil =>
    intro zs fuel
    simp only [List.length_nil, Nat.add_zero, List.nil_append, List.flatMap_nil,
      List.append_nil]
    cases visitLoop h fuel zs <;> rfl
  | cons x xs ih =>
    intro zs fuel
    rw [List.length_cons, ← Nat.add_assoc, List.cons_append, visitLoop_cons, List.append_assoc,
      ih, List.flatMap_cons, List.append_assoc]
    cases visitLoop h fuel (zs ++ (h.children x ++ xs.flatMap h.children)) <;> rfl

/-- The levels `k, k + 1, ..., k + n - 1`, concatenated. -/
theorem levels_succ (h : Heap) (k n : Nat) :
    (List.range (n + 1)).flatMap (fun j => bfsLevel h (k + j)) =
      (List.range n).flatMap (fun j => bfsLevel h (k + j)) ++ bfsLevel h (k + n) := by
  rw [List.range_succ, List.flatMap_append, List.flatMap_singleton]

theorem visitLoop_levels (h : Heap) (k : Nat) : ∀ (n fuel : Nat),
    visitLoop h (fuel + ((List.range n).flatMap (fun j => bfsLevel h (k + j))).length)
        (bfsLevel h k) =
      (visitLoop h fuel (bfsLevel h (k + n))).map
        (fun out => (List.range n).flatMap (fun j => bfsLevel h (k + j)) ++ out) := by
  intro n
  induction n with
  | zero =>
    intro fuel
    simp only [List.range_zero, List.flatMap_nil, List.length_nil, Nat.add_zero, List.nil_append]
    cases visitLoop h fuel (bfsLevel h k) <;> rfl
  | succ n ih =>
    intro fuel
    rw [levels_succ, List.length_append,
      show fuel + (((List.range n).flatMap (fun j => bfsLevel h (k + j))).length +
          (bfsLevel h (k + n)).length) =
        (fuel + (bfsLevel h (k + n)).length) +
          ((List.range n).flatMap (fun j => bfsLevel h (k + j))).length by omega,
      ih]
    have h1 := visitLoop_append h (bfsLevel h (k + n)) [] fuel
    rw [List.append_nil, List.nil_append] at h1
    rw [h1]
    have h2 : (bfsLevel h (k + n)).flatMap h.children = bfsLevel h (k + (n + 1)) := rfl
    rw [h2]
    cases visitLoop h fuel (bfsLevel h (k + (n + 1))) with
    | none => rfl
    | some out => simp only [Option.map_some', List.append_assoc]

/-! ### The levels list every logger once -/

theorem ancestor_add (h : Heap) : ∀ (k m i : Nat),
    ancestor h (k + m) i = (ancestor h k i).bind (ancestor h m) := by
  intro k
  induction k with
  | zero => intro m i; simp [ancestor]
  | succ k ih =>
    intro m i
    rw [show k + 1 + m = (k + m) + 1 by omega, ancestor, ancestor]
    cases h.parent i with
    | none => rfl
    | some p => exact ih m p

theorem ancestor_root_none {h : Heap} (hinv : TreeInv h) (m : Nat) :
    ancestor h (m + 1) Log.root = none := by
  rw [ancestor]
  have hp : h.parent Log.root = none := hinv.root_parent
  rw [hp]

theorem depth_unique {h : Heap} (hinv : TreeInv h) {i k1 k2 : Nat}
    (h1 : ancestor h k1 i = some Log.root) (h2 : ancestor h k2 i = some Log.root) :
    k1 = k2 := by
  have key : ∀ a b, a < b → ancestor h a i = some Log.root →
      ancestor h b i = some Log.root → False := by
    intro a b hab ha hb
    obtain ⟨m, hm⟩ : ∃ m, b = a + (m + 1) := ⟨b - a - 1, by omega⟩
    rw [hm, ancestor_add, ha, Option.some_bind, ancestor_root_none hinv] at hb
    cases hb
  rcases Nat.lt_trichotomy k1 k2 with hlt | heq | hgt
  · exact absurd (key k1 k2 hlt h1 h2) id
  · exact heq
  · exact absurd (key k2 k1 hgt h2 h1) id

theorem mem_bfsLevel {h : Heap} (hinv : TreeInv h) : ∀ (k i : Nat),
    i ∈ bfsLevel h k ↔ i < h.size ∧ ancestor h k i = some Log.root := by
  intro k
  induction k with
  | zero =>
    intro i
    simp only [bfsLevel, List.mem_singleton, ancestor, Option.some.injEq]
    constructor
    · intro hi; rw [hi]; exact ⟨hinv.root_valid, rfl⟩
    · intro hi; exact hi.2
  | succ k ih =>
    intro i
    simp only [bfsLevel, List.mem_flatMap]
    constructor
    · rintro ⟨q, hq, hi⟩
      obtain ⟨hqlt, hqa⟩ := (ih q).1 hq
      obtain ⟨hilt, _, hpar⟩ := hinv.child_of q hqlt i hi
      refine ⟨hilt, ?_⟩
      rw [ancestor, hpar]; exact hqa
    · rintro ⟨hilt, hia⟩
      rw [ancestor] at hia
      cases hpar : h.parent i with
      | none => rw [hpar] at hia; cases hia
      | some q =>
        rw [hpar] at hia
        have hi0 : i ≠ 0 := by
          intro e
          rw [e, hinv.root_parent] at hpar
          cases hpar
        obtain ⟨p, hp, hpp, hmem⟩ := hinv.parent_of i hilt hi0
        rw [hpar] at hpp
        injection hpp with hpp
        subst hpp
        exact ⟨q, (ih q).2 ⟨hp, hia⟩, hmem⟩

theorem bfsLevel_nodup {h : Heap} (hinv : TreeInv h) : ∀ k, (bfsLevel h k).Nodup := by
  intro k
  induction k with
  | zero => simp [bfsLevel]
  | succ k ih =>
    simp only [bfsLevel]
    rw [List.nodup_flatMap]
    constructor
    · intro q hq
      exact SortedSet_nodup h _ (hinv.sorted q ((mem_bfsLevel hinv k q).1 hq).1)
    · refine List.Pairwise.imp_of_mem ?_ ih
      intro a b ha hb hab
      simp only [Function.onFun]
      rw [List.disjoint_left]
      intro i hia hib
      have h1 := (hinv.child_of a ((mem_bfsLevel hinv k a).1 ha).1 i hia).2.2
      have h2 := (hinv.child_of b ((mem_bfsLevel hinv k b).1 hb).1 i hib).2.2
      rw [h1] at h2
      injection h2 with h2
      exact hab h2

theorem levels_nodup {h : Heap} (hinv : TreeInv h) (n : Nat) :
    ((List.range n).flatMap (bfsLevel h)).Nodup := by
  rw [List.nodup_flatMap]
  constructor
  · intro k _
    exact bfsLevel_nodup hinv k
  · refine List.Pairwise.imp ?_ (List.nodup_range n)
    intro a b hab
    simp only [Function.onFun]
    rw [List.disjoint_left]
    intro i hia hib
    exact hab (depth_unique hinv ((mem_bfsLevel hinv a i).1 hia).2
      ((mem_bfsLevel hinv b i).1 hib).2)

/-- Some number of levels holds every logger. -/
theorem levels_cover {h : Heap} (hinv : TreeInv h) : ∀ m, m ≤ h.size →
    ∃ n, ∀ i, i < m → ∃ k, k < n ∧ ancestor h k i = some Log.root := by
  intro m
  induction m with
  | zero => intro _; exact ⟨0, fun i hi => absurd hi (Nat.not_lt_zero _)⟩
  | succ m ih =>
    intro hm
    obtain ⟨n, hn⟩ := ih (by omega)
    obtain ⟨k, hk, _⟩ := parent_chain hinv (InTree_of_lt hinv _ m rfl (by omega))
    refine ⟨max n (k + 1), ?_⟩
    intro i hi
    by_cases him : i = m
    · exact ⟨k, by omega, him ▸ hk⟩
    · obtain ⟨k2, hk2, hk3⟩ := hn i (by omega)
      exact ⟨k2, by omega, hk3⟩

/-- On a well-formed registry `Log::visit` returns, having handed the
callback the levels of the tree one after the other, every logger once. -/
theorem visit_levels {h : Heap} (hinv : TreeInv h) :
    ∃ n, 0 < n ∧ Log.visit h = some ((List.range n).flatMap (bfsLevel h)) ∧
      ((List.range n).flatMap (bfsLevel h)).Nodup ∧
      ∀ i, i ∈ (List.range n).flatMap (bfsLevel h) ↔ i < h.size := by
  obtain ⟨n, hn⟩ := levels_cover hinv h.size (Nat.le_refl _)
  have hmem : ∀ i, i ∈ (List.range n).flatMap (bfsLevel h) ↔ i < h.size := by
    intro i
    rw [List.mem_flatMap]
    constructor
    · rintro ⟨k, _, hi⟩
      exact ((mem_bfsLevel hinv k i).1 hi).1
    · intro hi
      obtain ⟨k, hk, hka⟩ := hn i hi
      exact ⟨k, List.mem_range.2 hk, (mem_bfsLevel hinv k i).2 ⟨hi, hka⟩⟩
  have hnd := levels_nodup hinv n
  have hlen : ((List.range n).flatMap (bfsLevel h)).length ≤ h.size := by
    have hsub : (List.range n).flatMap (bfsLevel h) ⊆ List.range h.size := by
      intro i hi
      exact List.mem_range.2 ((hmem i).1 hi)
    have := (List.subperm_of_subset hnd hsub).length_le
    rwa [List.length_range] at this
  have hlast : bfsLevel h n = [] := by
    rw [List.eq_nil_iff_forall_not_mem]
    intro i hi
    obtain ⟨hilt, hia⟩ := (mem_bfsLevel hinv n i).1 hi
    obtain ⟨k, hk, hka⟩ := hn i hilt
    have := depth_unique hinv hia hka
    omega
  have hpos : 0 < n := by
    obtain ⟨k, hk, _⟩ := hn 0 hinv.root_valid
    omega
  refine ⟨n, hpos, ?_, hnd, hmem⟩
  have hrun := visitLoop_levels h 0 n (h.size - ((List.range n).flatMap (bfsLevel h)).length)
  simp only [Nat.zero_add] at hrun
  rw [Nat.sub_add_cancel hlen, hlast, visitLoop_nil] at hrun
  unfold Log.visit
  have h0 : bfsLevel h 0 = [Log.root] := rfl
  rw [← h0, hrun]
  simp

theorem levels_head (h : Heap) (n : Nat) (hn : 0 < n) :
    ((List.range n).flatMap (bfsLevel h)).head? = some Log.root := by
  obtain ⟨m, hm⟩ : ∃ m, n = m + 1 := ⟨n - 1, by omega⟩
  rw [hm, List.range_succ_eq_map, List.flatMap_cons]
  rfl

/-! ## Names without NUL bytes -/

/-- On a string without NUL bytes `strncmp` compares exactly `n` bytes. -/
theorem strncmpEq_take : ∀ (n : Nat) (a b : Name), n ≤ a.length → NulFree a →
    strncmpEq a b n = true → a.take n = b.take n ∧ n ≤ b.length := by
  intro n
  induction n with
  | zero => intro a b _ _ _; simp
  | succ n ih =>
    intro a b hlen hnul heq
    cases a with
    | nil => simp at hlen
    | cons x as =>
      have hx0 : x ≠ 0 := hnul x (List.mem_cons_self _ _)
      rw [strncmpEq] at heq
      have hcx : charAt (x :: as) 0 = x := rfl
      rw [hcx] at heq
      cases b with
      | nil =>
        have hcb : charAt ([] : Name) 0 = 0 := rfl
        rw [hcb, if_pos hx0] at heq
        cases heq
      | cons y bs =>
        have hcb : charAt (y :: bs) 0 = y := rfl
        rw [hcb] at heq
        split_ifs at heq with h1
        simp only [List.tail_cons] at heq
        have hxy : x = y := not_not.1 h1
        obtain ⟨ht, hl⟩ := ih as bs (by simpa using hlen)
          (fun z hz => hnul z (List.mem_cons_of_mem _ hz)) heq
        refine ⟨?_, by simpa using hl⟩
        rw [List.take_succ_cons, List.take_succ_cons, ht, hxy]

theorem strLt_of_take : ∀ (a b : Name), a = b.take a.length → a.length < b.length →
    strLt a b = true := by
  intro a
  induction a with
  | nil =>
    intro b _ hlen
    cases b with
    | nil => simp at hlen
    | cons y bs => rfl
  | cons x as ih =>
    intro b hpre hlen
    cases b with
    | nil => simp at hlen
    | cons y bs =>
      rw [List.length_cons, List.take_succ_cons] at hpre
      injection hpre with hxy has
      rw [strLt, ← hxy, if_neg (Nat.lt_irrefl x), if_neg (Nat.lt_irrefl x)]
      exact ih bs has (by simpa using hlen)

/-- The descent test of `Log::lookup` cannot hold for the logger `lower_bound`
lands on when that logger's name has no NUL byte. -/
theorem no_descent (a name : Name) (hnul : NulFree a) (hge : strLt a name = false) :
    ¬ (name.length > a.length ∧ charAt name a.length = colon ∧
      strncmpEq a name a.length = true) := by
  rintro ⟨hlen, _, hcmp⟩
  obtain ⟨ht, _⟩ := strncmpEq_take a.length a name (Nat.le_refl _) hnul hcmp
  rw [List.take_length] at ht
  rw [strLt_of_take a name ht hlen] at hge
  cases hge

theorem lookup_nulfree_cases (name : Name) (h h1 : Heap) (r : Nat) (hinv : TreeInv h)
    (hnul : NamesNulFree h) (heq : Log.lookup name h = some (h1, r)) :
    (h1 = h ∧ r ∈ h.children Log.root) ∨ (h1, r) = newChild h name Log.root ∨
      ∃ c, c ∈ h.children Log.root ∧
        ((h.name c).length > name.length ∧ charAt (h.name c) name.length = colon ∧
          strncmpEq (h.name c) name name.length = true) ∧
        (h1, r) = splice h name Log.root c := by
  have hsub := lowerBound_subset h name (h.children Log.root)
  obtain ⟨_, _, _, hhead⟩ := lowerBound_spec h name (h.children Log.root)
  unfold Log.lookup at heq
  rw [lookupLoop] at heq
  split at heq
  · right; left
    injection heq with heq; exact heq.symm
  · rename_i it rest hlb
    have hit : it ∈ h.children Log.root := hsub it (by rw [hlb]; exact List.mem_cons_self _ _)
    have hitlt := (hinv.child_of 0 hinv.root_valid it hit).1
    split_ifs at heq with hname hdesc
    · left
      injection heq with heq
      injection heq with ha hb
      exact ⟨ha.symm, hb ▸ hit⟩
    · exact absurd hdesc (no_descent _ _ (hnul it hitlt) (hhead it rest hlb))
    · split at heq
      · rename_i it2 rest2
        split_ifs at heq with hsp
        · right; right
          refine ⟨it2, ?_, hsp, ?_⟩
          · apply hsub
            rw [hlb]
            exact List.mem_cons_of_mem _ (List.mem_cons_self _ _)
          · injection heq with heq; exact heq.symm
        · right; left
          injection heq with heq; exact heq.symm
      · right; left
        injection heq with heq; exact heq.symm

/-- With NUL-free names the logger `Log::lookup` returns hangs directly below
the root. -/
theorem lookup_nulfree_parent (name : Name) (h h1 : Heap) (r : Nat) (hinv : TreeInv h)
    (hnul : NamesNulFree h) (heq : Log.lookup name h = some (h1, r)) :
    h1.parent r = some Log.root := by
  rcases lookup_nulfree_cases name h h1 r hinv hnul heq with ⟨he, hr⟩ | he | ⟨c, hc, _, he⟩
  · rw [he]
    exact (hinv.child_of 0 hinv.root_valid r hr).2.2
  · have e1 : h1 = (newChild h name Log.root).1 := congrArg Prod.fst he
    have e2 : r = (newChild h name Log.root).2 := congrArg Prod.snd he
    rw [e1, e2, newChild_snd, newChild_parent, if_pos rfl]
  · have e1 : h1 = (splice h name Log.root c).1 := congrArg Prod.fst he
    have e2 : r = (splice h name Log.root c).2 := congrArg Prod.snd he
    have hclt := (hinv.child_of 0 hinv.root_valid c hc).1
    rw [e1, e2, splice_snd, splice_parent, if_neg (by omega), if_pos rfl]

theorem lookup_nulfree_names (name : Name) (h h1 : Heap) (r : Nat) (hinv : TreeInv h)
    (hnul : NamesNulFree h) (hname : NulFree name) (heq : Log.lookup name h = some (h1, r)) :
    NamesNulFree h1 := by
  rcases lookup_nulfree_cases name h h1 r hinv hnul heq with ⟨he, _⟩ | he | ⟨c, _, _, he⟩
  · rw [he]; exact hnul
  · have e1 : h1 = (newChild h name Log.root).1 := congrArg Prod.fst he
    intro i hi
    rw [e1, newChild_size] at hi
    rw [e1, newChild_name]
    split_ifs with h2
    · exact hname
    · exact hnul i (by omega)
  · have e1 : h1 = (splice h name Log.root c).1 := congrArg Prod.fst he
    intro i hi
    rw [e1, splice_size] at hi
    rw [e1, splice_name]
    split_ifs with h2
    · exact hname
    · exact hnul i (by omega)

theorem lookups_nulfree (ns : List Name) : ∀ (h h1 : Heap) (rs : List Nat), Reachable h →
    NamesNulFree h → (∀ n, n ∈ ns → NulFree n) → Log.lookups ns h = some (h1, rs) →
    NamesNulFree h1 := by
  induction ns with
  | nil =>
    intro h h1 rs _ hnul _ heq
    simp only [Log.lookups] at heq
    injection heq with heq
    injection heq with ha _
    rw [← ha]; exact hnul
  | cons n ns ih =>
    intro h h1 rs hr hnul hns heq
    simp only [Log.lookups] at heq
    split at heq
    · cases heq
    · rename_i h2 r hl
      split at heq
      · cases heq
      · rename_i h3 rs3 hls
        injection heq with heq
        injection heq with ha _
        rw [← ha]
        exact ih h2 h3 rs3 (Reachable.lookup hr hl)
          (lookup_nulfree_names n h h2 r hr.treeInv hnul (hns n (List.mem_cons_self _ _)) hl)
          (fun m hm => hns m (List.mem_cons_of_mem _ hm)) hls

theorem init_nulfree (lvl : Level) : NamesNulFree (Log.init lvl) := by
  intro i _ x hx
  simp only [Log.init, Heap.name, Logger.mkRoot, List.mem_singleton] at hx
  rw [hx]; decide

theorem run_nulfree (lvl : Level) (ns : List Name) (hns : ∀ n, n ∈ ns → NulFree n) :
    NamesNulFree (Log.run lvl ns) := by
  unfold Log.run
  split
  · rename_i h rs heq
    exact lookups_nulfree ns _ h rs (Reachable.init lvl) (init_nulfree lvl) hns heq
  · exact init_nulfree lvl

/-! ## Names below a logger start with its name and a colon -/

theorem append_colon_isPrefix : ∀ (a b : Name), a = b.take a.length → a.length < b.length →
    charAt b a.length = colon → a ++ [colon] <+: b := by
  intro a
  induction a with
  | nil =>
    intro b _ hlen hc
    cases b with
    | nil => simp at hlen
    | cons y ys =>
      have hy : y = colon := hc
      rw [hy]
      exact ⟨ys, rfl⟩
  | cons x xs ih =>
    intro b hpre hlen hc
    cases b with
    | nil => simp at hlen
    | cons y ys =>
      rw [List.length_cons, List.take_succ_cons] at hpre
      injection hpre with hxy hxs
      have hc2 : charAt ys xs.length = colon := hc
      obtain ⟨t, ht⟩ := ih ys hxs (by simpa using hlen) hc2
      exact ⟨t, by rw [← ht, hxy]; rfl⟩

theorem PrefixInv_init (lvl : Level) : PrefixInv (Log.init lvl) := by
  intro q _ _ c hc
  simp [Log.init, Heap.children, Logger.mkRoot] at hc

theorem lookup_nulfree_prefixInv (name : Name) (h h1 : Heap) (r : Nat) (hinv : TreeInv h)
    (hnul : NamesNulFree h) (hpre : PrefixInv h) (heq : Log.lookup name h = some (h1, r)) :
    PrefixInv h1 := by
  have hroot : Log.root < h.size := hinv.root_valid
  have hmemlt : ∀ q, q < h.size → ∀ i, i ∈ h.children q → i < h.size :=
    fun q hq i hi => (hinv.child_of q hq i hi).1
  rcases lookup_nulfree_cases name h h1 r hinv hnul heq with ⟨he, _⟩ | he | ⟨c, hc, hcond, he⟩
  · rw [he]; exact hpre
  · have e1 : h1 = (newChild h name Log.root).1 := congrArg Prod.fst he
    rw [e1]
    intro q hq hq0 d hd
    rw [newChild_size] at hq
    rw [newChild_children _ _ _ _ hroot, if_neg hq0] at hd
    split_ifs at hd with h2
    · cases hd
    · have hq2 : q < h.size := by omega
      rw [newChild_name, newChild_name, if_neg h2, if_neg (Nat.ne_of_lt (hmemlt q hq2 d hd))]
      exact hpre q hq2 hq0 d hd
  · have e1 : h1 = (splice h name Log.root c).1 := congrArg Prod.fst he
    have hclt := hmemlt Log.root hroot c hc
    rw [e1]
    intro q hq hq0 d hd
    rw [splice_size] at hq
    rw [splice_children _ _ _ _ _ hroot] at hd
    rw [splice_name, splice_name]
    split_ifs at hd with h2
    · have hdc : d = c := List.mem_singleton.1 hd
      rw [if_pos h2, hdc, if_neg (Nat.ne_of_lt hclt)]
      obtain ⟨ht, _⟩ := strncmpEq_take name.length (h.name c) name (Nat.le_of_lt hcond.1)
        (hnul c hclt) hcond.2.2
      rw [List.take_length] at ht
      exact append_colon_isPrefix name (h.name c) ht.symm hcond.1 hcond.2.1
    · have hq2 : q < h.size := by omega
      rw [if_neg h2, if_neg (Nat.ne_of_lt (hmemlt q hq2 d hd))]
      exact hpre q hq2 hq0 d hd

theorem lookups_nulfree_prefixInv (ns : List Name) : ∀ (h h1 : Heap) (rs : List Nat),
    Reachable h → NamesNulFree h → PrefixInv h → (∀ n, n ∈ ns → NulFree n) →
    Log.lookups ns h = some (h1, rs) → PrefixInv h1 := by
  induction ns with
  | nil =>
    intro h h1 rs _ _ hpre _ heq
    simp only [Log.lookups] at heq
    injection heq with heq
    injection heq with ha _
    rw [← ha]; exact hpre
  | cons n ns ih =>
    intro h h1 rs hr hnul hpre hns heq
    simp only [Log.lookups] at heq
    split at heq
    · cases heq
    · rename_i h2 r hl
      split at heq
      · cases heq
      · rename_i h3 rs3 hls
        injection heq with heq
        injection heq with ha _
        rw [← ha]
        exact ih h2 h3 rs3 (Reachable.lookup hr hl)
          (lookup_nulfree_names n h h2 r hr.treeInv hnul (hns n (List.mem_cons_self _ _)) hl)
          (lookup_nulfree_prefixInv n h h2 r hr.treeInv hnul hpre hl)
          (fun m hm => hns m (List.mem_cons_of_mem _ hm)) hls

theorem run_prefixInv (lvl : Level) (ns : List Name) (hns : ∀ n, n ∈ ns → NulFree n) :
    PrefixInv (Log.run lvl ns) := by
  unfold Log.run
  split
  · rename_i h rs heq
    exact lookups_nulfree_prefixInv ns _ h rs (Reachable.init lvl) (init_nulfree lvl)
      (PrefixInv_init lvl) hns heq
  · exact PrefixInv_init lvl

/-- In a well-formed registry with the prefix property, the parent links from
any logger of the tree reach the root, every step below the root going from a
name to a strictly shorter name that, followed by a colon, starts it. -/
theorem prefix_chain {h : Heap} (hinv : TreeInv h) (hpre : PrefixInv h) {i : Nat}
    (ht : InTree h i) :
    ∃ k, ancestor h k i = some Log.root ∧
      ∀ j c p, j < k → ancestor h j i = some c → ancestor h (j + 1) i = some p →
        p ≠ Log.root →
        (h.name p ++ [colon] <+: h.name c) ∧ (h.name p).length < (h.name c).length := by
  obtain ⟨k, hk, hsteps⟩ := parent_chain hinv ht
  refine ⟨k, hk, ?_⟩
  intro j c p hj hc hp hp0
  obtain ⟨hplt, hmem⟩ := hsteps j c p hj hc hp
  exact ⟨hpre p hplt hp0 c hmem, hinv.longer p hplt hp0 c hmem⟩

/-- With no NUL byte in the names looked up so far, a lookup of any name
returns a child of the root, and from every logger of the tree the parent
links reach the root, each step below the root going from a name to a strictly
shorter one that, followed by `:`, is a prefix of it. -/
theorem nulfree_lookup_chain (lvl : Level) (ns : List Name) (n : Name)
    (hns : ∀ m, m ∈ ns → NulFree m) :
    ∃ h1 r, Log.lookup n (Log.run lvl ns) = some (h1, r) ∧ h1.parent r = some Log.root ∧
      ∀ i, InTree h1 i →
        ∃ k, ancestor h1 k i = some Log.root ∧
          ∀ j c p, j < k → ancestor h1 j i = some c → ancestor h1 (j + 1) i = some p →
            p ≠ Log.root →
            (h1.name p ++ [colon] <+: h1.name c) ∧ (h1.name p).length < (h1.name c).length := by
  have hr := Reachable.run lvl ns
  have hnul := run_nulfree lvl ns hns
  obtain ⟨⟨h1, r⟩, hl⟩ := lookup_returns n _ hr.treeInv
  have hpar := lookup_nulfree_parent n _ h1 r hr.treeInv hnul hl
  have hpre := lookup_nulfree_prefixInv n _ h1 r hr.treeInv hnul (run_prefixInv lvl ns hns) hl
  have hinv1 := (Reachable.lookup hr hl).treeInv
  exact ⟨h1, r, hl, hpar, fun i hi => prefix_chain hinv1 hpre hi⟩

/-! ## The claims about `Log::lookup` -/

/-- C1: two lookups of one name should return the same logger.  After the
lookups of `a:a`, `a:b`, `a` (which splices `a` above `a:b`), a further lookup
of `a:b` does not find the logger the second call returned (2): it allocates
and returns a new logger (4). -/
theorem lookup_repeated_name_new_node (lvl : Level) :
    (Log.lookups [ascii "a:a", ascii "a:b", ascii "a", ascii "a:b"] (Log.init lvl)).map
      Prod.snd = some [1, 2, 3, 4] := by
  cases lvl <;> decide

/-- C2: after `lookup("a")` then `lookup("a:b")` the logger `a` (1) should be
an ancestor of `a:b` (2).  The code attaches `a:b` to the root as a sibling of
`a`: `a` has no children and the parent of `a:b` is the root. -/
theorem lookup_descendant_becomes_sibling (lvl : Level) :
    (Log.lookups [ascii "a", ascii "a:b"] (Log.init lvl)).map Prod.snd = some [1, 2] ∧
    (Log.run lvl [ascii "a", ascii "a:b"]).children Log.root = [1, 2] ∧
    (Log.run lvl [ascii "a", ascii "a:b"]).children 1 = [] ∧
    (Log.run lvl [ascii "a", ascii "a:b"]).parent 2 = some Log.root ∧
    ¬ InSubtree (Log.run lvl [ascii "a", ascii "a:b"]) 1 2 := by
  refine ⟨by cases lvl <;> decide, by cases lvl <;> decide, by cases lvl <;> decide,
    by cases lvl <;> decide, ?_⟩
  intro hsub
  rcases InSubtree_cases hsub with h1 | ⟨c, hc, _⟩
  · exact absurd h1 (by decide)
  · have hnil : (Log.run lvl [ascii "a", ascii "a:b"]).children 1 = [] := by
      cases lvl <;> decide
    rw [hnil] at hc
    cases hc

/-- C3: `lookup("a:b:c")` then `lookup("a:b")` on a fresh root should leave the
root with the single child `a:b` holding `a:b:c`.  The code makes no splice:
the root ends with the two children `a:b` (2) and `a:b:c` (1), `a:b` has no
child, and the parent of `a:b:c` is still the root. -/
theorem lookup_ancestor_not_spliced (lvl : Level) :
    (Log.lookups [ascii "a:b:c", ascii "a:b"] (Log.init lvl)).map Prod.snd = some [1, 2] ∧
    (Log.run lvl [ascii "a:b:c", ascii "a:b"]).children Log.root = [2, 1] ∧
    (Log.run lvl [ascii "a:b:c", ascii "a:b"]).children 2 = [] ∧
    (Log.run lvl [ascii "a:b:c", ascii "a:b"]).parent 1 = some Log.root := by
  refine ⟨?_, ?_, ?_, ?_⟩ <;> cases lvl <;> decide

/-- C4: names should be unique in the tree.  After the lookups of `a:a`,
`a:b`, `a`, `a:b` the tree holds two distinct loggers named `a:b`: logger 2
below `a`, and logger 4 below the root. -/
theorem lookup_duplicate_name_in_tree (lvl : Level) :
    InTree (Log.run lvl [ascii "a:a", ascii "a:b", ascii "a", ascii "a:b"]) 2 ∧
    InTree (Log.run lvl [ascii "a:a", ascii "a:b", ascii "a", ascii "a:b"]) 4 ∧
    (Log.run lvl [ascii "a:a", ascii "a:b", ascii "a", ascii "a:b"]).name 2 = ascii "a:b" ∧
    (Log.run lvl [ascii "a:a", ascii "a:b", ascii "a", ascii "a:b"]).name 4 = ascii "a:b" ∧
    (2 : Nat) ≠ 4 := by
  have h3 : 3 ∈ (Log.run lvl [ascii "a:a", ascii "a:b", ascii "a", ascii "a:b"]).children
      Log.root := by cases lvl <;> decide
  have h2 : 2 ∈ (Log.run lvl [ascii "a:a", ascii "a:b", ascii "a", ascii "a:b"]).children
      3 := by cases lvl <;> decide
  have h4 : 4 ∈ (Log.run lvl [ascii "a:a", ascii "a:b", ascii "a", ascii "a:b"]).children
      Log.root := by cases lvl <;> decide
  exact ⟨InTree.child (InTree.child InTree.root h3) h2, InTree.child InTree.root h4,
    by cases lvl <;> decide, by cases lvl <;> decide, by decide⟩

/-- C5 (invariant I1): in every reachable registry, every logger of the tree
other than the root has a parent link to a logger of the tree, is a member of
that parent's child set, and is a member of no other logger's child set. -/
theorem reachable_parent_child_agree (h : Heap) (hr : Reachable h) (i : Nat)
    (hi : InTree h i) (h0 : i ≠ Log.root) :
    ∃ p, h.parent i = some p ∧ InTree h p ∧ i ∈ h.children p ∧
      ∀ q, InTree h q → i ∈ h.children q → q = p := by
  have hinv := hr.treeInv
  obtain ⟨p, hp, hpar, hmem⟩ := hinv.parent_of i (InTree_lt hinv hi) h0
  refine ⟨p, hpar, (InTree_iff hinv p).2 hp, hmem, ?_⟩
  intro q hq hiq
  have := (hinv.child_of q (InTree_lt hinv hq) i hiq).2.2
  rw [hpar] at this
  injection this with this
  exact this.symm

/-- Witness for C5: the spliced logger `a:b` (2) in the registry after the
lookups of `a:a`, `a:b`, `a`. -/
theorem reachable_parent_child_agree_witness :
    ∃ p, (Log.run Level.INFO [ascii "a:a", ascii "a:b", ascii "a"]).parent 2 = some p ∧
      InTree (Log.run Level.INFO [ascii "a:a", ascii "a:b", ascii "a"]) p ∧
      2 ∈ (Log.run Level.INFO [ascii "a:a", ascii "a:b", ascii "a"]).children p ∧
      ∀ q, InTree (Log.run Level.INFO [ascii "a:a", ascii "a:b", ascii "a"]) q →
        2 ∈ (Log.run Level.INFO [ascii "a:a", ascii "a:b", ascii "a"]).children q → q = p :=
  reachable_parent_child_agree _ (Reachable.run _ _) 2
    (@InTree.child _ 3 2 (@InTree.child _ 0 3 InTree.root (by decide)) (by decide)) (by decide)

/-- C6: from the logger a lookup returns, every parent below the root should
have a name that, followed by `:`, starts the child's name.  The descent test
of `Log::lookup` ("Child of existing logger") compares with `strncmp`, which
stops at a NUL byte, where the ordering of the child set compares whole
strings.  After the lookup of `a\0z` (logger 1), the lookup of `a\0b:` finds
`a\0z` by `lower_bound`, passes the descent test against it (`strncmp` over 3
bytes reports equality), and attaches the logger it returns (2) below `a\0z`.
The parent links of that logger reach the root in two steps, but its parent
`a\0z` is not the root and `a\0z:` is no prefix of `a\0b:`. -/
theorem lookup_nul_parent_name_differs (lvl : Level) :
    strncmpEq [97, 0, 122] [97, 0, 98, 58] 3 = true ∧
    ∃ h1 r p, Log.lookup [97, 0, 98, 58] (Log.run lvl [[97, 0, 122]]) = some (h1, r) ∧
      ancestor h1 1 r = some p ∧ p ≠ Log.root ∧ ¬ (h1.name p ++ [colon] <+: h1.name r) ∧
      r = 2 ∧ p = 1 ∧ h1.name p = [97, 0, 122] ∧ h1.name r = [97, 0, 98, 58] ∧
      ancestor h1 2 r = some Log.root := by
  refine ⟨by decide, (newChild (Log.run lvl [[97, 0, 122]]) [97, 0, 98, 58] 1).1, 2, 1, ?_⟩
  cases lvl <;>
    exact ⟨by rfl, by rfl, by decide, by decide, rfl, rfl, by rfl, by rfl, by rfl⟩

/-! ## The claims about `Log::visit`, `Logger::level` and `Logger::log` -/

/-- C7: in every reachable registry `Log::visit` returns, and the sequence of
loggers it hands to the callback starts with the root, holds every logger of
the tree exactly once and nothing else, and is the tree level by level
(breadth first), each child set being in strictly ascending name order. -/
theorem visit_breadth_first (h : Heap) (hr : Reachable h) :
    ∃ order, Log.visit h = some order ∧ order.head? = some Log.root ∧
      (∀ i, InTree h i → order.count i = 1) ∧ (∀ i, i ∈ order → InTree h i) ∧
      (∃ n, order = (List.range n).flatMap (bfsLevel h)) ∧
      ∀ q, InTree h q →
        (h.children q).Pairwise (fun a b => strLt (h.name a) (h.name b) = true) := by
  have hinv := hr.treeInv
  obtain ⟨n, hn, hv, hnd, hmem⟩ := visit_levels hinv
  refine ⟨_, hv, levels_head h n hn, ?_, ?_, ⟨n, rfl⟩, ?_⟩
  · intro i hi
    exact List.count_eq_one_of_mem hnd ((hmem i).2 (InTree_lt hinv hi))
  · intro i hi
    exact (InTree_iff hinv i).2 ((hmem i).1 hi)
  · intro q hq
    exact hinv.sorted q (InTree_lt hinv hq)

/-- Witness for C7: the registry after the lookups of `a:a`, `a:b`, `a`. -/
theorem visit_breadth_first_witness :
    ∃ order, Log.visit (Log.run Level.INFO [ascii "a:a", ascii "a:b", ascii "a"]) = some order ∧
      order.head? = some Log.root ∧
      (∀ i, InTree (Log.run Level.INFO [ascii "a:a", ascii "a:b", ascii "a"]) i →
        order.count i = 1) ∧
      (∀ i, i ∈ order → InTree (Log.run Level.INFO [ascii "a:a", ascii "a:b", ascii "a"]) i) ∧
      (∃ n, order = (List.range n).flatMap
        (bfsLevel (Log.run Level.INFO [ascii "a:a", ascii "a:b", ascii "a"]))) ∧
      ∀ q, InTree (Log.run Level.INFO [ascii "a:a", ascii "a:b", ascii "a"]) q →
        ((Log.run Level.INFO [ascii "a:a", ascii "a:b", ascii "a"]).children q).Pairwise
          (fun a b => strLt ((Log.run Level.INFO [ascii "a:a", ascii "a:b", ascii "a"]).name a)
            ((Log.run Level.INFO [ascii "a:a", ascii "a:b", ascii "a"]).name b) = true) :=
  visit_breadth_first _ (Reachable.run _ _)

/-- C8: in every reachable registry and for every logger `x` of the tree,
`x.level(lv, true)` returns and leaves `x` and every logger below `x`, at any
depth, at level `lv`, and every other logger at the level it had;
`x.level(lv, false)` returns and changes the level of `x` alone. -/
theorem level_propagates_to_subtree (h : Heap) (hr : Reachable h) (x : Nat) (hx : InTree h x)
    (lv : Level) :
    (∃ b, Logger.level h x lv true = some b ∧ (∀ i, InSubtree h x i → b.level i = lv) ∧
      ∀ i, ¬ InSubtree h x i → b.level i = h.level i) ∧
    (∃ b, Logger.level h x lv false = some b ∧ b.level x = lv ∧
      ∀ i, i ≠ x → b.level i = h.level i) := by
  have hinv := hr.treeInv
  have hxlt := InTree_lt hinv hx
  constructor
  · obtain ⟨b, hb⟩ := level_returns h x lv true hinv hxlt
    obtain ⟨_, _, hl⟩ := levelLoop_true_spec lv _ h x b hb
    exact ⟨b, hb, fun i => (hl i).1, fun i => (hl i).2⟩
  · refine ⟨h.modify x (setLevel lv), ?_, ?_, ?_⟩
    · unfold Logger.level
      rw [levelLoop_succ, if_neg (by decide)]
    · rw [modify_setLevel_level, if_pos rfl]
    · intro i hi
      rw [modify_setLevel_level, if_neg hi]

/-- Witness for C8: level TRACE set on `a` (3), above `a:b` (2), in the
registry after the lookups of `a:a`, `a:b`, `a`. -/
theorem level_propagates_to_subtree_witness :
    (∃ b, Logger.level (Log.run Level.INFO [ascii "a:a", ascii "a:b", ascii "a"]) 3
        Level.TRACE true = some b ∧
      (∀ i, InSubtree (Log.run Level.INFO [ascii "a:a", ascii "a:b", ascii "a"]) 3 i →
        b.level i = Level.TRACE) ∧
      ∀ i, ¬ InSubtree (Log.run Level.INFO [ascii "a:a", ascii "a:b", ascii "a"]) 3 i →
        b.level i = (Log.run Level.INFO [ascii "a:a", ascii "a:b", ascii "a"]).level i) ∧
    (∃ b, Logger.level (Log.run Level.INFO [ascii "a:a", ascii "a:b", ascii "a"]) 3
        Level.TRACE false = some b ∧ b.level 3 = Level.TRACE ∧
      ∀ i, i ≠ 3 →
        b.level i = (Log.run Level.INFO [ascii "a:a", ascii "a:b", ascii "a"]).level i) :=
  level_propagates_to_subtree _ (Reachable.run _ _) 3
    (@InTree.child _ 0 3 InTree.root (by decide)) Level.TRACE

theorem logWalk_stuck (call : Nat → SinkCall) : ∀ n,
    logWalk spliced_with_sinks 2 call n (some 3) = (List.replicate n (call 2), false) := by
  intro n
  induction n with
  | zero => rfl
  | succ n ih =>
    rw [logWalk]
    have h1 : spliced_with_sinks.inheritSinks 3 = true := by decide
    have h2 : spliced_with_sinks.parent 2 = some 3 := by decide
    have h3 : spliced_with_sinks.sinks 3 = [2] := by decide
    rw [if_neg (by rw [h1]; decide), h2, ih, h3]
    rfl

/-- C10: an enabled, non-empty record logged on `a:b` should reach sink 2 of
its parent `a` and then sink 1 of the root, once each.  With `a:b` spliced
below `a`, `Logger::log` never leaves its loop: having called the sinks of
`a:b` (none) it re-reads the parent of `a:b` on every iteration, so after
`n + 1` iterations it has called sink 2 `n` times and sink 1 not at all.
With `a` and `a:b` looked up in that order (the scenario of the claim),
`a:b` is a child of the root and the record reaches sink 1 only. -/
theorem log_inherit_chain_stuck (n : Nat) :
    Logger.log spliced_with_sinks 2 7 0 Level.INFO (ascii "m") none 0 (n + 1) =
      { calls := List.replicate n (SinkCall.mk 2 (ascii "a:b") 7 0 Level.INFO (ascii "m") none 0),
        finished := false, thrown := false } ∧
    Logger.log siblings_with_sinks 2 7 0 Level.INFO (ascii "m") none 0 (n + 2) =
      { calls := [SinkCall.mk 1 (ascii "a:b") 7 0 Level.INFO (ascii "m") none 0],
        finished := true, thrown := false } := by
  constructor
  · unfold Logger.log
    rw [if_neg (by decide), logWalk]
    have h1 : spliced_with_sinks.inheritSinks 2 = true := by decide
    have h2 : spliced_with_sinks.parent 2 = some 3 := by decide
    have h3 : spliced_with_sinks.sinks 2 = [] := by decide
    have h4 : spliced_with_sinks.name 2 = ascii "a:b" := by decide
    rw [if_neg (by rw [h1]; decide)]
    simp only [h2, h3, h4, logWalk_stuck, List.map_nil, List.nil_append, Bool.false_and]
  · unfold Logger.log
    rw [if_neg (by decide), logWalk]
    have h1 : siblings_with_sinks.inheritSinks 2 = true := by decide
    have h2 : siblings_with_sinks.parent 2 = some 0 := by decide
    have h3 : siblings_with_sinks.sinks 2 = [] := by decide
    have h4 : siblings_with_sinks.name 2 = ascii "a:b" := by decide
    have h5 : siblings_with_sinks.inheritSinks 0 = false := by decide
    have h6 : siblings_with_sinks.sinks 0 = [1] := by decide
    rw [if_neg (by rw [h1]; decide), h2, logWalk, if_pos h5]
    simp only [h3, h4, h6, List.map_nil, List.nil_append, List.map_cons]
    decide

/-! ## `Logger::log` and the loop it may not leave -/

theorem logWalk_at_parent (h : Heap) (self p : Nat) (call : Nat → SinkCall)
    (hp : h.parent self = some p) (hi : h.inheritSinks p = true) :
    ∀ n, (logWalk h self call n (some p)).2 = false := by
  intro n
  induction n with
  | zero => rfl
  | succ n ih =>
    rw [logWalk, if_neg (by rw [hi]; decide), hp]
    exact ih

/-- On a logger that inherits sinks and whose parent inherits sinks too, the
loop of `Logger::log` is never left. -/
theorem logWalk_not_left (h : Heap) (self p : Nat) (call : Nat → SinkCall)
    (hp : h.parent self = some p) (hs : h.inheritSinks self = true)
    (hi : h.inheritSinks p = true) :
    ∀ n, (logWalk h self call n (some self)).2 = false := by
  intro n
  cases n with
  | zero => rfl
  | succ n =>
    rw [logWalk, if_neg (by rw [hs]; decide), hp]
    exact logWalk_at_parent h self p call hp hi n

/-- C11: a call of `log` should terminate on every logger of every tree built
by lookups.  After the lookups of `a:a`, `a:b`, `a` the logger `a:b` (2) is a
child of `a` (3); an enabled record logged on it keeps the loop of
`Logger::log` running however many iterations are observed: the call neither
returns nor raises. -/
theorem log_does_not_terminate (fuel : Nat) :
    Logger.enabled (Log.run Level.INFO [ascii "a:a", ascii "a:b", ascii "a"]) 2 Level.INFO
      = true ∧
    (Logger.log (Log.run Level.INFO [ascii "a:a", ascii "a:b", ascii "a"]) 2 7 0 Level.INFO
      (ascii "m") none 0 fuel).finished = false ∧
    (Logger.log (Log.run Level.INFO [ascii "a:a", ascii "a:b", ascii "a"]) 2 7 0 Level.INFO
      (ascii "m") none 0 fuel).thrown = false := by
  have hw := logWalk_not_left (Log.run Level.INFO [ascii "a:a", ascii "a:b", ascii "a"]) 2 3
    (fun s => SinkCall.mk s
      ((Log.run Level.INFO [ascii "a:a", ascii "a:b", ascii "a"]).name 2) 7 0 Level.INFO
      (ascii "m") none 0) (by decide) (by decide) (by decide) fuel
  refine ⟨by decide, ?_, ?_⟩
  · unfold Logger.log
    rw [if_neg (by decide)]
    exact hw
  · unfold Logger.log
    rw [if_neg (by decide)]
    show ((logWalk _ 2 _ fuel (some 2)).2 && decide (Level.INFO = Level.FATAL)) = false
    rw [hw]; rfl

/-- C12: a non-empty FATAL record on a logger with FATAL enabled should make
`log` raise once the sinks have been called.  On the logger `a:b` (2) spliced
below `a` (3), whose level INFO enables FATAL, `log(FATAL, "oops")` never
leaves its loop: it does not raise, and it does not return either. -/
theorem log_fatal_does_not_raise (fuel : Nat) :
    Logger.enabled (Log.run Level.INFO [ascii "a:a", ascii "a:b", ascii "a"]) 2 Level.FATAL
      = true ∧
    (Logger.log (Log.run Level.INFO [ascii "a:a", ascii "a:b", ascii "a"]) 2 7 0 Level.FATAL
      (ascii "oops") none 0 fuel).thrown = false ∧
    (Logger.log (Log.run Level.INFO [ascii "a:a", ascii "a:b", ascii "a"]) 2 7 0 Level.FATAL
      (ascii "oops") none 0 fuel).finished = false := by
  have hw := logWalk_not_left (Log.run Level.INFO [ascii "a:a", ascii "a:b", ascii "a"]) 2 3
    (fun s => SinkCall.mk s
      ((Log.run Level.INFO [ascii "a:a", ascii "a:b", ascii "a"]).name 2) 7 0 Level.FATAL
      (ascii "oops") none 0) (by decide) (by decide) (by decide) fuel
  refine ⟨by decide, ?_, ?_⟩
  · unfold Logger.log
    rw [if_neg (by decide)]
    show ((logWalk _ 2 _ fuel (some 2)).2 && decide (Level.FATAL = Level.FATAL)) = false
    rw [hw]; rfl
  · unfold Logger.log
    rw [if_neg (by decide)]
    exact hw

/-! ## Construction defaults -/

/-- A logger created by `Log::lookup` has the name asked for, level INFO,
`inheritSinks` set, no sinks, and no children unless it was spliced in above
one existing logger. -/
theorem lookup_created_defaults (name : Name) (h h1 : Heap) (r : Nat) (hinv : TreeInv h)
    (heq : Log.lookup name h = some (h1, r)) (hnew : h.size ≤ r) :
    h1.name r = name ∧ h1.level r = Level.INFO ∧ h1.inheritSinks r = true ∧
      h1.sinks r = [] ∧ (h1.children r = [] ∨ ∃ c, c < h.size ∧ h1.children r = [c]) := by
  rcases lookup_cases name h h1 r hinv heq with
    ⟨_, hr, _⟩ | ⟨p, hp, _, _, he⟩ | ⟨p, c, hp, _, hc, _, _, he⟩
  · omega
  · have e1 : h1 = (newChild h name p).1 := congrArg Prod.fst he
    have e2 : r = (newChild h name p).2 := congrArg Prod.snd he
    rw [e1, e2, newChild_snd, newChild_name, newChild_level, newChild_inheritSinks,
      newChild_sinks, newChild_children _ _ _ _ hp, if_pos rfl, if_pos rfl, if_pos rfl,
      if_pos rfl, if_neg (by omega), if_pos rfl]
    exact ⟨rfl, rfl, rfl, rfl, Or.inl rfl⟩
  · have e1 : h1 = (splice h name p c).1 := congrArg Prod.fst he
    have e2 : r = (splice h name p c).2 := congrArg Prod.snd he
    rw [e1, e2, splice_snd, splice_name, splice_level, splice_inheritSinks,
      splice_sinks, splice_children _ _ _ _ _ hp, if_pos rfl, if_pos rfl, if_pos rfl,
      if_pos rfl, if_pos rfl]
    exact ⟨rfl, rfl, rfl, rfl, Or.inr ⟨c, (hinv.child_of p hp c hc).1, rfl⟩⟩

/-- C20: the root built by the registry should have level INFO.
`Logger::Logger()` initialises `m_name` and `m_inheritSinks` only, so the
root has the name `:`, no parent and `inheritSinks` off, but its level is
whatever value `lvl` the allocation holds, INFO or not. -/
theorem root_level_not_initialised (lvl : Level) :
    (Log.init lvl).level Log.root = lvl ∧ (Log.init lvl).name Log.root = ascii ":" ∧
      (Log.init lvl).inheritSinks Log.root = false ∧ (Log.init lvl).parent Log.root = none ∧
      (Log.init Level.NONE).level Log.root ≠ Level.INFO := by
  refine ⟨rfl, by rfl, rfl, rfl, by decide⟩

/-! ## The mask handler -/

theorem level_no_propagate (h : Heap) (x : Nat) (lv : Level) :
    Logger.level h x lv false = some (h.modify x (setLevel lv)) := by
  unfold Logger.level
  rw [levelLoop_succ, if_neg (by decide)]

/-- What `enableLogger` does: the logger's level becomes the noisiest match,
the registry being left untouched when it already is. -/
theorem enableLogger_eq (h : Heap) (x : Nat) (f e w i t v : Regex) :
    enableLogger h x f e w i t v =
      some (if h.level x =
          noisiestMatch (f (h.name x)) (e (h.name x)) (w (h.name x)) (i (h.name x))
            (t (h.name x)) (v (h.name x))
        then h
        else h.modify x (setLevel (noisiestMatch (f (h.name x)) (e (h.name x)) (w (h.name x))
          (i (h.name x)) (t (h.name x)) (v (h.name x))))) := by
  unfold enableLogger
  simp only [level_no_propagate]
  cases f (h.name x) <;> cases e (h.name x) <;> cases w (h.name x) <;> cases i (h.name x) <;>
    cases t (h.name x) <;> cases v (h.name x) <;>
    simp only [noisiestMatch, if_true, if_false, Bool.false_eq_true, ne_eq] <;>
    split_ifs <;> rfl

theorem enableLogger_effect (h : Heap) (x : Nat) (f e w i t v : Regex) :
    ∃ b, enableLogger h x f e w i t v = some b ∧ SameShape h b ∧
      (∀ j, b.sinks j = h.sinks j ∧ b.inheritSinks j = h.inheritSinks j) ∧
      ∀ j, b.level j =
        if j = x then noisiestMatch (f (h.name x)) (e (h.name x)) (w (h.name x))
          (i (h.name x)) (t (h.name x)) (v (h.name x))
        else h.level j := by
  refine ⟨_, enableLogger_eq h x f e w i t v, ?_, ?_, ?_⟩
  · split_ifs
    · exact SameShape.refl h
    · exact modify_setLevel_shape h _ x
  · intro j
    split_ifs
    · exact ⟨rfl, rfl⟩
    · exact modify_setLevel_sinks h _ x j
  · intro j
    split_ifs with h1 h2 h2
    · rw [h2]; exact h1
    · rfl
    · rw [modify_setLevel_level, if_pos h2]
    · rw [modify_setLevel_level, if_neg h2]

theorem visitLoop_congr {h h1 : Heap} (hc : ∀ i, h1.children i = h.children i) :
    ∀ (fuel : Nat) (q : List Nat), visitLoop h1 fuel q = visitLoop h fuel q := by
  intro fuel
  induction fuel with
  | zero => intro q; cases q <;> rfl
  | succ fuel ih =>
    intro q
    cases q with
    | nil => rfl
    | cons cur tv => rw [visitLoop_cons, visitLoop_cons, hc, ih]

theorem visitLoopWith_nil (dg : Heap → Nat → Option Heap) (fuel : Nat) (h : Heap) :
    visitLoopWith dg fuel h [] = some h := by
  cases fuel <;> rfl

/-- With a callback that leaves names, parent links and child sets alone,
`Log::visit` applies the callback to the loggers in the order it would hand
them to any callback. -/
theorem visitLoopWith_fold (dg : Heap → Nat → Option Heap)
    (hdg : ∀ a x b, dg a x = some b → SameShape a b) :
    ∀ (fuel : Nat) (h : Heap) (q order : List Nat), visitLoop h fuel q = some order →
      visitLoopWith dg fuel h q = order.foldlM dg h := by
  intro fuel
  induction fuel with
  | zero =>
    intro h q order hv
    cases q with
    | nil =>
      rw [visitLoop_nil] at hv
      injection hv with hv
      rw [← hv]; rfl
    | cons cur tv => simp [visitLoop] at hv
  | succ fuel ih =>
    intro h q order hv
    cases q with
    | nil =>
      rw [visitLoop_nil] at hv
      injection hv with hv
      rw [← hv]; rfl
    | cons cur tv =>
      rw [visitLoop_cons] at hv
      cases hout : visitLoop h fuel (tv ++ h.children cur) with
      | none => rw [hout] at hv; cases hv
      | some out =>
        rw [hout] at hv
        injection hv with hv
        rw [← hv, List.foldlM_cons, visitLoopWith]
        cases hd : dg h cur with
        | none => rfl
        | some h1 =>
          have hs := hdg h cur h1 hd
          have hc : ∀ i, h1.children i = h.children i := fun i => (hs.2 i).2.2
          simp only [Option.some_bind, Option.bind_eq_bind]
          rw [hc cur]
          apply ih
          rw [visitLoop_congr hc]
          exact hout

/-- Running `enableLogger` over a list of loggers. -/
theorem enableLogger_fold (f e w i t v : Regex) : ∀ (l : List Nat) (a : Heap),
    ∃ b, l.foldlM (fun acc x => enableLogger acc x f e w i t v) a = some b ∧ SameShape a b ∧
      (∀ j, b.sinks j = a.sinks j ∧ b.inheritSinks j = a.inheritSinks j) ∧
      ∀ j, b.level j =
        if j ∈ l then noisiestMatch (f (a.name j)) (e (a.name j)) (w (a.name j))
          (i (a.name j)) (t (a.name j)) (v (a.name j))
        else a.level j := by
  intro l
  induction l with
  | nil =>
    intro a
    exact ⟨a, rfl, SameShape.refl a, fun _ => ⟨rfl, rfl⟩, fun j => by simp⟩
  | cons x l ih =>
    intro a
    obtain ⟨a1, h1, hs1, hk1, hl1⟩ := enableLogger_effect a x f e w i t v
    obtain ⟨b, h2, hs2, hk2, hl2⟩ := ih a1
    refine ⟨b, by rw [List.foldlM_cons, h1]; exact h2, hs1.trans hs2,
      fun j => ⟨(hk2 j).1.trans (hk1 j).1, (hk2 j).2.trans (hk1 j).2⟩, ?_⟩
    intro j
    rw [hl2 j, (hs1.2 j).1, hl1 j]
    by_cases hjl : j ∈ l
    · rw [if_pos hjl, if_pos (List.mem_cons_of_mem _ hjl)]
    · rw [if_neg hjl]
      by_cases hjx : j = x
      · rw [if_pos hjx, if_pos (by rw [hjx]; exact List.mem_cons_self _ _), hjx]
      · rw [if_neg hjx, if_neg (by
          intro hm
          rcases List.mem_cons.1 hm with hm | hm
          · exact hjx hm
          · exact hjl hm)]

/-- Where every logger of the list already has the level of its noisiest
match, running `enableLogger` over the list leaves the registry as it is. -/
theorem enableLogger_fold_fixed (f e w i t v : Regex) (a : Heap) : ∀ (l : List Nat),
    (∀ j, j ∈ l → a.level j = noisiestMatch (f (a.name j)) (e (a.name j)) (w (a.name j))
      (i (a.name j)) (t (a.name j)) (v (a.name j))) →
    l.foldlM (fun acc x => enableLogger acc x f e w i t v) a = some a := by
  intro l
  induction l with
  | nil => intro _; rfl
  | cons x l ih =>
    intro hall
    rw [List.foldlM_cons, enableLogger_eq, if_pos (hall x (List.mem_cons_self _ _))]
    exact ih (fun j hj => hall j (List.mem_cons_of_mem _ hj))

/-- On a well-formed registry `enableLoggers` returns, having given every
logger the level of its noisiest match and changed nothing else. -/
theorem enableLoggers_effect (f e w i t v : Regex) (h : Heap) (hinv : TreeInv h) :
    ∃ b, enableLoggers f e w i t v h = some b ∧ SameShape h b ∧
      (∀ j, b.sinks j = h.sinks j ∧ b.inheritSinks j = h.inheritSinks j) ∧
      (∀ j, j < h.size → b.level j = noisiestMatch (f (h.name j)) (e (h.name j))
        (w (h.name j)) (i (h.name j)) (t (h.name j)) (v (h.name j))) ∧
      ∀ j, ¬ j < h.size → b.level j = h.level j := by
  obtain ⟨n, _, hv, _, hmem⟩ := visit_levels hinv
  obtain ⟨b, hb, hs, hk, hl⟩ := enableLogger_fold f e w i t v
    ((List.range n).flatMap (bfsLevel h)) h
  refine ⟨b, ?_, hs, hk, ?_, ?_⟩
  · unfold enableLoggers Log.visitWith
    rw [visitLoopWith_fold _ (fun a x c hc => ?_) h.size h [Log.root] _ hv]
    · exact hb
    · obtain ⟨c2, hc2, hs2, _, _⟩ := enableLogger_effect a x f e w i t v
      rw [hc2] at hc
      injection hc with hc
      rw [← hc]; exact hs2
  · intro j hj
    rw [hl j, if_pos ((hmem j).2 hj)]
  · intro j hj
    rw [hl j, if_neg (fun hm => hj ((hmem j).1 hm))]

/-- Running `enableLoggers` a second time with the same regexes returns the
registry the first run left. -/
theorem enableLoggers_twice (f e w i t v : Regex) (h : Heap) (hinv : TreeInv h) :
    ∃ b, enableLoggers f e w i t v h = some b ∧ enableLoggers f e w i t v b = some b := by
  obtain ⟨b, hb, hs, _, hl, _⟩ := enableLoggers_effect f e w i t v h hinv
  refine ⟨b, hb, ?_⟩
  have hinvb := TreeInv_of_SameShape hs hinv
  obtain ⟨n, _, hv, _, hmem⟩ := visit_levels hinvb
  unfold enableLoggers Log.visitWith
  rw [visitLoopWith_fold _ (fun a x c hc => ?_) b.size b [Log.root] _ hv]
  · apply enableLogger_fold_fixed
    intro j hj
    have hjlt : j < h.size := by rw [← hs.1]; exact (hmem j).1 hj
    rw [hl j hjlt, (hs.2 j).1]
  · obtain ⟨c2, hc2, hs2, _, _⟩ := enableLogger_effect a x f e w i t v
    rw [hc2] at hc
    injection hc with hc
    rw [← hc]; exact hs2

/-- C13: for every logger and all match results of the six masks on its name,
`enableLogger` returns and leaves the logger at the noisiest level whose mask
matches (VERBOSE before TRACE before INFO before WARNING before ERROR before
FATAL), at NONE when no mask matches, and leaves the level of every other
logger as it was. -/
theorem enableLogger_noisiest_match (h : Heap) (logger : Nat) (f e w i t v : Regex) :
    ∃ b, enableLogger h logger f e w i t v = some b ∧
      b.level logger =
        (if v (h.name logger) = true then Level.VERBOSE
         else if t (h.name logger) = true then Level.TRACE
         else if i (h.name logger) = true then Level.INFO
         else if w (h.name logger) = true then Level.WARNING
         else if e (h.name logger) = true then Level.ERROR
         else if f (h.name logger) = true then Level.FATAL
         else Level.NONE) ∧
      ∀ j, j ≠ logger → b.level j = h.level j := by
  obtain ⟨b, hb, _, _, hl⟩ := enableLogger_effect h logger f e w i t v
  refine ⟨b, hb, ?_, ?_⟩
  · rw [hl logger, if_pos rfl]; rfl
  · intro j hj
    rw [hl j, if_neg hj]

/-- C14, as stated, fails for a logger created after the masks were applied:
with a trace mask that matches every name applied to the fresh root, the
logger `a` looked up afterwards has level INFO, and running the handler again
with the same masks changes it to TRACE. -/
theorem enableLoggers_again_changes_level :
    (enableLoggers (fun _ => true) (fun _ => true) (fun _ => true) (fun _ => true)
        (fun _ => true) (fun _ => false) (Log.init Level.INFO)).bind
      (fun h1 => (Log.lookup (ascii "a") h1).bind
        (fun p => (enableLoggers (fun _ => true) (fun _ => true) (fun _ => true)
            (fun _ => true) (fun _ => true) (fun _ => false) p.1).map
          (fun h3 => (p.2, p.1.level p.2, h3.level p.2)))) =
      some (1, Level.INFO, Level.TRACE) := by
  decide

/-- C14, amended to a second run that directly follows the first: in every
reachable registry and for all six masks, the handler returns, and running it
again on the registry it left, with the same masks, returns and changes the
level of no logger. -/
theorem enableLoggers_idempotent (h : Heap) (hr : Reachable h) (f e w i t v : Regex) :
    ∃ b c, enableLoggers f e w i t v h = some b ∧ enableLoggers f e w i t v b = some c ∧
      ∀ j, c.level j = b.level j := by
  obtain ⟨b, hb, hbb⟩ := enableLoggers_twice f e w i t v h hr.treeInv
  exact ⟨b, b, hb, hbb, fun _ => rfl⟩

/-- Witness for C14: the registry after the lookups of `a:a`, `a:b`, `a`, with
a trace mask matching the name `a` only. -/
theorem enableLoggers_idempotent_witness :
    ∃ b c, enableLoggers (fun _ => true) (fun _ => true) (fun _ => true) (fun _ => true)
        (fun n => decide (n = ascii "a")) (fun _ => false)
        (Log.run Level.INFO [ascii "a:a", ascii "a:b", ascii "a"]) = some b ∧
      enableLoggers (fun _ => true) (fun _ => true) (fun _ => true) (fun _ => true)
        (fun n => decide (n = ascii "a")) (fun _ => false) b = some c ∧
      ∀ j, c.level j = b.level j :=
  enableLoggers_idempotent _ (Reachable.run _ _) _ _ _ _ _ _

/-- C15, as stated, fails for a logger first created by the lookup: after the
handler has run on the fresh root with a trace mask matching `app.net.http`
(and no verbose mask), `lookup("app.net.http")` creates the logger with level
INFO, not TRACE. -/
theorem lookup_after_masks_level_info :
    (enableLoggers (fun _ => true) (fun _ => true) (fun _ => true) (fun _ => true)
        (fun n => decide (n = ascii "app.net.http")) (fun _ => false)
        (Log.init Level.INFO)).bind
      (fun h1 => (Log.lookup (ascii "app.net.http") h1).map (fun p => (p.2, p.1.level p.2))) =
      some (1, Level.INFO) := by
  decide

/-- C15, amended to loggers that exist when the handler runs: in every
reachable registry, after the handler has run with a trace mask that matches
`n` and a verbose mask that does not, `lookup(n)` returns, and the logger it
returns has level TRACE if it existed when the handler ran and level INFO if
that lookup created it. -/
theorem lookup_after_masks_level (h : Heap) (hr : Reachable h) (f e w i t v : Regex)
    (n : Name) (ht : t n = true) (hv : v n = false) :
    ∃ h1 h2 r, enableLoggers f e w i t v h = some h1 ∧ Log.lookup n h1 = some (h2, r) ∧
      (r < h1.size → h2.level r = Level.TRACE) ∧ (h1.size ≤ r → h2.level r = Level.INFO) := by
  have hinv := hr.treeInv
  obtain ⟨h1, hb, hs, _, hl, _⟩ := enableLoggers_effect f e w i t v h hinv
  have hinv1 := TreeInv_of_SameShape hs hinv
  obtain ⟨⟨h2, r⟩, hlk⟩ := lookup_returns n h1 hinv1
  refine ⟨h1, h2, r, hb, hlk, ?_, ?_⟩
  · intro hrlt
    rcases lookup_cases n h1 h2 r hinv1 hlk with
      ⟨he, _, hname⟩ | ⟨p, _, _, _, he⟩ | ⟨p, c, _, _, _, _, _, he⟩
    · rw [he, hl r (by rw [← hs.1]; exact hrlt), ← (hs.2 r).1, hname, ht, hv]
      simp [noisiestMatch]
    · have e2 : r = (newChild h1 n p).2 := congrArg Prod.snd he
      rw [e2, newChild_snd] at hrlt
      omega
    · have e2 : r = (splice h1 n p c).2 := congrArg Prod.snd he
      rw [e2, splice_snd] at hrlt
      omega
  · intro hnew
    exact (lookup_created_defaults n h1 h2 r hinv1 hlk hnew).2.1

/-- Witness for C15: the logger `core`, looked up before the handler runs with
a trace mask matching `core` only. -/
theorem lookup_after_masks_level_witness :
    ∃ h1 h2 r, enableLoggers (fun _ => true) (fun _ => true) (fun _ => true) (fun _ => true)
        (fun n => decide (n = ascii "core")) (fun _ => false)
        (Log.run Level.INFO [ascii "core"]) = some h1 ∧
      Log.lookup (ascii "core") h1 = some (h2, r) ∧
      (r < h1.size → h2.level r = Level.TRACE) ∧ (h1.size ≤ r → h2.level r = Level.INFO) :=
  lookup_after_masks_level _ (Reachable.run _ _) _ _ _ _ _ _ (ascii "core") (by decide) rfl

/-! ## The line written by the built-in sinks -/

theorem levelToStream_eq (level : Level) (hl : level ≠ Level.NONE) :
    levelToStream level = some (levelToken level) := by
  cases level <;> first | exact absurd rfl hl | decide

/-- C16: for every record whose level is one of FATAL..VERBOSE,
`StdoutLogSink::log` and `FileLogSink::log` write the same text: the level
token, the thread, the fiber, the logger name, then `file:line` when a file
is given, then the message, with one space between consecutive items and one
newline at the end. -/
theorem sinks_write_same_line (showPtr : Nat → Name) (logger : Name) (thread fiber : Nat)
    (level : Level) (str : Name) (file : Option Name) (line : Int)
    (hl : level ≠ Level.NONE) :
    StdoutLogSink.log showPtr logger thread fiber level str file line =
      some (levelToken level ++ [32] ++ decimal thread ++ [32] ++ showPtr fiber ++ [32] ++
        logger ++ [32] ++
        (match file with
          | some f => f ++ [58] ++ decimalInt line ++ [32]
          | none => []) ++
        str ++ [10]) ∧
    FileLogSink.log showPtr logger thread fiber level str file line =
      StdoutLogSink.log showPtr logger thread fiber level str file line := by
  have hsp : ascii " " = [32] := rfl
  have hco : ascii ":" = [58] := rfl
  unfold StdoutLogSink.log FileLogSink.log
  rw [levelToStream_eq level hl]
  cases file with
  | none => simp only [hsp, List.append_nil, List.append_assoc, and_self]
  | some f => simp only [hsp, hco, List.append_assoc, and_self]

/-- Witness for C16: INFO on logger `core`, thread 42, fiber 0, file `f.c`,
line 10, message `hello`. -/
theorem sinks_write_same_line_witness :
    StdoutLogSink.log (fun _ => ascii "0") (ascii "core") 42 0 Level.INFO (ascii "hello")
        (some (ascii "f.c")) 10 = some (ascii "INFO 42 0 core f.c:10 hello" ++ [10]) ∧
    FileLogSink.log (fun _ => ascii "0") (ascii "core") 42 0 Level.INFO (ascii "hello")
        (some (ascii "f.c")) 10 = some (ascii "INFO 42 0 core f.c:10 hello" ++ [10]) :=
  ⟨(sinks_write_same_line (fun _ => ascii "0") (ascii "core") 42 0 Level.INFO (ascii "hello")
      (some (ascii "f.c")) 10 (by decide)).1.trans (by decide),
    ((sinks_write_same_line (fun _ => ascii "0") (ascii "core") 42 0 Level.INFO
      (ascii "hello") (some (ascii "f.c")) 10 (by decide)).2.trans
      (sinks_write_same_line (fun _ => ascii "0") (ascii "core") 42 0 Level.INFO
        (ascii "hello") (some (ascii "f.c")) 10 (by decide)).1).trans (by decide)⟩

theorem logWalk_calls (h : Heap) (self : Nat) (call : Nat → SinkCall) :
    ∀ (fuel : Nat) (cur : Option Nat) (c : SinkCall),
      c ∈ (logWalk h self call fuel cur).1 → ∃ s, c = call s := by
  intro fuel
  induction fuel with
  | zero =>
    intro cur c hc
    cases cur <;> simp [logWalk] at hc
  | succ fuel ih =>
    intro cur c hc
    cases cur with
    | none => simp [logWalk] at hc
    | some x =>
      rw [logWalk] at hc
      split_ifs at hc
      · obtain ⟨s, _, hs⟩ := List.mem_map.1 hc
        exact ⟨s, hs.symm⟩
      · rcases List.mem_append.1 hc with hc | hc
        · obtain ⟨s, _, hs⟩ := List.mem_map.1 hc
          exact ⟨s, hs.symm⟩
        · exact ih _ c hc

/-- Every sink call made by `Logger::log` carries the level, the message and
the name of the logger `log` was called on. -/
theorem log_calls_level (h : Heap) (x thread fiber : Nat) (lv : Level) (str : Name)
    (file : Option Name) (line : Int) (fuel : Nat) (c : SinkCall)
    (hc : c ∈ (Logger.log h x thread fiber lv str file line fuel).calls) :
    c.level = lv ∧ c.str = str ∧ c.logger = h.name x := by
  unfold Logger.log at hc
  split_ifs at hc
  · cases hc
  · obtain ⟨s, hs⟩ := logWalk_calls h x _ fuel (some x) c hc
    rw [hs]
    exact ⟨rfl, rfl, rfl⟩

/-- C17, as stated, fails at NONE: the operator's assertion rejects NONE, so
nothing is rendered for it, and `Logger::log` does deliver records of level
NONE, every logger having NONE enabled: on the root with the one sink 7, a
record of level NONE reaches sink 7, whose `operator<<` then fails. -/
theorem none_record_fails_assertion :
    levelToStream Level.NONE = none ∧
    (Logger.log (Logger.addSink (Log.init Level.INFO) 0 7) 0 1 0 Level.NONE (ascii "m")
      none 0 1).calls = [SinkCall.mk 7 (ascii ":") 1 0 Level.NONE (ascii "m") none 0] ∧
    StdoutLogSink.log (fun _ => ascii "0") (ascii ":") 1 0 Level.NONE (ascii "m") none 0
      = none := by
  decide

/-- C17, amended to the levels the assertion admits: the operator renders
FATAL, ERROR, WARN, INFO, TRACE, VERBOSE for the six levels FATAL..VERBOSE,
its assertion fails for NONE, and the assertion holds for every record that
`Logger::log` delivers when called with a level other than NONE. -/
theorem level_tokens_and_assertion (h : Heap) (x thread fiber : Nat) (lv : Level)
    (str : Name) (file : Option Name) (line : Int) (fuel : Nat) (hlv : lv ≠ Level.NONE) :
    levelToStream Level.FATAL = some (ascii "FATAL") ∧
    levelToStream Level.ERROR = some (ascii "ERROR") ∧
    levelToStream Level.WARNING = some (ascii "WARN") ∧
    levelToStream Level.INFO = some (ascii "INFO") ∧
    levelToStream Level.TRACE = some (ascii "TRACE") ∧
    levelToStream Level.VERBOSE = some (ascii "VERBOSE") ∧
    levelToStream Level.NONE = none ∧
    ∀ c, c ∈ (Logger.log h x thread fiber lv str file line fuel).calls →
      levelToStream c.level = some (levelToken lv) := by
  refine ⟨by decide, by decide, by decide, by decide, by decide, by decide, by decide, ?_⟩
  intro c hc
  rw [(log_calls_level h x thread fiber lv str file line fuel c hc).1]
  exact levelToStream_eq lv hlv

/-- Witness for C17: an ERROR record on the root with the one sink 7. -/
theorem level_tokens_and_assertion_witness :
    levelToStream Level.FATAL = some (ascii "FATAL") ∧
    levelToStream Level.ERROR = some (ascii "ERROR") ∧
    levelToStream Level.WARNING = some (ascii "WARN") ∧
    levelToStream Level.INFO = some (ascii "INFO") ∧
    levelToStream Level.TRACE = some (ascii "TRACE") ∧
    levelToStream Level.VERBOSE = some (ascii "VERBOSE") ∧
    levelToStream Level.NONE = none ∧
    ∀ c, c ∈ (Logger.log (Logger.addSink (Log.init Level.INFO) 0 7) 0 1 0 Level.ERROR
        (ascii "m") none 0 1).calls →
      levelToStream c.level = some (levelToken Level.ERROR) :=
  level_tokens_and_assertion (Logger.addSink (Log.init Level.INFO) 0 7) 0 1 0 Level.ERROR
    (ascii "m") none 0 1 (by decide)

/-! ## The sink handlers -/

theorem addSink_sinks_root (h : Heap) (s : Nat) :
    (Log.addSink h s).sinks Log.root = h.sinks Log.root ++ [s] := by
  simp [Log.addSink, Logger.addSink, Heap.modify, Heap.sinks]

theorem removeSink_sinks_root (h : Heap) (s : Nat) :
    (Log.removeSink h s).sinks Log.root = (h.sinks Log.root).erase s := by
  simp [Log.removeSink, Logger.removeSink, Heap.modify, Heap.sinks]

theorem erase_fresh (sinks0 : List Nat) (n0 s : Nat) (hfresh : ∀ x, x ∈ sinks0 → x < n0)
    (hs : n0 ≤ s) : (sinks0 ++ [s]).erase s = sinks0 := by
  have hnot : s ∉ sinks0 := fun hm => by
    have := hfresh s hm
    omega
  rw [List.erase_append_right _ hnot]
  simp

theorem enableStdoutLogging_inv (sinks0 : List Nat) (n0 : Nat)
    (hfresh : ∀ x, x ∈ sinks0 → x < n0) (cur v : Bool) (st : Process)
    (hinv : StdoutInv sinks0 n0 cur st) :
    StdoutInv sinks0 n0 v (enableStdoutLogging v st) := by
  obtain ⟨hlen, hon, hoff⟩ := hinv
  cases cur with
  | true =>
    obtain ⟨s, hs, hn, hobj, hsinks⟩ := hon rfl
    unfold enableStdoutLogging
    rw [hs]
    cases v with
    | true =>
      simp only [Bool.true_eq_false, if_false]
      exact ⟨hlen, fun _ => ⟨s, hs, hn, hobj, hsinks⟩, fun hc => by cases hc⟩
    | false =>
      simp only [if_true]
      refine ⟨hlen, (fun hc => by cases hc), fun _ => ⟨rfl, ?_⟩⟩
      show (Log.removeSink st.heap s).sinks Log.root = sinks0
      rw [removeSink_sinks_root, hsinks, erase_fresh sinks0 n0 s hfresh hn]
  | false =>
    obtain ⟨hs, hsinks⟩ := hoff rfl
    unfold enableStdoutLogging
    rw [hs]
    cases v with
    | false =>
      simp only [Bool.false_eq_true, if_false]
      exact ⟨hlen, (fun hc => by cases hc), fun _ => ⟨hs, hsinks⟩⟩
    | true =>
      simp only [if_true]
      refine ⟨?_, fun _ => ⟨st.sinkObjs.length, rfl, hlen, ?_, ?_⟩, fun hc => by cases hc⟩
      · show n0 ≤ (st.sinkObjs ++ [LogSink.stdout]).length
        rw [List.length_append]; omega
      · exact List.getElem?_concat_length _ _
      · show (Log.addSink st.heap st.sinkObjs.length).sinks Log.root = _
        rw [addSink_sinks_root, hsinks]

theorem runStdout_inv (sinks0 : List Nat) (n0 : Nat) (hfresh : ∀ x, x ∈ sinks0 → x < n0) :
    ∀ (vals : List Bool) (cur : Bool) (st : Process), StdoutInv sinks0 n0 cur st →
      StdoutInv sinks0 n0 (vals.getLast?.getD cur) (runStdout vals st) := by
  intro vals
  induction vals with
  | nil => intro cur st hinv; exact hinv
  | cons v vs ih =>
    intro cur st hinv
    have h1 := ih v (enableStdoutLogging v st)
      (enableStdoutLogging_inv sinks0 n0 hfresh cur v st hinv)
    rw [List.getLast?_cons]
    exact h1

theorem enableFileLogging_inv (sinks0 : List Nat) (n0 : Nat)
    (hfresh : ∀ x, x ∈ sinks0 → x < n0) (cur v : Name) (st : Process)
    (hinv : FileInv sinks0 n0 cur st) :
    FileInv sinks0 n0 v (enableFileLogging v st) := by
  obtain ⟨hlen, hon, hoff⟩ := hinv
  have hgrow : n0 ≤ (st.sinkObjs ++ [FileLogSink.new v]).length := by
    rw [List.length_append]; omega
  by_cases hcur : cur = []
  · obtain ⟨hs, hsinks⟩ := hoff hcur
    unfold enableFileLogging
    rw [hs]
    by_cases hv : v = []
    · simp only [hv, if_true]
      exact ⟨hlen, fun hc => absurd rfl hc, fun _ => ⟨hs, hsinks⟩⟩
    · simp only [if_neg hv]
      refine ⟨hgrow, fun _ => ⟨st.sinkObjs.length, rfl, hlen, ?_, ?_⟩, fun hc => absurd hc hv⟩
      · exact List.getElem?_concat_length _ _
      · show (Log.addSink st.heap st.sinkObjs.length).sinks Log.root = _
        rw [addSink_sinks_root, hsinks]
  · obtain ⟨s, hs, hn, hobj, hsinks⟩ := hon hcur
    have hpath : (st.sinkObjs.getD s LogSink.stdout).path = cur := by
      rw [List.getD_eq_getElem?_getD, hobj]; rfl
    unfold enableFileLogging
    rw [hs]
    by_cases hv : v = []
    · simp only [hv, if_true]
      refine ⟨hlen, fun hc => absurd rfl hc, fun _ => ⟨rfl, ?_⟩⟩
      show (Log.removeSink st.heap s).sinks Log.root = sinks0
      rw [removeSink_sinks_root, hsinks, erase_fresh sinks0 n0 s hfresh hn]
    · simp only [if_neg hv, hpath]
      by_cases hsame : cur = v
      · rw [if_pos hsame]
        exact ⟨hlen, fun _ => ⟨s, hs, hn, hsame ▸ hobj, hsinks⟩, fun hc => absurd hc hv⟩
      · rw [if_neg hsame]
        refine ⟨hgrow, fun _ => ⟨st.sinkObjs.length, rfl, hlen, ?_, ?_⟩,
          fun hc => absurd hc hv⟩
        · exact List.getElem?_concat_length _ _
        · show (Log.addSink (Log.removeSink st.heap s) st.sinkObjs.length).sinks Log.root = _
          rw [addSink_sinks_root, removeSink_sinks_root, hsinks,
            erase_fresh sinks0 n0 s hfresh hn]

theorem runFile_inv (sinks0 : List Nat) (n0 : Nat) (hfresh : ∀ x, x ∈ sinks0 → x < n0) :
    ∀ (vals : List Name) (cur : Name) (st : Process), FileInv sinks0 n0 cur st →
      FileInv sinks0 n0 (vals.getLast?.getD cur) (runFile vals st) := by
  intro vals
  induction vals with
  | nil => intro cur st hinv; exact hinv
  | cons v vs ih =>
    intro cur st hinv
    have h1 := ih v (enableFileLogging v st)
      (enableFileLogging_inv sinks0 n0 hfresh cur v st hinv)
    rw [List.getLast?_cons]
    exact h1

/-- Handling again the value last handled leaves the whole process as it is:
no sink is constructed and no sink list changes. -/
theorem enableFileLogging_same (sinks0 : List Nat) (n0 : Nat) (cur : Name) (st : Process)
    (hinv : FileInv sinks0 n0 cur st) : enableFileLogging cur st = st := by
  obtain ⟨_, hon, hoff⟩ := hinv
  by_cases hcur : cur = []
  · obtain ⟨hs, _⟩ := hoff hcur
    unfold enableFileLogging
    rw [hs]
    simp only [hcur, if_true]
  · obtain ⟨s, hs, _, hobj, _⟩ := hon hcur
    have hpath : (st.sinkObjs.getD s LogSink.stdout).path = cur := by
      rw [List.getD_eq_getElem?_getD, hobj]; rfl
    unfold enableFileLogging
    rw [hs]
    simp only [if_neg hcur, hpath, if_true]

theorem count_fresh (sinks0 : List Nat) (n0 s : Nat) (hfresh : ∀ x, x ∈ sinks0 → x < n0)
    (hs : n0 ≤ s) : (sinks0 ++ [s]).count s = 1 ∧ s ∉ sinks0 := by
  have hnot : s ∉ sinks0 := fun hm => by
    have := hfresh s hm
    omega
  refine ⟨?_, hnot⟩
  rw [List.count_append, List.count_eq_zero_of_not_mem hnot, List.count_singleton_self]

/-- C18: from a process whose stdout handle is empty and whose root sinks are
existing sink objects, after any sequence of values of `log.stdout`, each
followed by the stdout handler: if the current value (the last one, `false`
when there was none) is `true`, the handle holds a `StdoutLogSink` the handler
constructed and the root's sink list is the original list followed by that
sink, which occurs in it once; if it is `false`, the handle is empty and the
root's sink list is the original one, holding no sink the handler made. -/
theorem stdout_sink_attached_once (st : Process) (vals : List Bool)
    (h0 : st.stdoutSink = none)
    (hfresh : ∀ x, x ∈ st.heap.sinks Log.root → x < st.sinkObjs.length) :
    (vals.getLast?.getD false = true →
      ∃ s, (runStdout vals st).stdoutSink = some s ∧
        (runStdout vals st).sinkObjs[s]? = some LogSink.stdout ∧
        st.sinkObjs.length ≤ s ∧
        (runStdout vals st).heap.sinks Log.root = st.heap.sinks Log.root ++ [s] ∧
        ((runStdout vals st).heap.sinks Log.root).count s = 1) ∧
    (vals.getLast?.getD false = false →
      (runStdout vals st).stdoutSink = none ∧
        (runStdout vals st).heap.sinks Log.root = st.heap.sinks Log.root ∧
        ∀ i, st.sinkObjs.length ≤ i → i ∉ (runStdout vals st).heap.sinks Log.root) := by
  have hstart : StdoutInv (st.heap.sinks Log.root) st.sinkObjs.length false st :=
    ⟨Nat.le_refl _, (fun hc => by cases hc), fun _ => ⟨h0, rfl⟩⟩
  obtain ⟨_, hon, hoff⟩ := runStdout_inv _ _ hfresh vals false st hstart
  constructor
  · intro hcur
    obtain ⟨s, hs, hn, hobj, hsinks⟩ := hon hcur
    refine ⟨s, hs, hobj, hn, hsinks, ?_⟩
    rw [hsinks]
    exact (count_fresh _ _ s hfresh hn).1
  · intro hcur
    obtain ⟨hs, hsinks⟩ := hoff hcur
    refine ⟨hs, hsinks, ?_⟩
    intro i hi hm
    rw [hsinks] at hm
    have := hfresh i hm
    omega

/-- Witness for C18: `log.stdout` going true, false, true from start-up. -/
theorem stdout_sink_attached_once_witness :
    ∃ s, (runStdout [true, false, true] (Process.start Level.INFO)).stdoutSink = some s ∧
      (runStdout [true, false, true] (Process.start Level.INFO)).sinkObjs[s]?
        = some LogSink.stdout ∧
      (Process.start Level.INFO).sinkObjs.length ≤ s ∧
      (runStdout [true, false, true] (Process.start Level.INFO)).heap.sinks Log.root =
        (Process.start Level.INFO).heap.sinks Log.root ++ [s] ∧
      ((runStdout [true, false, true] (Process.start Level.INFO)).heap.sinks Log.root).count s
        = 1 :=
  (stdout_sink_attached_once (Process.start Level.INFO) [true, false, true] rfl
    (fun x hx => by cases hx)).1 rfl

/-- C19: from a process whose file handle is empty and whose root sinks are
existing sink objects, after any sequence of values of `log.file`, each
followed by the file handler: if the current value (the last one, empty when
there was none) is empty, the handle is empty and the root's sink list is the
original one; otherwise the handle holds a `FileLogSink` the handler
constructed, whose path is the current value, and the root's sink list is the
original list followed by that one sink; and handling the current value once
more leaves the process as it is, with no sink constructed. -/
theorem file_sink_follows_value (st : Process) (vals : List Name)
    (h0 : st.fileSink = none)
    (hfresh : ∀ x, x ∈ st.heap.sinks Log.root → x < st.sinkObjs.length) :
    (vals.getLast?.getD [] = [] →
      (runFile vals st).fileSink = none ∧
        (runFile vals st).heap.sinks Log.root = st.heap.sinks Log.root ∧
        ∀ i, st.sinkObjs.length ≤ i → i ∉ (runFile vals st).heap.sinks Log.root) ∧
    (vals.getLast?.getD [] ≠ [] →
      ∃ s, (runFile vals st).fileSink = some s ∧
        (runFile vals st).sinkObjs[s]? = some (LogSink.file (vals.getLast?.getD [])) ∧
        st.sinkObjs.length ≤ s ∧
        (runFile vals st).heap.sinks Log.root = st.heap.sinks Log.root ++ [s] ∧
        ((runFile vals st).heap.sinks Log.root).count s = 1) ∧
    enableFileLogging (vals.getLast?.getD []) (runFile vals st) = runFile vals st := by
  have hstart : FileInv (st.heap.sinks Log.root) st.sinkObjs.length [] st :=
    ⟨Nat.le_refl _, (fun hc => absurd rfl hc), fun _ => ⟨h0, rfl⟩⟩
  have hfin := runFile_inv _ _ hfresh vals [] st hstart
  have hon := hfin.2.1
  have hoff := hfin.2.2
  refine ⟨?_, ?_, enableFileLogging_same _ _ _ _ hfin⟩
  · intro hcur
    obtain ⟨hs, hsinks⟩ := hoff hcur
    refine ⟨hs, hsinks, ?_⟩
    intro i hi hm
    rw [hsinks] at hm
    have := hfresh i hm
    omega
  · intro hcur
    obtain ⟨s, hs, hn, hobj, hsinks⟩ := hon hcur
    refine ⟨s, hs, hobj, hn, hsinks, ?_⟩
    rw [hsinks]
    exact (count_fresh _ _ s hfresh hn).1

/-- Witness for C19: `log.file` going `a`, `a`, `b` from start-up. -/
theorem file_sink_follows_value_witness :
    (∃ s, (runFile [ascii "a", ascii "a", ascii "b"] (Process.start Level.INFO)).fileSink
        = some s ∧
      (runFile [ascii "a", ascii "a", ascii "b"] (Process.start Level.INFO)).sinkObjs[s]?
        = some (LogSink.file (ascii "b")) ∧
      (Process.start Level.INFO).sinkObjs.length ≤ s ∧
      (runFile [ascii "a", ascii "a", ascii "b"] (Process.start Level.INFO)).heap.sinks
        Log.root = (Process.start Level.INFO).heap.sinks Log.root ++ [s] ∧
      ((runFile [ascii "a", ascii "a", ascii "b"] (Process.start Level.INFO)).heap.sinks
        Log.root).count s = 1) ∧
    enableFileLogging (ascii "b")
        (runFile [ascii "a", ascii "a", ascii "b"] (Process.start Level.INFO)) =
      runFile [ascii "a", ascii "a", ascii "b"] (Process.start Level.INFO) :=
  ⟨(file_sink_follows_value (Process.start Level.INFO) [ascii "a", ascii "a", ascii "b"] rfl
      (fun x hx => by cases hx)).2.1 (by decide),
    (file_sink_follows_value (Process.start Level.INFO) [ascii "a", ascii "a", ascii "b"] rfl
      (fun x hx => by cases hx)).2.2⟩

/-! ## `MemoryStream` -/

theorem toSizeT_le (z : Int) : toSizeT z ≤ SIZE_MAX := by
  unfold toSizeT SIZE_MAX
  have h1 : z % 2 ^ 64 < 2 ^ 64 := Int.emod_lt_of_pos z (by norm_num)
  have h2 : 0 ≤ z % 2 ^ 64 := Int.emod_nonneg z (by norm_num)
  omega

/-- A forward `seek` relative to the current position does nothing at all when
the position is beyond the end of the data. -/
theorem seekCurrent_beyond_end (s : MemoryStream) (offset : Int) (hoff : 0 ≤ offset)
    (hpos : s.m_original.readAvailable < s.m_offset) :
    s.seek offset Anchor.CURRENT = Except.ok (s, toLongLong s.m_offset) := by
  have h1 : ¬ offset < 0 := by omega
  have h2 : ¬ toSizeT ((s.m_offset : Int) + offset) > SIZE_MAX :=
    Nat.not_lt.2 (toSizeT_le _)
  have h3 : ¬ s.m_offset ≤ s.m_original.readAvailable := by omega
  simp only [MemoryStream.seek, MemoryStream.seekCurrent, if_neg h1, if_neg h2, if_neg h3]

/-- A write that starts inside the data and reaches its end leaves the read
buffer as it was: it still holds the bytes that were at the old position,
while no byte is left at the new one. -/
theorem write_to_end_stale (s : MemoryStream) (b : Buffer) (len : Nat)
    (hinv : ReadBufferAtPosition s) (hlt : s.m_offset < s.m_original.readAvailable)
    (hge : s.m_original.readAvailable ≤ s.m_offset + len) (hno : s.m_offset + len < 2 ^ 64) :
    ∃ s1, s.write b len = Except.ok (s1, len) ∧ s1.m_offset = s.m_offset + len ∧
      s1.m_original = s.m_original.take s.m_offset ++ b.take len ∧
      s1.m_read = s.m_original.drop s.m_offset ∧ s1.m_read ≠ [] ∧
      s1.m_original.drop (min s1.m_offset s1.m_original.readAvailable) = [] ∧
      ¬ ReadBufferAtPosition s1 := by
  have h1 : ¬ s.m_offset = s.m_original.readAvailable := by omega
  have h2 : ¬ s.m_offset > s.m_original.readAvailable := by omega
  have h3 : ¬ (s.m_offset + len) % 2 ^ 64 < s.m_original.readAvailable := by
    rw [Nat.mod_eq_of_lt hno]; omega
  have hread : s.m_read = s.m_original.drop s.m_offset := by
    have := hinv
    unfold ReadBufferAtPosition at this
    rw [this, Nat.min_eq_left (Nat.le_of_lt hlt)]
  have hne : s.m_original.drop s.m_offset ≠ [] := by
    intro hnil
    have hl := congrArg List.length hnil
    simp only [List.length_drop, List.length_nil, Buffer.readAvailable] at hl hlt
    omega
  have hdrop : (s.m_original.take s.m_offset ++ b.take len).drop
      (min (s.m_offset + len)
        (Buffer.readAvailable (s.m_original.take s.m_offset ++ b.take len))) = [] := by
    apply List.drop_eq_nil_of_le
    apply Nat.le_min.2
    refine ⟨?_, Nat.le_refl _⟩
    rw [List.length_append, List.length_take, List.length_take]
    omega
  refine ⟨{ m_read := s.m_read, m_original := s.m_original.take s.m_offset ++ b.take len,
            m_offset := s.m_offset + len }, ?_, rfl, rfl, hread, ?_, hdrop, ?_⟩
  · unfold MemoryStream.write MemoryStream.writeInternal
    dsimp only
    rw [if_neg h1, if_neg h2, if_neg h3, Nat.mod_eq_of_lt hno]
    rfl
  · show s.m_read ≠ []
    rw [hread]; exact hne
  · unfold ReadBufferAtPosition
    show ¬ s.m_read = _
    rw [hdrop, hread]
    exact hne

/-- C21: the read buffer should always hold the stream contents from the
current position on.  A stream built on `abc` meets this; `write("XYZ", 3)` at
position 0 replaces the contents by `XYZ` and moves to position 3, the end,
but leaves the read buffer at `abc`: the invariant fails, and the next `read`
returns the three stale bytes `abc` and moves the position to 6. -/
theorem write_keeps_stale_read_buffer :
    ReadBufferAtPosition (MemoryStream.ofBuffer (ascii "abc")) ∧
    (MemoryStream.ofBuffer (ascii "abc")).write (ascii "XYZ") 3 =
      Except.ok (MemoryStream.mk (ascii "abc") (ascii "XYZ") 3, 3) ∧
    ¬ ReadBufferAtPosition (MemoryStream.mk (ascii "abc") (ascii "XYZ") 3) ∧
    (MemoryStream.mk (ascii "abc") (ascii "XYZ") 3).read 10 =
      (MemoryStream.mk [] (ascii "XYZ") 6, ascii "abc", 3) := by
  refine ⟨by decide, by rfl, by decide, by rfl⟩

/-- C22: `seek(offset, CURRENT)` should move the position to the old position
plus `offset`, and `seek(offset, END)` to the size plus `offset`, also from a
position beyond the end.  On an empty stream moved to position 5 by
`seek(5, BEGIN)`, `seek(3, CURRENT)` returns 5 and leaves the position at 5,
not 8, and `seek(10, END)` returns 5 and leaves the position at 5, not 10;
neither call raises. -/
theorem seek_forward_beyond_end_stays :
    MemoryStream.empty.seek 5 Anchor.BEGIN = Except.ok (MemoryStream.mk [] [] 5, 5) ∧
    (MemoryStream.mk [] [] 5).seek 3 Anchor.CURRENT = Except.ok (MemoryStream.mk [] [] 5, 5) ∧
    (MemoryStream.mk [] [] 5).seek 10 Anchor.END = Except.ok (MemoryStream.mk [] [] 5, 5) := by
  refine ⟨by rfl, by rfl, by rfl⟩

/-! ### The other paths keep the read buffer at the position -/

theorem read_keeps_position (s : MemoryStream) (len : Nat) (hinv : ReadBufferAtPosition s)
    (hfit : s.m_offset ≤ SIZE_MAX ∧ s.m_original.readAvailable ≤ SIZE_MAX) :
    ReadBufferAtPosition (s.read len).1 := by
  unfold ReadBufferAtPosition at hinv ⊢
  unfold SIZE_MAX at hfit
  simp only [MemoryStream.read, Buffer.readAvailable, Buffer.consume] at hinv ⊢
  have hlen : s.m_read.length = s.m_original.length - min s.m_offset s.m_original.length := by
    rw [hinv, List.length_drop]
  have hsmall : s.m_offset + min len s.m_read.length < 2 ^ 64 := by
    rw [hlen]
    have h1 := hfit.1
    have h2 := hfit.2
    simp only [Buffer.readAvailable] at h2
    omega
  rw [Nat.mod_eq_of_lt hsmall]
  rw [hinv, List.drop_drop]
  congr 1
  rw [← hinv, hlen]
  omega

theorem seekBegin_keeps_position (s s1 : MemoryStream) (offset r : Int)
    (hs : s.seekBegin offset = Except.ok (s1, r)) : ReadBufferAtPosition s1 := by
  unfold MemoryStream.seekBegin at hs
  dsimp only at hs
  split_ifs at hs
  have hs1 := congrArg Prod.fst (Except.ok.inj hs)
  dsimp only at hs1
  rw [← hs1]
  unfold ReadBufferAtPosition
  simp only [Buffer.clear, Buffer.copyIn, Buffer.consume, Buffer.readAvailable,
    List.nil_append, List.take_length]

theorem truncate_keeps_position (s s1 : MemoryStream) (size : Int)
    (hinv : ReadBufferAtPosition s) (hs : s.truncate size = Except.ok s1) :
    ReadBufferAtPosition s1 := by
  unfold MemoryStream.truncate at hs
  dsimp only at hs
  split_ifs at hs with h1 h2 h3 h4
  · injection hs with hs
    rw [← hs]; exact hinv
  · injection hs with hs
    rw [← hs]
    unfold ReadBufferAtPosition
    simp only [Buffer.clear, Buffer.copyIn, Buffer.consume, Buffer.readAvailable,
      List.nil_append, List.take_take, Nat.min_self, List.length_take] at h4 ⊢
    rw [Nat.min_eq_left (Nat.le_of_lt h4)]
  · injection hs with hs
    rw [← hs]
    unfold ReadBufferAtPosition
    simp only [Buffer.clear, Buffer.copyInAll, Buffer.produceZeros, Buffer.consume,
      Buffer.readAvailable, List.nil_append, List.length_append, List.length_replicate]
      at h3 h4 ⊢
    congr 2
    omega

theorem toSizeT_of_nonneg (z : Int) (h0 : 0 ≤ z) (h1 : z < 2 ^ 64) : toSizeT z = z.toNat := by
  unfold toSizeT
  rw [Int.emod_eq_of_lt h0 h1]

theorem toLongLong_of_small (z : Int) (h0 : -2 ^ 63 ≤ z) (h1 : z < 2 ^ 63) :
    toLongLong z = z := by
  unfold toLongLong
  rw [Int.emod_eq_of_lt (by omega) (by omega)]
  omega

theorem seekCurrent_keeps_position (s s1 : MemoryStream) (offset r : Int)
    (hinv : ReadBufferAtPosition s) (hsize : s.m_original.readAvailable < 2 ^ 63)
    (hrange : offset < 2 ^ 63) (hs : s.seekCurrent offset = Except.ok (s1, r)) :
    ReadBufferAtPosition s1 := by
  unfold MemoryStream.seekCurrent at hs
  dsimp only at hs
  split_ifs at hs with h1 h2 h3
  · exact seekBegin_keeps_position s s1 _ r hs
  · have hs1 := congrArg Prod.fst (Except.ok.inj hs)
    dsimp only at hs1
    rw [← hs1]
    have h0 : 0 ≤ offset := by omega
    have ho : toSizeT offset = offset.toNat := toSizeT_of_nonneg offset h0 (by omega)
    have hlt : offset.toNat < 2 ^ 63 := by omega
    unfold ReadBufferAtPosition at hinv ⊢
    simp only [Buffer.readAvailable, Buffer.consume] at hinv hsize h3 ⊢
    rw [ho, Nat.mod_eq_of_lt (by omega), hinv, List.drop_drop]
    congr 1
    omega
  · have hs1 := congrArg Prod.fst (Except.ok.inj hs)
    dsimp only at hs1
    rw [← hs1]; exact hinv

/-- `seek` keeps the read buffer at the position, whatever the anchor. -/
theorem seek_keeps_position (s s1 : MemoryStream) (offset r : Int) (anchor : Anchor)
    (hinv : ReadBufferAtPosition s) (hsize : s.m_original.readAvailable < 2 ^ 63)
    (hrange : offset < 2 ^ 63) (hs : s.seek offset anchor = Except.ok (s1, r)) :
    ReadBufferAtPosition s1 := by
  cases anchor with
  | BEGIN => exact seekBegin_keeps_position s s1 offset r hs
  | CURRENT => exact seekCurrent_keeps_position s s1 offset r hinv hsize hrange hs
  | END =>
    apply seekCurrent_keeps_position s s1 _ r hinv hsize _ hs
    unfold toLongLong
    have : ((s.m_original.readAvailable : Int) + offset - (s.m_offset : Int) + 2 ^ 63) % 2 ^ 64
        < 2 ^ 64 := Int.emod_lt_of_pos _ (by norm_num)
    omega

theorem truncate_size (s s1 : MemoryStream) (size : Int)
    (hs : s.truncate size = Except.ok s1) :
    s1.m_original.readAvailable = toSizeT size ∧ s1.m_offset = s.m_offset := by
  unfold MemoryStream.truncate at hs
  dsimp only at hs
  split_ifs at hs with h1 h2 h3 h4
  · have hs1 := Except.ok.inj hs
    rw [← hs1]; exact ⟨h3, rfl⟩
  · have hs1 := Except.ok.inj hs
    rw [← hs1]
    simp only [Buffer.clear, Buffer.copyIn, Buffer.readAvailable, List.nil_append,
      List.length_take] at h4 ⊢
    exact ⟨Nat.min_eq_left (Nat.le_of_lt h4), trivial⟩
  · have hs1 := Except.ok.inj hs
    rw [← hs1]
    simp only [Buffer.produceZeros, Buffer.readAvailable, List.length_append,
      List.length_replicate] at h3 h4 ⊢
    exact ⟨by omega, trivial⟩

/-- Every path of `write` but the one that starts inside the data and reaches
its end keeps the read buffer at the position. -/
theorem write_keeps_position (s s1 : MemoryStream) (b : Buffer) (len r : Nat)
    (hinv : ReadBufferAtPosition s) (hb : len ≤ b.readAvailable)
    (hno : s.m_offset + len < 2 ^ 64)
    (hpath : ¬ (s.m_offset < s.m_original.readAvailable ∧
      s.m_original.readAvailable ≤ s.m_offset + len))
    (hs : s.write b len = Except.ok (s1, r)) : ReadBufferAtPosition s1 := by
  unfold MemoryStream.write MemoryStream.writeInternal at hs
  dsimp only at hs
  unfold ReadBufferAtPosition at hinv ⊢
  simp only [Buffer.readAvailable] at hinv hb hpath hs ⊢
  split_ifs at hs with h1 h2 h3
  · have hs1 := congrArg Prod.fst (Except.ok.inj hs)
    dsimp only at hs1
    rw [← hs1]
    simp only [Buffer.copyIn]
    rw [Nat.mod_eq_of_lt hno, hinv, h1, Nat.min_self, List.drop_length]
    symm
    apply List.drop_eq_nil_of_le
    rw [List.length_append, List.length_take, Nat.min_eq_left hb]
    omega
  · cases ht : s.truncate (toLongLong (s.m_offset : Int)) with
    | error e => rw [ht] at hs; cases hs
    | ok s2 =>
      rw [ht] at hs
      have hs1 := congrArg Prod.fst (Except.ok.inj hs)
      dsimp only at hs1
      rw [← hs1]
      obtain ⟨hsz, hoff⟩ := truncate_size s s2 _ ht
      have hnn : 0 ≤ toLongLong (s.m_offset : Int) := by
        unfold MemoryStream.truncate at ht
        dsimp only at ht
        by_contra hneg
        rw [if_pos (by omega)] at ht
        cases ht
      have hll : toLongLong (s.m_offset : Int) = s.m_offset := by
        unfold toLongLong at hnn ⊢
        omega
      have hlen2 : s2.m_original.length = s.m_offset := by
        simp only [Buffer.readAvailable] at hsz
        rw [hsz, hll, toSizeT_of_nonneg _ (by omega) (by omega)]
        omega
      have hinv2 := truncate_keeps_position s s2 _
        (by unfold ReadBufferAtPosition; simp only [Buffer.readAvailable]; exact hinv) ht
      unfold ReadBufferAtPosition at hinv2
      simp only [Buffer.readAvailable] at hinv2
      simp only [Buffer.copyIn]
      rw [hoff, Nat.mod_eq_of_lt hno, hinv2, hoff, hlen2, Nat.min_self, ← hlen2,
        List.drop_length]
      symm
      apply List.drop_eq_nil_of_le
      rw [List.length_append, List.length_take, Nat.min_eq_left hb]
      omega
  · have hin : s.m_offset + len < s.m_original.length := by
      rw [Nat.mod_eq_of_lt hno] at h3
      exact h3
    rw [Nat.mod_eq_of_lt hno] at hs
    have hs1 := congrArg Prod.fst (Except.ok.inj hs)
    dsimp only at hs1
    rw [← hs1]
    simp only [Buffer.clear, Buffer.copyIn, Buffer.copyInAll, Buffer.consume,
      Buffer.readAvailable, List.nil_append, List.take_length]
    have hl : (List.take s.m_offset s.m_original ++ List.take len b ++
        List.drop len (List.drop s.m_offset s.m_original)).length = s.m_original.length := by
      simp only [List.length_append, List.length_take, List.length_drop]
      omega
    have hl2 : (List.take s.m_offset s.m_original ++ List.take len b).length
        = s.m_offset + len := by
      simp only [List.length_append, List.length_take]
      omega
    rw [hl, Nat.min_eq_left (Nat.le_of_lt hin), ← hl2, List.drop_left]
  · exfalso
    rw [Nat.mod_eq_of_lt hno] at h3
    exact hpath ⟨by omega, by omega⟩

theorem seekBegin_result (s : MemoryStream) (offset : Int) (hrange : offset < 2 ^ 63) :
    (offset < 0 → s.seekBegin offset = Except.error StreamError.negativeOffset) ∧
    (0 ≤ offset → ∃ s1, s.seekBegin offset = Except.ok (s1, offset) ∧
      (s1.m_offset : Int) = offset) := by
  constructor
  · intro hneg
    unfold MemoryStream.seekBegin
    dsimp only
    rw [if_pos hneg]
  · intro hnn
    have h1 : ¬ offset < 0 := by omega
    have h2 : ¬ toSizeT offset > SIZE_MAX := Nat.not_lt.2 (toSizeT_le _)
    have h3 : toSizeT offset = offset.toNat := toSizeT_of_nonneg offset hnn (by omega)
    have h4 : toLongLong ((offset.toNat : Nat) : Int) = offset := by
      rw [Int.toNat_of_nonneg hnn]
      exact toLongLong_of_small offset (by omega) hrange
    unfold MemoryStream.seekBegin
    dsimp only
    rw [if_neg h1, if_neg h2, h3, h4]
    exact ⟨_, rfl, Int.toNat_of_nonneg hnn⟩

/-- From a position inside the data (or at its end) `seek` does what is asked:
it raises when the target position is negative, and otherwise moves to the
target and returns it. -/
theorem seek_from_inside (s : MemoryStream) (offset : Int) (anchor : Anchor)
    (hpos : s.m_offset ≤ s.m_original.readAvailable)
    (hsize : s.m_original.readAvailable < 2 ^ 62)
    (hlo : -2 ^ 62 ≤ offset) (hhi : offset < 2 ^ 62) :
    (seekTarget s offset anchor < 0 →
      s.seek offset anchor = Except.error StreamError.negativeOffset) ∧
    (0 ≤ seekTarget s offset anchor →
      ∃ s1, s.seek offset anchor = Except.ok (s1, seekTarget s offset anchor) ∧
        (s1.m_offset : Int) = seekTarget s offset anchor) := by
  simp only [Buffer.readAvailable] at hpos hsize
  have hcur : ∀ x : Int, -2 ^ 63 ≤ x → x < 2 ^ 63 → -2 ^ 62 ≤ (s.m_offset : Int) + x →
      (s.m_offset : Int) + x < 2 ^ 63 →
      ((s.m_offset : Int) + x < 0 →
        s.seekCurrent x = Except.error StreamError.negativeOffset) ∧
      (0 ≤ (s.m_offset : Int) + x →
        ∃ s1, s.seekCurrent x = Except.ok (s1, (s.m_offset : Int) + x) ∧
          (s1.m_offset : Int) = (s.m_offset : Int) + x) := by
    intro x hx0 hx1 hx2 hx3
    by_cases hneg : x < 0
    · have hll : toLongLong ((s.m_offset : Int) + x) = (s.m_offset : Int) + x :=
        toLongLong_of_small _ (by omega) (by omega)
      have hb := seekBegin_result s ((s.m_offset : Int) + x) (by omega)
      unfold MemoryStream.seekCurrent
      dsimp only
      rw [if_pos hneg, hll]
      exact hb
    · have hnn : 0 ≤ x := by omega
      have h2 : ¬ toSizeT ((s.m_offset : Int) + x) > SIZE_MAX := Nat.not_lt.2 (toSizeT_le _)
      have h3 : toSizeT x = x.toNat := toSizeT_of_nonneg x hnn (by omega)
      have h4 : (s.m_offset + x.toNat) % 2 ^ 64 = s.m_offset + x.toNat :=
        Nat.mod_eq_of_lt (by omega)
      have h5 : (((s.m_offset + x.toNat : Nat) : Int)) = (s.m_offset : Int) + x := by
        push_cast
        rw [Int.toNat_of_nonneg hnn]
      refine ⟨fun h => by omega, fun _ => ?_⟩
      unfold MemoryStream.seekCurrent
      dsimp only
      simp only [Buffer.readAvailable]
      rw [if_neg hneg, if_neg h2, if_pos hpos, h3, h4, h5,
        toLongLong_of_small _ (by omega) (by omega)]
      exact ⟨_, rfl, h5⟩
  cases anchor with
  | BEGIN =>
    simp only [seekTarget, MemoryStream.seek]
    exact seekBegin_result s offset (by omega)
  | CURRENT =>
    simp only [seekTarget, MemoryStream.seek]
    exact hcur offset (by omega) (by omega) (by omega) (by omega)
  | END =>
    have hx : toLongLong ((s.m_original.readAvailable : Int) + offset - (s.m_offset : Int))
        = (s.m_original.length : Int) + offset - (s.m_offset : Int) := by
      simp only [Buffer.readAvailable]
      exact toLongLong_of_small _ (by omega) (by omega)
    have hc := hcur ((s.m_original.length : Int) + offset - (s.m_offset : Int))
      (by omega) (by omega) (by omega) (by omega)
    have he : (s.m_offset : Int) + ((s.m_original.length : Int) + offset - (s.m_offset : Int))
        = (s.m_original.length : Int) + offset := by omega
    rw [he] at hc
    simp only [seekTarget, MemoryStream.seek, Buffer.readAvailable] at hx ⊢
    rw [hx]
    exact hc

end Mordor
